import Mathlib

/-!
# Verification of the jsonformatter core (shallow embedding)

This file embeds the JSON validation / formatting / structure-analysis
pipeline of the repository (`src/models/json_data.py`,
`src/services/json_processor.py`, `src/services/comment_service.py`) in
Lean 4 and proves the specification claims about it.

Python strings are modelled as lists of Unicode code points (`PyStr`),
because CPython strings may hold lone surrogates (reachable through
`\uXXXX` escapes in JSON input), which Lean's `Char` cannot represent.

`json.loads` / `json.dumps` (the parts reachable from
`JSONData.validate` / `JSONData.format`, i.e. `loads` with default
arguments and `dumps(indent=<int>, sort_keys=<bool>, ensure_ascii=False)`)
are embedded faithfully after CPython's `json` package, with two standard
abstractions:

* binary64 floats are modelled as exact decimal rationals: a JSON real
  literal `m.fE±e` denotes the exact rational it spells, and the float
  serializer prints the canonical terminating decimal expansion of that
  rational (CPython prints `repr` of the nearest double, which is a
  round-trip-faithful shortest representation of the rounded value);
  `NaN`, `Infinity` and `-Infinity` are separate constructors;
* resource exhaustion (CPython's `RecursionError` on very deeply nested
  input) is not modelled: the embedded parser is total.
-/

set_option maxHeartbeats 1000000

namespace JsonFmt

/-- A Python `str`: a list of Unicode code points (lone surrogates allowed,
as in CPython). -/
abbrev PyStr := List Nat

/-- Embed a Lean string literal as a `PyStr` (for inputs that contain no
lone surrogates this is a faithful image of the Python string). -/
def toPy (s : String) : PyStr := s.data.map Char.toNat

/-- The exact set of code points stripped by Python's `str.strip()`
(Unicode whitespace, as enumerated from CPython's `Py_UNICODE_ISSPACE`). -/
def pyIsSpace (c : Nat) : Bool :=
  (9 ≤ c && c ≤ 13) || (28 ≤ c && c ≤ 31) || c == 32 || c == 0x85 ||
  c == 0xa0 || c == 0x1680 || (0x2000 ≤ c && c ≤ 0x200a) ||
  c == 0x2028 || c == 0x2029 || c == 0x202f || c == 0x205f || c == 0x3000

/-- `str.lstrip()` with no argument. -/
def pyStripLeft : PyStr → PyStr
  | [] => []
  | c :: cs => if pyIsSpace c then pyStripLeft cs else c :: cs

/-- `str.strip()` with no argument: strip Unicode whitespace on both sides. -/
def pyStrip (s : PyStr) : PyStr :=
  (pyStripLeft (pyStripLeft s).reverse).reverse

/-- The exact set of line boundaries recognised by Python's
`str.splitlines()` (besides the `\r\n` pair, which is handled separately). -/
def pyIsLineBreak (c : Nat) : Bool :=
  (10 ≤ c && c ≤ 13) || (28 ≤ c && c ≤ 30) || c == 0x85 ||
  c == 0x2028 || c == 0x2029

/-- Helper for `pySplitlines`: `acc` is the reversed current line; the
`\r\n` pair is one boundary, any other break character splits alone. -/
def pySplitlinesAux : PyStr → PyStr → List PyStr
  | [], acc => if acc.isEmpty then [] else [acc.reverse]
  | 13 :: 10 :: cs, acc => acc.reverse :: pySplitlinesAux cs []
  | c :: cs, acc =>
    if pyIsLineBreak c then acc.reverse :: pySplitlinesAux cs []
    else pySplitlinesAux cs (c :: acc)

/-- Python's `str.splitlines()` (without `keepends`). -/
def pySplitlines (s : PyStr) : List PyStr := pySplitlinesAux s []

/-- `"\n".join(lines)` -/
def pyJoinNl (lines : List PyStr) : PyStr :=
  match lines with
  | [] => []
  | l :: ls => l ++ (ls.map (fun x => 10 :: x)).flatten

/-- `doc.count('\n', 0, pos) + 1`, the 1-based line number CPython's
`JSONDecodeError` computes for an error position. -/
def pyLineno (doc : PyStr) (pos : Nat) : Nat :=
  ((doc.take pos).filter (· == 10)).length + 1

/-- `pos - doc.rfind('\n', 0, pos)`, the 1-based column number CPython's
`JSONDecodeError` computes for an error position (`rfind` is `-1` when
there is no newline before `pos`). -/
def pyColno (doc : PyStr) (pos : Nat) : Nat :=
  (doc.take pos).reverse.indexOf 10 + 1

/-- Little-endian decimal digits of `n` (empty for `0`), with fuel. -/
def natDigitsRev : Nat → Nat → List Nat
  | 0, _ => []
  | _ + 1, 0 => []
  | fuel + 1, n => n % 10 :: natDigitsRev fuel (n / 10)

/-- Decimal representation of a natural number as ASCII code points
(Python `repr` of a nonnegative `int`). -/
def pyNatRepr (n : Nat) : PyStr :=
  if n = 0 then [48] else ((natDigitsRev n n).map (· + 48)).reverse

/-- Python `repr` of an `int` (no `-0`: Python integers are exact). -/
def pyIntRepr (i : Int) : PyStr :=
  if i < 0 then 45 :: pyNatRepr i.natAbs else pyNatRepr i.natAbs

/-- Least `k` (within `fuel` steps above `start`) with `den ∣ 10 ^ k`. -/
def leastPow10Aux (den : Nat) : Nat → Nat → Nat
  | 0, k => k
  | fuel + 1, k => if 10 ^ k % den = 0 then k else leastPow10Aux den fuel (k + 1)

/-- Least `k` with `den ∣ 10 ^ k`, for denominators of decimal rationals. -/
def leastPow10 (den : Nat) : Nat := leastPow10Aux den den 0

/-- `q` has a terminating decimal expansion (every float produced by the
parser does). -/
def isDec (q : ℚ) : Bool := 10 ^ leastPow10 q.den % q.den == 0

/-! ## The parsed JSON value domain

`json.loads` produces `None` / `True` / `False` / `int` / `float` / `str`
/ `list` / `dict`.  Floats are modelled as exact decimal rationals, with
the non-finite constants as separate constructors (see the header).
Arrays and objects use bespoke mutual list types so that all recursive
functions are structural (and hence reduce inside the kernel). -/

mutual

inductive JsonValue : Type where
  | jnull : JsonValue
  | jtrue : JsonValue
  | jfalse : JsonValue
  | jint (n : Int) : JsonValue
  | jfloat (q : ℚ) : JsonValue
  | jnan : JsonValue
  | jinf : JsonValue
  | jneginf : JsonValue
  | jstr (s : PyStr) : JsonValue
  | jarr (xs : JsonList) : JsonValue
  | jobj (kvs : JsonPairs) : JsonValue
  deriving DecidableEq

inductive JsonList : Type where
  | nil : JsonList
  | cons (hd : JsonValue) (tl : JsonList) : JsonList
  deriving DecidableEq

inductive JsonPairs : Type where
  | nil : JsonPairs
  | cons (k : PyStr) (v : JsonValue) (tl : JsonPairs) : JsonPairs
  deriving DecidableEq

end

namespace JsonList

def length : JsonList → Nat
  | nil => 0
  | cons _ tl => 1 + tl.length

/-- The first `n` elements, as a plain Lean list (`data[:n]`). -/
def takeList : Nat → JsonList → List JsonValue
  | 0, _ => []
  | _, nil => []
  | n + 1, cons hd tl => hd :: takeList n tl

end JsonList

namespace JsonPairs

def length : JsonPairs → Nat
  | nil => 0
  | cons _ _ tl => 1 + tl.length

def keys : JsonPairs → List PyStr
  | nil => []
  | cons k _ tl => k :: tl.keys

def lookup : JsonPairs → PyStr → Option JsonValue
  | nil, _ => none
  | cons k v tl, key => if k = key then some v else tl.lookup key

def hasKey (p : JsonPairs) (key : PyStr) : Bool := (p.lookup key).isSome

/-- `d[k] = v` on a Python dict represented as an insertion-ordered
association list: an existing key keeps its position and gets the new
value, a new key is appended. -/
def setKey : JsonPairs → PyStr → JsonValue → JsonPairs
  | nil, key, v => cons key v nil
  | cons k v' tl, key, v =>
    if k = key then cons k v tl else cons k v' (tl.setKey key v)

end JsonPairs

/-- `dict(pairs)`: left fold of `d[k] = v` starting from the empty dict. -/
def dictAdd (acc : JsonPairs) : JsonPairs → JsonPairs
  | .nil => acc
  | .cons k v tl => dictAdd (acc.setKey k v) tl

/-- Python's `dict(pairs)` on a list of key/value pairs: position of the
first occurrence of each key, value of the last. -/
def dictOfPairs (p : JsonPairs) : JsonPairs := dictAdd .nil p

/-- Lexicographic code-point `≤` on Python strings (the order used by
`sorted` on `str`). -/
def pyStrLe : PyStr → PyStr → Bool
  | [], _ => true
  | _ :: _, [] => false
  | a :: as, b :: bs => if a < b then true else if b < a then false else pyStrLe as bs

/-- Stable insertion into a key-sorted pair list (`sorted` helper). -/
def JsonPairs.insertSorted (key : PyStr) (v : JsonValue) : JsonPairs → JsonPairs
  | .nil => .cons key v .nil
  | .cons k v' tl =>
    if pyStrLe key k then .cons key v (.cons k v' tl)
    else .cons k v' (tl.insertSorted key v)

/-- `sorted(dct.items())` (stable, ascending by key; the values are never
compared because dict keys are unique). -/
def JsonPairs.sortByKey : JsonPairs → JsonPairs
  | .nil => .nil
  | .cons k v tl => (sortByKey tl).insertSorted k v

/-- `type(item).__name__` for a parsed JSON value (a CPython type name). -/
def pyTypeName : JsonValue → PyStr
  | .jnull => toPy "NoneType"
  | .jtrue | .jfalse => toPy "bool"
  | .jint _ => toPy "int"
  | .jfloat _ | .jnan | .jinf | .jneginf => toPy "float"
  | .jstr _ => toPy "str"
  | .jarr _ => toPy "list"
  | .jobj _ => toPy "dict"

mutual

/-- Recursive key-uniqueness of every object node (an invariant of every
value produced by the parser, where objects go through `dict(pairs)`). -/
def wfV : JsonValue → Bool
  | .jfloat q => isDec q
  | .jarr xs => wfL xs
  | .jobj kvs => kvs.keys.Nodup && wfP kvs
  | _ => true

def wfL : JsonList → Bool
  | .nil => true
  | .cons hd tl => wfV hd && wfL tl

def wfP : JsonPairs → Bool
  | .nil => true
  | .cons _ v tl => wfV v && wfP tl

end

mutual

/-- Recursively sort all object nodes by key when `sk` is true (the value
that re-parsing `json.dumps(v, sort_keys=sk)` produces). -/
def canonV (sk : Bool) : JsonValue → JsonValue
  | .jarr xs => .jarr (canonL sk xs)
  | .jobj kvs => .jobj (if sk then (canonP sk kvs).sortByKey else canonP sk kvs)
  | v => v

def canonL (sk : Bool) : JsonList → JsonList
  | .nil => .nil
  | .cons hd tl => .cons (canonV sk hd) (canonL sk tl)

def canonP (sk : Bool) : JsonPairs → JsonPairs
  | .nil => .nil
  | .cons k v tl => .cons k (canonV sk v) (canonP sk tl)

end

mutual

/-- Python `==` on parsed JSON values (deep equality).  `nan` is not equal
to itself; `1 == True == 1.0`; dict comparison ignores insertion order.
(The CPython identity fast path in list/dict comparison never fires when
comparing the results of two separate parses, so it is not modelled.) -/
def deepEqV : JsonValue → JsonValue → Bool
  | .jnull, .jnull => true
  | .jtrue, .jtrue => true
  | .jfalse, .jfalse => true
  | .jtrue, .jint n => n == 1
  | .jint n, .jtrue => n == 1
  | .jfalse, .jint n => n == 0
  | .jint n, .jfalse => n == 0
  | .jtrue, .jfloat q => q == 1
  | .jfloat q, .jtrue => q == 1
  | .jfalse, .jfloat q => q == 0
  | .jfloat q, .jfalse => q == 0
  | .jint n, .jint m => n == m
  | .jint n, .jfloat q => (n : ℚ) == q
  | .jfloat q, .jint n => q == (n : ℚ)
  | .jfloat q, .jfloat r => q == r
  | .jinf, .jinf => true
  | .jneginf, .jneginf => true
  | .jstr s, .jstr t => s == t
  | .jarr xs, .jarr ys => deepEqL xs ys
  | .jobj kvs, .jobj kvs' =>
    kvs.length == kvs'.length && deepEqMembers kvs kvs'
  | _, _ => false

def deepEqL : JsonList → JsonList → Bool
  | .nil, .nil => true
  | .cons x xs, .cons y ys => deepEqV x y && deepEqL xs ys
  | _, _ => false

/-- Every pair of the first dict is present (by key lookup) in the second
with a `==`-equal value. -/
def deepEqMembers : JsonPairs → JsonPairs → Bool
  | .nil, _ => true
  | .cons k v tl, other =>
    (match other.lookup k with
     | some w => deepEqV v w
     | none => false) && deepEqMembers tl other

end

/-- The numeric value of a big-endian ASCII digit string. -/
def digitsVal (ds : PyStr) : Nat := ds.foldl (fun a d => a * 10 + (d - 48)) 0

/-- Concatenation of `JsonList`s. -/
def jlConcat : JsonList → JsonList → JsonList
  | .nil, ys => ys
  | .cons x xs, ys => .cons x (jlConcat xs ys)

/-- Concatenation of `JsonPairs`. -/
def jpConcat : JsonPairs → JsonPairs → JsonPairs
  | .nil, ys => ys
  | .cons k v xs, ys => .cons k v (jpConcat xs ys)

/-- `(k, v)` occurs (positionally) among the pairs. -/
def JsonPairs.pairMemB (k : PyStr) (v : JsonValue) : JsonPairs → Bool
  | .nil => false
  | .cons k' v' tl => (decide (k' = k) && decide (v' = v)) || tl.pairMemB k v

/-- The pair list is weakly sorted by key. -/
def jpSortedB : JsonPairs → Bool
  | .nil => true
  | .cons k _ tl =>
    (match tl with
     | .nil => true
     | .cons k' _ _ => pyStrLe k k') && jpSortedB tl

mutual

/-- No `NaN` occurs anywhere in the value (Python's `nan` is not equal to
itself, so deep equality can only be reflexive away from `NaN`). -/
def noNaNV : JsonValue → Bool
  | .jnan => false
  | .jarr xs => noNaNL xs
  | .jobj kvs => noNaNP kvs
  | _ => true

def noNaNL : JsonList → Bool
  | .nil => true
  | .cons hd tl => noNaNV hd && noNaNL tl

def noNaNP : JsonPairs → Bool
  | .nil => true
  | .cons _ v tl => noNaNV v && noNaNP tl

end

/-- A suffix that cannot extend a number token nor a literal (the
contexts in which serializer output is re-parsed: end of document, or a
separator/closer/newline follows). -/
def numSafe : PyStr → Bool
  | [] => true
  | c :: _ => c == 44 || c == 93 || c == 125 || c == 10

/-! ## The parser (`json.loads` with default arguments)

A faithful embedding of CPython's scanner (`json/scanner.py`,
`json/decoder.py`, and the `_json` C accelerator that `loads` actually
dispatches to; the C scanner differs from the pure-Python one only in the
position/message of the two string-escape errors, and the C behaviour is
used).  The functions walk the remaining suffix of the document and carry
the absolute position for error reporting.  Recursion is by explicit fuel
so that everything reduces inside the kernel; `scanOnce_no_out` below
proves the fuel used by `jsonLoads` sufficient. -/

/-- JSON parsing whitespace, `[ \t\n\r]` (the `WHITESPACE` regex). -/
def jsonWs (c : Nat) : Bool := c == 32 || c == 9 || c == 10 || c == 13

/-- Skip a run of JSON whitespace (`WHITESPACE.match(s, pos).end()`). -/
def skipWs : PyStr → Nat → PyStr × Nat
  | [], pos => ([], pos)
  | c :: cs, pos => if jsonWs c then skipWs cs (pos + 1) else (c :: cs, pos)

/-- Append an element to a `JsonList`. -/
def jlAppend : JsonList → JsonValue → JsonList
  | .nil, v => .cons v .nil
  | .cons hd tl, v => .cons hd (jlAppend tl v)

/-- Append a pair to a `JsonPairs`. -/
def jpAppend : JsonPairs → PyStr → JsonValue → JsonPairs
  | .nil, k, v => .cons k v .nil
  | .cons k' v' tl, k, v => .cons k' v' (jpAppend tl k v)

/-- A `JSONDecodeError` before message formatting: the raw message and the
0-based error position. -/
structure JsonError where
  msg : PyStr
  pos : Nat
  deriving DecidableEq

/-- Result of a scanner function: a value plus the rest of the document
and the new absolute position, an error, or fuel exhaustion (proved
unreachable for the fuel `jsonLoads` supplies). -/
inductive PRes (α : Type) where
  | ok (v : α) (rest : PyStr) (pos : Nat) : PRes α
  | err (msg : PyStr) (pos : Nat) : PRes α
  | out : PRes α
  deriving DecidableEq

/-- Value of a hexadecimal digit code point. -/
def hexVal (c : Nat) : Option Nat :=
  if 48 ≤ c ∧ c ≤ 57 then some (c - 48)
  else if 97 ≤ c ∧ c ≤ 102 then some (c - 87)
  else if 65 ≤ c ∧ c ≤ 70 then some (c - 55)
  else none

/-- Decode exactly four hex digits (`\uXXXX`); the C scanner accepts only
plain hex digits here. -/
def hex4 : PyStr → Option Nat
  | a :: b :: c :: d :: _ =>
    match hexVal a, hexVal b, hexVal c, hexVal d with
    | some x, some y, some z, some w => some (((x * 16 + y) * 16 + z) * 16 + w)
    | _, _, _, _ => none
  | _ => none

/-- The `BACKSLASH` escape table. -/
def backslashEsc (c : Nat) : Option Nat :=
  if c == 34 then some 34        -- \"
  else if c == 92 then some 92   -- backslash
  else if c == 47 then some 47   -- \/
  else if c == 98 then some 8    -- \b
  else if c == 102 then some 12  -- \f
  else if c == 110 then some 10  -- \n
  else if c == 114 then some 13  -- \r
  else if c == 116 then some 9   -- \t
  else none

/-- `scanstring(s, end)`: `begin` is the index of the opening quote, the
input starts just after it at absolute position `pos`, `acc` is the
reversed decoded prefix.  Error positions follow the C scanner: invalid
control character at the character itself, invalid escape at the
backslash, invalid `\uXXXX` at the `u`. -/
def scanString : Nat → Nat → PyStr → Nat → PyStr → PRes PyStr
  | 0, _, _, _, _ => .out
  | _ + 1, begin, [], _, _ =>
    .err (toPy "Unterminated string starting at") begin
  | fuel + 1, begin, c :: rs, pos, acc =>
    if c == 34 then .ok acc.reverse rs (pos + 1)
    else if c == 92 then
      match rs with
      | [] => .err (toPy "Unterminated string starting at") begin
      | e :: rs' =>
        if e == 117 then
          match hex4 rs' with
          | none => .err (toPy "Invalid \\uXXXX escape") (pos + 1)
          | some uni =>
            let rs'' := rs'.drop 4
            if 0xd800 ≤ uni ∧ uni ≤ 0xdbff ∧ rs''.take 2 = [92, 117] then
              match hex4 (rs''.drop 2) with
              | none => .err (toPy "Invalid \\uXXXX escape") (pos + 7)
              | some uni2 =>
                if 0xdc00 ≤ uni2 ∧ uni2 ≤ 0xdfff then
                  let ch := 0x10000 + ((uni - 0xd800) * 1024 + (uni2 - 0xdc00))
                  scanString fuel begin (rs''.drop 6) (pos + 12) (ch :: acc)
                else scanString fuel begin rs'' (pos + 6) (uni :: acc)
            else scanString fuel begin rs'' (pos + 6) (uni :: acc)
        else
          match backslashEsc e with
          | some ch => scanString fuel begin rs' (pos + 2) (ch :: acc)
          | none => .err (toPy "Invalid \\escape") pos
    else if c < 32 then .err (toPy "Invalid control character at") pos
    else scanString fuel begin rs (pos + 1) (c :: acc)

/-- Greedy decimal digit run: accumulated value, count, and remainder. -/
def scanDigits : PyStr → Nat → Nat × Nat × PyStr
  | [], acc => (acc, 0, [])
  | c :: cs, acc =>
    if 48 ≤ c ∧ c ≤ 57 then
      let (v, n, rest) := scanDigits cs (acc * 10 + (c - 48))
      (v, n + 1, rest)
    else (acc, 0, c :: cs)

/-- The fraction and exponent groups of `NUMBER_RE`, after the integer
part (value `iv`, sign `neg`) has matched; builds the `int`/`float`
conversion of the matched text.  The numeric value is exact (see the
header for the float abstraction). -/
def scanNumTail (neg : Bool) (iv : Nat) (rest : PyStr) (pos : Nat) :
    JsonValue × PyStr × Nat :=
  let (frac, rest₁, pos₁) :=
      match rest with
      | c :: d :: ds =>
        if c = 46 ∧ 48 ≤ d ∧ d ≤ 57 then
          let (fv, n, r) := scanDigits ds (d - 48)
          (some (fv, n + 1), r, pos + 2 + n)
        else (none, rest, pos)
      | _ => (none, rest, pos)
    let (exp, rest₂, pos₂) :=
      match rest₁ with
      | e :: es =>
        if e = 101 ∨ e = 69 then
          match es with
          | s :: srest =>
            if s = 43 ∨ s = 45 then
              match srest with
              | d :: ds =>
                if 48 ≤ d ∧ d ≤ 57 then
                  let (ev, n, r) := scanDigits ds (d - 48)
                  (some (if s = 45 then -(Int.ofNat ev) else Int.ofNat ev),
                    r, pos₁ + 3 + n)
                else (none, rest₁, pos₁)
              | [] => (none, rest₁, pos₁)
            else if 48 ≤ s ∧ s ≤ 57 then
              let (ev, n, r) := scanDigits srest (s - 48)
              (some (Int.ofNat ev), r, pos₁ + 2 + n)
            else (none, rest₁, pos₁)
          | [] => (none, rest₁, pos₁)
        else (none, rest₁, pos₁)
      | [] => (none, rest₁, pos₁)
    match frac, exp with
    | none, none =>
      (.jint (if neg then -(Int.ofNat iv) else Int.ofNat iv), rest₂, pos₂)
    | _, _ =>
      let fv : Nat := (frac.map Prod.fst).getD 0
      let fn : Nat := (frac.map Prod.snd).getD 0
      let e : Int := exp.getD 0
      let mag : ℚ := ((iv : ℚ) + (fv : ℚ) / (10 : ℚ) ^ fn) * (10 : ℚ) ^ e
      (.jfloat (if neg then -mag else mag), rest₂, pos₂)

/-- The `NUMBER_RE` match `(-?(?:0|[1-9]\d*))(\.\d+)?([eE][-+]?\d+)?` at
the current position: no match yields `none` (the scanner then falls
through to the constants). -/
def scanNumber (s : PyStr) (pos : Nat) : Option (JsonValue × PyStr × Nat) :=
  let (neg, s₁, p₁) :=
    match s with
    | c :: rest => if c = 45 then (true, rest, pos + 1) else (false, s, pos)
    | [] => (false, s, pos)
  match s₁ with
  | c :: cs =>
    if c = 48 then some (scanNumTail neg 0 cs (p₁ + 1))
    else if 49 ≤ c ∧ c ≤ 57 then
      let (iv, n, rest) := scanDigits cs (c - 48)
      some (scanNumTail neg iv rest (p₁ + 1 + n))
    else none
  | [] => none

mutual

/-- `_scan_once`: dispatch on the character at the current position. -/
def scanOnce : Nat → PyStr → Nat → PRes JsonValue
  | 0, _, _ => .out
  | _ + 1, [], pos => .err (toPy "Expecting value") pos
  | fuel + 1, c :: rs, pos =>
    if c == 34 then
      match scanString fuel pos rs (pos + 1) [] with
      | .ok str rest p => .ok (.jstr str) rest p
      | .err m p => .err m p
      | .out => .out
    else if c == 123 then parseObject fuel rs (pos + 1)
    else if c == 91 then parseArray fuel rs (pos + 1)
    else if (c :: rs).take 4 = toPy "null" then
      .ok .jnull ((c :: rs).drop 4) (pos + 4)
    else if (c :: rs).take 4 = toPy "true" then
      .ok .jtrue ((c :: rs).drop 4) (pos + 4)
    else if (c :: rs).take 5 = toPy "false" then
      .ok .jfalse ((c :: rs).drop 5) (pos + 5)
    else
      match scanNumber (c :: rs) pos with
      | some (v, rest, p) => .ok v rest p
      | none =>
        if (c :: rs).take 3 = toPy "NaN" then
          .ok .jnan ((c :: rs).drop 3) (pos + 3)
        else if (c :: rs).take 8 = toPy "Infinity" then
          .ok .jinf ((c :: rs).drop 8) (pos + 8)
        else if (c :: rs).take 9 = toPy "-Infinity" then
          .ok .jneginf ((c :: rs).drop 9) (pos + 9)
        else .err (toPy "Expecting value") pos
termination_by structural fuel s p => fuel

/-- `JSONArray`, entered just after the `[`. -/
def parseArray : Nat → PyStr → Nat → PRes JsonValue
  | 0, _, _ => .out
  | fuel + 1, rest, pos =>
    let (r₁, p₁) := skipWs rest pos
    match r₁ with
    | 93 :: r₂ => .ok (.jarr .nil) r₂ (p₁ + 1)
    | _ => arrayLoop fuel r₁ p₁ .nil
termination_by structural fuel s p => fuel

/-- The element loop of `JSONArray` (`acc` holds the elements parsed so
far, in order, as a function from the tail). -/
def arrayLoop : Nat → PyStr → Nat → JsonList → PRes JsonValue
  | 0, _, _, _ => .out
  | fuel + 1, rest, pos, acc =>
    match scanOnce fuel rest pos with
    | .err m p => .err m p
    | .out => .out
    | .ok v r₁ p₁ =>
      let acc' := jlAppend acc v
      let (r₂, p₂) := skipWs r₁ p₁
      match r₂ with
      | 93 :: r₃ => .ok (.jarr acc') r₃ (p₂ + 1)
      | 44 :: r₃ =>
        let (r₄, p₄) := skipWs r₃ (p₂ + 1)
        arrayLoop fuel r₄ p₄ acc'
      | _ => .err (toPy "Expecting ',' delimiter") p₂
termination_by structural fuel s p acc => fuel

/-- `JSONObject`, entered just after the `{`. -/
def parseObject : Nat → PyStr → Nat → PRes JsonValue
  | 0, _, _ => .out
  | fuel + 1, rest, pos =>
    match rest with
    | 34 :: r₁ => objLoop fuel r₁ (pos + 1) .nil
    | _ =>
      let (r₁, p₁) := skipWs rest pos
      match r₁ with
      | 125 :: r₂ => .ok (.jobj .nil) r₂ (p₁ + 1)
      | 34 :: r₂ => objLoop fuel r₂ (p₁ + 1) .nil
      | _ =>
        .err (toPy "Expecting property name enclosed in double quotes") p₁
termination_by structural fuel s p => fuel

/-- The member loop of `JSONObject`, entered just after a key's opening
quote. -/
def objLoop : Nat → PyStr → Nat → JsonPairs → PRes JsonValue
  | 0, _, _, _ => .out
  | fuel + 1, rest, pos, pairs =>
    match scanString fuel (pos - 1) rest pos [] with
    | .err m p => .err m p
    | .out => .out
    | .ok key r₁ p₁ =>
      let colon :=
        match r₁ with
        | 58 :: r₂ => some (r₂, p₁ + 1)
        | _ =>
          let (r₂, p₂) := skipWs r₁ p₁
          match r₂ with
          | 58 :: r₃ => some (r₃, p₂ + 1)
          | _ => none
      match colon with
      | none =>
        let (_, p₂) := skipWs r₁ p₁
        .err (toPy "Expecting ':' delimiter") p₂
      | some (r₃, p₃) =>
        let (r₄, p₄) := skipWs r₃ p₃
        match scanOnce fuel r₄ p₄ with
        | .err m p => .err m p
        | .out => .out
        | .ok v r₅ p₅ =>
          let pairs' := jpAppend pairs key v
          let (r₆, p₆) := skipWs r₅ p₅
          match r₆ with
          | 125 :: r₇ => .ok (.jobj (dictOfPairs pairs')) r₇ (p₆ + 1)
          | 44 :: r₇ =>
            let (r₈, p₈) := skipWs r₇ (p₆ + 1)
            match r₈ with
            | 34 :: r₉ => objLoop fuel r₉ (p₈ + 1) pairs'
            | _ =>
              .err (toPy "Expecting property name enclosed in double quotes") p₈
          | _ => .err (toPy "Expecting ',' delimiter") p₆
termination_by structural fuel s p acc => fuel

end

/-- Fuel sufficient for the whole document (proved in `scanOnce_no_out`). -/
def loadsFuel (s : PyStr) : Nat := 3 * s.length + 4

/-- `json.loads(s)` for a `str` argument: the BOM check from
`json/__init__.py`, then `JSONDecoder().decode(s)`. -/
def jsonLoads (s : PyStr) : Except JsonError JsonValue :=
  if s.take 1 = [0xfeff] then
    .error ⟨toPy "Unexpected UTF-8 BOM (decode using utf-8-sig)", 0⟩
  else
    let (r₁, p₁) := skipWs s 0
    match scanOnce (loadsFuel s) r₁ p₁ with
    | .err m p => .error ⟨m, p⟩
    | .out => .error ⟨[], 0⟩   -- unreachable at this fuel (`scanOnce_no_out`)
    | .ok v rest p =>
      let (rest', p') := skipWs rest p
      if rest'.isEmpty then .ok v
      else .error ⟨toPy "Extra data", p'⟩

/-! ## The serializer (`json.dumps(obj, indent=n, sort_keys=sk, ensure_ascii=False)`)

`JSONData.format` always passes an `int` for `indent`, so only the
pretty-printing path of `_make_iterencode` is reachable (the C encoder is
bypassed when `indent is not None`), with separators `(',', ': ')`.
CPython sorts each object's items during encoding when `sort_keys` is
true; here the recursive sort is hoisted into `canonV`, and the encoder
itself emits pairs in the order given — `pyJsonDumps` composes the two,
which yields the identical output. -/

/-- Lower-case hex digit. -/
def hexDigit (n : Nat) : Nat := if n < 10 then 48 + n else 87 + n

/-- `ESCAPE_DCT` for `ensure_ascii=False`: only `\`, `"` and control
characters are escaped. -/
def escChar (c : Nat) : PyStr :=
  if c == 92 then [92, 92]
  else if c == 34 then [92, 34]
  else if c == 8 then [92, 98]
  else if c == 12 then [92, 102]
  else if c == 10 then [92, 110]
  else if c == 13 then [92, 114]
  else if c == 9 then [92, 116]
  else if c < 32 then [92, 117, 48, 48, hexDigit (c / 16), hexDigit (c % 16)]
  else [c]

/-- `encode_basestring` (`ensure_ascii=False`). -/
def encodeString (s : PyStr) : PyStr := 34 :: (s.map escChar).flatten ++ [34]

/-- Serialization of a finite float: the canonical terminating decimal
expansion of the exact rational (see the header; CPython prints the
shortest round-tripping `repr` of the binary64 value). -/
def floatRepr (q : ℚ) : PyStr :=
  let k := leastPow10 q.den
  let n : Int := (q * (10 : ℚ) ^ k).num
  let ds := pyNatRepr n.natAbs
  let padded := List.replicate (k + 1 - ds.length) 48 ++ ds
  let ip := padded.take (padded.length - k)
  let fp := padded.drop (padded.length - k)
  let core := ip ++ 46 :: (if k = 0 then [48] else fp)
  if q < 0 then 45 :: core else core

/-- `'\n' + indent * level` -/
def nlInd (ind lvl : Nat) : PyStr := 10 :: List.replicate (ind * lvl) 32

mutual

/-- `_iterencode` (pretty-printing path, separators `(',', ': ')`),
emitting object members in the order given (see `pyJsonDumps`). -/
def encV (ind : Nat) (lvl : Nat) : JsonValue → PyStr
  | .jnull => toPy "null"
  | .jtrue => toPy "true"
  | .jfalse => toPy "false"
  | .jint n => pyIntRepr n
  | .jfloat q => floatRepr q
  | .jnan => toPy "NaN"
  | .jinf => toPy "Infinity"
  | .jneginf => toPy "-Infinity"
  | .jstr s => encodeString s
  | .jarr .nil => toPy "[]"
  | .jarr (.cons hd tl) =>
    91 :: nlInd ind (lvl + 1) ++ encV ind (lvl + 1) hd ++
      encLRest ind (lvl + 1) tl ++ nlInd ind lvl ++ [93]
  | .jobj .nil => toPy "{}"
  | .jobj (.cons k v tl) =>
    123 :: nlInd ind (lvl + 1) ++ encodeString k ++ 58 :: 32 ::
      encV ind (lvl + 1) v ++ encPRest ind (lvl + 1) tl ++ nlInd ind lvl ++ [125]

/-- `',' + newline_indent + item` for each further array element. -/
def encLRest (ind : Nat) (lvl : Nat) : JsonList → PyStr
  | .nil => []
  | .cons hd tl => 44 :: nlInd ind lvl ++ encV ind lvl hd ++ encLRest ind lvl tl

/-- `',' + newline_indent + key + ': ' + value` for each further member. -/
def encPRest (ind : Nat) (lvl : Nat) : JsonPairs → PyStr
  | .nil => []
  | .cons k v tl =>
    44 :: nlInd ind lvl ++ encodeString k ++ 58 :: 32 ::
      encV ind lvl v ++ encPRest ind lvl tl

end

/-- `json.dumps(v, indent=ind, sort_keys=sk, ensure_ascii=False)`. -/
def pyJsonDumps (v : JsonValue) (ind : Nat) (sk : Bool) : PyStr :=
  encV ind 0 (canonV sk v)

/-! ## The data model (`src/models/json_data.py`) -/

/-- `JSONValidationResult`. -/
structure JSONValidationResult where
  is_valid : Bool
  error_message : Option PyStr := none
  line_number : Option Nat := none
  deriving DecidableEq

/-- `JSONFormatResult`. -/
structure JSONFormatResult where
  success : Bool
  formatted_json : Option PyStr := none
  error_message : Option PyStr := none
  line_count : Nat := 0
  deriving DecidableEq

/-- `f"Invalid JSON at line {e.lineno} column {e.colno}: {e.msg}"`. -/
def invalidJsonMsg (doc : PyStr) (e : JsonError) : PyStr :=
  toPy "Invalid JSON at line " ++ pyNatRepr (pyLineno doc e.pos) ++
    toPy " column " ++ pyNatRepr (pyColno doc e.pos) ++ toPy ": " ++ e.msg

namespace JSONData

/-- `JSONData.validate` (the per-instance memo is transparent: the method
is a pure function of `raw_data`). -/
def validate (raw : PyStr) : JSONValidationResult :=
  if (pyStrip raw).isEmpty then
    { is_valid := false, error_message := some (toPy "Input cannot be empty") }
  else
    match jsonLoads raw with
    | .ok _ => { is_valid := true }
    | .error e =>
      { is_valid := false, error_message := some (invalidJsonMsg raw e),
        line_number := some (pyLineno raw e.pos) }

/-- `JSONData.parse`: the parsed value, or the message of the
`ValueError` it raises for invalid input. -/
def parse (raw : PyStr) : Except PyStr JsonValue :=
  if (pyStrip raw).isEmpty then .error (toPy "Input cannot be empty")
  else
    match jsonLoads raw with
    | .ok v => .ok v
    | .error e => .error (invalidJsonMsg raw e)

/-- `JSONData.format(indent, sort_keys)`.  The `except Exception`
defensive branch after a successful parse is unreachable in the model
(serialization is total). -/
def format (raw : PyStr) (indent : Nat) (sortKeys : Bool) : JSONFormatResult :=
  match parse raw with
  | .error m => { success := false, error_message := some m }
  | .ok v =>
    let t := pyJsonDumps v indent sortKeys
    { success := true, formatted_json := some t,
      line_count := (pySplitlines t).length }

end JSONData

/-- The dictionary returned by `JSONData.get_structure_info`, with absent
keys as `none`. -/
structure StructureInfo where
  valid : Bool
  error : Option PyStr := none
  type : Option PyStr := none
  is_object : Option Bool := none
  is_array : Option Bool := none
  is_primitive : Option Bool := none
  key_count : Option Nat := none
  keys : Option (List PyStr) := none
  item_count : Option Nat := none
  item_types : Option (List PyStr) := none
  deriving DecidableEq

/-- `list(set(...))` keeping the first occurrence of each element
(CPython's set iteration order is hash-dependent; the claims only treat
`item_types` as a set). -/
def dedupFirstAux (seen : List PyStr) : List PyStr → List PyStr
  | [] => []
  | x :: xs =>
    if seen.contains x then dedupFirstAux seen xs
    else x :: dedupFirstAux (x :: seen) xs

def dedupFirst (l : List PyStr) : List PyStr := dedupFirstAux [] l

/-- `JSONData.get_structure_info` (the `keys` cap is `take 50` in both
branches of the source's conditional). -/
def getStructureInfo (raw : PyStr) : StructureInfo :=
  match JSONData.parse raw with
  | .error m => { valid := false, error := some m }
  | .ok v =>
    let base : StructureInfo :=
      { valid := true, type := some (pyTypeName v),
        is_object := some (match v with | .jobj _ => true | _ => false),
        is_array := some (match v with | .jarr _ => true | _ => false),
        is_primitive :=
          some (match v with | .jobj _ | .jarr _ => false | _ => true) }
    match v with
    | .jobj kvs =>
      { base with key_count := some kvs.length,
                  keys := some (kvs.keys.take 50) }
    | .jarr xs =>
      { base with item_count := some xs.length,
                  item_types :=
                    some (dedupFirst ((xs.takeList 10).map pyTypeName)) }
    | _ => base

/-! ## The service layer (`src/services/json_processor.py`) -/

/-- The exceptions of `core/exceptions.py` that the services raise. -/
inductive ServiceError where
  | validationError (msg : PyStr)
  | processingError (msg : PyStr)
  deriving DecidableEq

namespace JSONProcessorService

/-- `JSONProcessorService.format_json` on a `str` argument: an `.error`
is an exception raised past the service boundary.  Note the source
comment "For invalid JSON, raise ValidationError instead of returning
failed result". -/
def formatJson (raw : PyStr) (indent : Nat) (sortKeys : Bool) :
    Except ServiceError JSONFormatResult :=
  if (pyStrip raw).isEmpty then
    .error (.validationError (toPy "Input cannot be empty"))
  else
    let r := JSONData.format raw indent sortKeys
    if r.success then .ok r
    else .error (.validationError
      (r.error_message.getD (toPy "JSON formatting failed")))

/-- `JSONProcessorService.validate_json` on a `str` argument: returns the
validation result, raising nothing for merely-invalid JSON. -/
def validateJson (raw : PyStr) : Except ServiceError JSONValidationResult :=
  .ok (JSONData.validate raw)

/-- `JSONProcessorService.get_json_info` on a `str` argument: the
structure info plus `raw_length` and `raw_lines` (the constant
`processed_by` field is omitted). -/
def getJsonInfo (raw : PyStr) : Except ServiceError (StructureInfo × Nat × Nat) :=
  .ok (getStructureInfo raw, raw.length, (pySplitlines raw).length)

end JSONProcessorService

/-! ## The comment service (`src/services/comment_service.py`) -/

/-- The in-memory dict of `SessionCommentStorage`, as an
insertion-ordered association list. -/
abbrev Storage := List (PyStr × List PyStr)

def storageLookup : Storage → PyStr → Option (List PyStr)
  | [], _ => none
  | (k, v) :: tl, key => if k = key then some v else storageLookup tl key

def storageSet : Storage → PyStr → List PyStr → Storage
  | [], key, v => [(key, v)]
  | (k, v') :: tl, key, v =>
    if k = key then (k, v) :: tl else (k, v') :: storageSet tl key v

def storageErase : Storage → PyStr → Storage
  | [], _ => []
  | (k, v) :: tl, key => if k = key then tl else (k, v) :: storageErase tl key

namespace SessionCommentStorage

/-- `save_comments`: rejects an empty session id; the
`str(c) if c is not None else ""` cleanup is the identity on the lists of
strings all claims quantify over. -/
def saveComments (st : Storage) (sid : PyStr) (comments : List PyStr) :
    Bool × Storage :=
  if sid.isEmpty then (false, st)
  else (true, storageSet st sid comments)

/-- `load_comments`. -/
def loadComments (st : Storage) (sid : PyStr) : List PyStr :=
  if sid.isEmpty then [] else (storageLookup st sid).getD []

/-- `clear_comments` (idempotent; `True` even when nothing was stored). -/
def clearComments (st : Storage) (sid : PyStr) : Bool × Storage :=
  if sid.isEmpty then (false, st) else (true, storageErase st sid)

/-- `session_exists`: the id is present with a non-empty list. -/
def sessionExists (st : Storage) (sid : PyStr) : Bool :=
  if sid.isEmpty then false
  else
    match storageLookup st sid with
    | some l => decide (0 < l.length)
    | none => false

end SessionCommentStorage

namespace CommentService

/-- `CommentService.save_comments(session_id, comments_text)`: split the
text into lines, strip each, drop empties, store.  An `.error` is a
raised `ValidationError`/`ProcessingError`. -/
def saveComments (st : Storage) (sid : PyStr) (text : PyStr) :
    Except ServiceError (Bool × Storage) :=
  if (pyStrip sid).isEmpty then
    .error (.validationError (toPy "Session ID cannot be empty"))
  else
    let lst :=
      if (pyStrip text).isEmpty then []
      else ((pySplitlines text).map pyStrip).filter (fun l => !l.isEmpty)
    match SessionCommentStorage.saveComments st sid lst with
    | (true, st') => .ok (true, st')
    | (false, _) =>
      .error (.processingError (toPy "Failed to save comments to storage"))

/-- `CommentService.load_comments`: the stored lines joined with `"\n"`. -/
def loadComments (st : Storage) (sid : PyStr) : Except ServiceError PyStr :=
  if (pyStrip sid).isEmpty then
    .error (.validationError (toPy "Session ID cannot be empty"))
  else .ok (pyJoinNl (SessionCommentStorage.loadComments st sid))

/-- `CommentService.synchronize_with_json_lines(session_id,
json_line_count)`: pad with `""` or truncate to the target length. -/
def synchronizeWithJsonLines (st : Storage) (sid : PyStr) (n : Int) :
    Except ServiceError (Bool × Storage) :=
  if (pyStrip sid).isEmpty then
    .error (.validationError (toPy "Session ID cannot be empty"))
  else if n < 0 then
    .error (.validationError (toPy "JSON line count cannot be negative"))
  else
    let cur := SessionCommentStorage.loadComments st sid
    if (cur.length : Int) = n then .ok (true, st)
    else
      let target :=
        if (cur.length : Int) < n then
          cur ++ List.replicate (n.toNat - cur.length) []
        else cur.take n.toNat
      match SessionCommentStorage.saveComments st sid target with
      | (true, st') => .ok (true, st')
      | (false, _) =>
        .error (.processingError (toPy "Failed to save synchronized comments"))

end CommentService

/-! ## Basic lemmas about Python string stripping -/

theorem pyStripLeft_eq_nil (s : PyStr) (h : ∀ c ∈ s, pyIsSpace c = true) :
    pyStripLeft s = [] := by
  induction s with
  | nil => rfl
  | cons c cs ih =>
    simp only [pyStripLeft, h c (List.mem_cons_self c cs), if_true]
    exact ih fun x hx => h x (List.mem_cons_of_mem c hx)

theorem pyStrip_eq_nil (s : PyStr) (h : ∀ c ∈ s, pyIsSpace c = true) :
    pyStrip s = [] := by
  unfold pyStrip
  rw [pyStripLeft_eq_nil s h]
  simp [pyStripLeft]

theorem mem_of_mem_pyStripLeft {c : Nat} {s : PyStr} (h : c ∈ pyStripLeft s) :
    c ∈ s := by
  induction s with
  | nil => simpa [pyStripLeft] using h
  | cons d ds ih =>
    by_cases hd : pyIsSpace d
    · simp only [pyStripLeft, hd, if_true] at h
      exact List.mem_cons_of_mem d (ih h)
    · simpa only [pyStripLeft, hd, if_false] using h

theorem mem_of_mem_pyStrip {c : Nat} {s : PyStr} (h : c ∈ pyStrip s) : c ∈ s := by
  unfold pyStrip at h
  rw [List.mem_reverse] at h
  have h1 := mem_of_mem_pyStripLeft h
  rw [List.mem_reverse] at h1
  exact mem_of_mem_pyStripLeft h1

theorem all_space_of_pyStripLeft_eq_nil {s : PyStr} (h : pyStripLeft s = []) :
    ∀ c ∈ s, pyIsSpace c = true := by
  induction s with
  | nil => intro c hc; cases hc
  | cons d ds ih =>
    intro c hc
    by_cases hd : pyIsSpace d
    · simp only [pyStripLeft, hd, if_true] at h
      rcases List.mem_cons.1 hc with rfl | hc'
      · exact hd
      · exact ih h c hc'
    · simp [pyStripLeft, hd] at h

theorem all_space_of_pyStrip_eq_nil {s : PyStr} (h : pyStrip s = []) :
    ∀ c ∈ s, pyIsSpace c = true := by
  unfold pyStrip at h
  rw [List.reverse_eq_nil_iff] at h
  have h1 := all_space_of_pyStripLeft_eq_nil h
  intro c hc
  by_cases hs : pyStripLeft s = []
  · exact all_space_of_pyStripLeft_eq_nil hs c hc
  · -- every element of `s` is either dropped (hence a space) or survives
    -- into `pyStripLeft s`, whose reverse is all spaces by `h1`
    have hsurv : ∀ x ∈ pyStripLeft s, pyIsSpace x = true := by
      intro x hx
      exact h1 x (List.mem_reverse.2 hx)
    -- show all of `s` is space by induction
    clear h hs
    induction s with
    | nil => cases hc
    | cons d ds ih =>
      by_cases hd : pyIsSpace d
      · rcases List.mem_cons.1 hc with rfl | hc'
        · exact hd
        · refine ih ?_ hc' ?_
          · simpa only [pyStripLeft, hd, if_true] using h1
          · simpa only [pyStripLeft, hd, if_true] using hsurv
      · exact hsurv c (by simpa only [pyStripLeft, hd, if_false] using hc)

/-! ## Claim C5: empty and whitespace-only input -/

/-- **C5.** For every input string that is empty or consists only of
whitespace, `JSONData.validate` returns `is_valid=false` with the error
message exactly `"Input cannot be empty"` and no line number (the parser
is never consulted: the result is produced by the guard branch alone). -/
theorem validate_whitespace_only (s : PyStr) (h : ∀ c ∈ s, pyIsSpace c = true) :
    JSONData.validate s =
      { is_valid := false,
        error_message := some (toPy "Input cannot be empty"),
        line_number := none } := by
  unfold JSONData.validate
  rw [pyStrip_eq_nil s h]
  rfl

/-- Witness for C5 at the whitespace-only input `"   "`. -/
theorem validate_whitespace_only_witness :
    (∀ c ∈ toPy "   ", pyIsSpace c = true) ∧
      JSONData.validate (toPy "   ") =
        { is_valid := false,
          error_message := some (toPy "Input cannot be empty"),
          line_number := none } :=
  ⟨by decide, validate_whitespace_only (toPy "   ") (by decide)⟩

/-! ## Claim C1: the parse-failure result of `validate` -/

/-- **C1.** For every non-empty, non-whitespace-only input on which the
JSON parser fails (at position `e.pos` with reason `e.msg`),
`JSONData.validate` returns `is_valid=false`, the error message exactly
`"Invalid JSON at line L column C: <reason>"`, and `line_number = L`,
where `L = pyLineno s e.pos` and `C = pyColno s e.pos` are the 1-based
line and column that CPython's `JSONDecodeError` derives from the
position of the first character the parser could not consume. -/
theorem validate_parse_failure (s : PyStr) (e : JsonError)
    (h1 : pyStrip s ≠ []) (h2 : jsonLoads s = .error e) :
    JSONData.validate s =
      { is_valid := false,
        error_message := some
          (toPy "Invalid JSON at line " ++ pyNatRepr (pyLineno s e.pos) ++
            toPy " column " ++ pyNatRepr (pyColno s e.pos) ++
            toPy ": " ++ e.msg),
        line_number := some (pyLineno s e.pos) } := by
  unfold JSONData.validate
  rw [if_neg (by simpa [List.isEmpty_iff] using h1), h2]
  rfl

/-- Witness for C1 at the malformed input `"{"` (error at line 1,
column 2). -/
theorem validate_parse_failure_witness :
    (pyStrip (toPy "\x7b") ≠ [] ∧
      jsonLoads (toPy "\x7b") =
        .error ⟨toPy "Expecting property name enclosed in double quotes", 1⟩) ∧
    JSONData.validate (toPy "\x7b") =
      { is_valid := false,
        error_message := some
          (toPy "Invalid JSON at line " ++ pyNatRepr 1 ++ toPy " column " ++
            pyNatRepr 2 ++ toPy ": " ++
            toPy "Expecting property name enclosed in double quotes"),
        line_number := some 1 } :=
  ⟨⟨by decide, by rfl⟩, validate_parse_failure (toPy "\x7b")
    ⟨toPy "Expecting property name enclosed in double quotes", 1⟩
    (by decide) (by rfl)⟩

/-! ## Lemmas about the storage dictionary -/

theorem storageLookup_set_self (st : Storage) (k : PyStr) (v : List PyStr) :
    storageLookup (storageSet st k v) k = some v := by
  induction st with
  | nil => simp [storageSet, storageLookup]
  | cons hd tl ih =>
    obtain ⟨k', v'⟩ := hd
    by_cases h : k' = k
    · simp [storageSet, storageLookup, h]
    · simp [storageSet, storageLookup, h, ih]

theorem storageSet_set_self (st : Storage) (k : PyStr) (v w : List PyStr) :
    storageSet (storageSet st k v) k w = storageSet st k w := by
  induction st with
  | nil => simp [storageSet]
  | cons hd tl ih =>
    obtain ⟨k', v'⟩ := hd
    by_cases h : k' = k
    · simp [storageSet, h]
    · simp [storageSet, h, ih]

/-! ## Claim C8: `session_exists` -/

/-- **C8.** `session_exists` is true exactly when the session has a
stored sequence of positive length; immediately after a successful
`save_comments(sid, [])` it is false, and immediately after a successful
`save_comments(sid, ["a"])` it is true. -/
theorem sessionExists_iff_nonempty (st : Storage) (sid : PyStr) (h : sid ≠ []) :
    (SessionCommentStorage.sessionExists st sid = true ↔
       ∃ l, storageLookup st sid = some l ∧ 0 < l.length) ∧
    (∀ st₁, SessionCommentStorage.saveComments st sid [] = (true, st₁) →
       SessionCommentStorage.sessionExists st₁ sid = false) ∧
    (∀ st₁ c, SessionCommentStorage.saveComments st sid [c] = (true, st₁) →
       SessionCommentStorage.sessionExists st₁ sid = true) := by
  have hne : sid.isEmpty = false := by simpa [List.isEmpty_iff] using h
  refine ⟨?_, ?_, ?_⟩
  · unfold SessionCommentStorage.sessionExists
    rw [hne]
    simp only [Bool.false_eq_true, if_false]
    cases hl : storageLookup st sid with
    | none => simp
    | some l => simp [hl]
  · intro st₁ hsave
    unfold SessionCommentStorage.saveComments at hsave
    rw [hne] at hsave
    simp only [Bool.false_eq_true, if_false, Prod.mk.injEq, true_and] at hsave
    unfold SessionCommentStorage.sessionExists
    rw [hne, ← hsave]
    simp [storageLookup_set_self]
  · intro st₁ c hsave
    unfold SessionCommentStorage.saveComments at hsave
    rw [hne] at hsave
    simp only [Bool.false_eq_true, if_false, Prod.mk.injEq, true_and] at hsave
    unfold SessionCommentStorage.sessionExists
    rw [hne, ← hsave]
    simp [storageLookup_set_self]

/-- Witness for C8 on a concrete one-session store. -/
theorem sessionExists_iff_nonempty_witness :
    ((toPy "s") ≠ [] : Prop) ∧
    ((SessionCommentStorage.sessionExists [(toPy "t", [toPy "hello"])] (toPy "s") = true ↔
       ∃ l, storageLookup [(toPy "t", [toPy "hello"])] (toPy "s") = some l ∧ 0 < l.length) ∧
    (∀ st₁, SessionCommentStorage.saveComments [(toPy "t", [toPy "hello"])] (toPy "s") [] = (true, st₁) →
       SessionCommentStorage.sessionExists st₁ (toPy "s") = false) ∧
    (∀ st₁ c, SessionCommentStorage.saveComments [(toPy "t", [toPy "hello"])] (toPy "s") [c] = (true, st₁) →
       SessionCommentStorage.sessionExists st₁ (toPy "s") = true)) :=
  ⟨by decide, sessionExists_iff_nonempty [(toPy "t", [toPy "hello"])] (toPy "s") (by decide)⟩

/-! ## Claim C7: comment synchronization -/

/-- **C7.** For a session whose stored sequence has length `n` and a
target `t ≥ 0`, `synchronize_with_json_lines` succeeds and: leaves the
store untouched when `n = t`, appends exactly `t - n` empty-string
entries when `n < t`, and keeps exactly the first `t` entries when
`n > t`. -/
theorem synchronize_pad_or_truncate (st : Storage) (sid : PyStr) (t : Int)
    (h1 : pyStrip sid ≠ []) (h2 : 0 ≤ t) :
    ∃ st', CommentService.synchronizeWithJsonLines st sid t = .ok (true, st') ∧
      (((SessionCommentStorage.loadComments st sid).length : Int) = t → st' = st) ∧
      (((SessionCommentStorage.loadComments st sid).length : Int) < t →
        SessionCommentStorage.loadComments st' sid =
          SessionCommentStorage.loadComments st sid ++
            List.replicate (t.toNat - (SessionCommentStorage.loadComments st sid).length) []) ∧
      (t < ((SessionCommentStorage.loadComments st sid).length : Int) →
        SessionCommentStorage.loadComments st' sid =
          (SessionCommentStorage.loadComments st sid).take t.toNat) := by
  have hsid : sid ≠ [] := by
    intro h; rw [h] at h1; exact h1 rfl
  have hne : (pyStrip sid).isEmpty = false := by
    simpa [List.isEmpty_iff] using h1
  have hne2 : sid.isEmpty = false := by simpa [List.isEmpty_iff] using hsid
  unfold CommentService.synchronizeWithJsonLines
  rw [hne]
  simp only [Bool.false_eq_true, if_false, if_neg (not_lt.2 h2)]
  set cur := SessionCommentStorage.loadComments st sid with hcur
  by_cases heq : (cur.length : Int) = t
  · refine ⟨st, ?_, fun _ => rfl, ?_, ?_⟩
    · rw [if_pos heq]
    · intro hlt; omega
    · intro hlt; omega
  · rw [if_neg heq]
    by_cases hlt : (cur.length : Int) < t
    · rw [if_pos hlt]
      refine ⟨storageSet st sid (cur ++ List.replicate (t.toNat - cur.length) []),
        ?_, ?_, ?_, ?_⟩
      · unfold SessionCommentStorage.saveComments
        rw [hne2]
        simp
      · intro h; exact absurd h heq
      · intro _
        unfold SessionCommentStorage.loadComments
        rw [hne2]
        simp [storageLookup_set_self]
      · intro h; omega
    · rw [if_neg hlt]
      refine ⟨storageSet st sid (cur.take t.toNat), ?_, ?_, ?_, ?_⟩
      · unfold SessionCommentStorage.saveComments
        rw [hne2]
        simp
      · intro h; exact absurd h heq
      · intro h; exact absurd h hlt
      · intro _
        unfold SessionCommentStorage.loadComments
        rw [hne2]
        simp [storageLookup_set_self]

/-- Witness for C7: `["x","y","z"]` with target 5 gains two empty
entries, and with target 1 keeps only `["x"]`. -/
theorem synchronize_pad_or_truncate_witness :
    (pyStrip (toPy "s") ≠ [] ∧ (0 : Int) ≤ 5 ∧ (0 : Int) ≤ 1) ∧
    (∃ st', CommentService.synchronizeWithJsonLines
        [(toPy "s", [toPy "x", toPy "y", toPy "z"])] (toPy "s") 5 = .ok (true, st') ∧
      SessionCommentStorage.loadComments st' (toPy "s") =
        [toPy "x", toPy "y", toPy "z", [], []]) ∧
    (∃ st', CommentService.synchronizeWithJsonLines
        [(toPy "s", [toPy "x", toPy "y", toPy "z"])] (toPy "s") 1 = .ok (true, st') ∧
      SessionCommentStorage.loadComments st' (toPy "s") = [toPy "x"]) := by
  refine ⟨⟨by decide, by decide, by decide⟩, ?_, ?_⟩
  · obtain ⟨st', hok, -, hpad, -⟩ := synchronize_pad_or_truncate
      [(toPy "s", [toPy "x", toPy "y", toPy "z"])] (toPy "s") 5 (by decide) (by decide)
    refine ⟨st', hok, ?_⟩
    rw [hpad (by decide)]
    decide
  · obtain ⟨st', hok, -, -, htr⟩ := synchronize_pad_or_truncate
      [(toPy "s", [toPy "x", toPy "y", toPy "z"])] (toPy "s") 1 (by decide) (by decide)
    refine ⟨st', hok, ?_⟩
    rw [htr (by decide)]
    decide

/-! ## Claim C6: structure analysis of arrays

The source computes `item_types` as `type(item).__name__` over the first
ten elements: these are Python type names (`str`, `int`, `float`, `bool`,
`NoneType`, `list`, `dict`), not JSON type names — the repository's own
test asserts `"int" in info["item_types"]`. -/

theorem mem_of_mem_dedupFirstAux (seen : List PyStr) (l : List PyStr)
    (x : PyStr) (h : x ∈ dedupFirstAux seen l) : x ∈ l := by
  induction l generalizing seen with
  | nil => simpa [dedupFirstAux] using h
  | cons y ys ih =>
    by_cases hy : seen.contains y
    · simp only [dedupFirstAux, hy, if_true] at h
      exact List.mem_cons_of_mem y (ih _ h)
    · simp only [dedupFirstAux, hy, if_false] at h
      rcases List.mem_cons.1 h with rfl | h'
      · exact List.mem_cons_self x ys
      · exact List.mem_cons_of_mem y (ih _ h')

theorem pyTypeName_mem_python_names (v : JsonValue) :
    pyTypeName v ∈ [toPy "str", toPy "int", toPy "float", toPy "bool",
      toPy "NoneType", toPy "list", toPy "dict"] := by
  cases v <;> simp [pyTypeName]

/-- **C6 (counterexample).** On the valid array input `"[1]"` the
analyzer reports `item_types = ["int"]`: a Python type name, not a member
of the claimed JSON-name set
`{string, integer, number, boolean, null, array, object}`. -/
theorem structure_info_python_type_names_cex :
    (getStructureInfo (toPy "[1]")).item_types = some [toPy "int"] ∧
    toPy "int" ∉ [toPy "string", toPy "integer", toPy "number",
      toPy "boolean", toPy "null", toPy "array", toPy "object"] := by
  constructor
  · rfl
  · decide

/-- **C6 (amended).** For every valid JSON array input, the analyzer
reports `item_count` equal to the total number of elements, and
`item_types` as a deduplicated list of *Python* type names (drawn from
`{str, int, float, bool, NoneType, list, dict}`) computed only from the
first 10 elements of the array. -/
theorem structure_info_array (s : PyStr) (xs : JsonList)
    (h : JSONData.parse s = .ok (.jarr xs)) :
    (getStructureInfo s).item_count = some xs.length ∧
    (getStructureInfo s).item_types =
      some (dedupFirst ((xs.takeList 10).map pyTypeName)) ∧
    ∀ t ∈ dedupFirst ((xs.takeList 10).map pyTypeName),
      t ∈ [toPy "str", toPy "int", toPy "float", toPy "bool",
        toPy "NoneType", toPy "list", toPy "dict"] := by
  refine ⟨?_, ?_, ?_⟩
  · unfold getStructureInfo
    rw [h]
  · unfold getStructureInfo
    rw [h]
  · intro t ht
    have h1 := mem_of_mem_dedupFirstAux [] _ _ ht
    obtain ⟨v, -, rfl⟩ := List.mem_map.1 h1
    exact pyTypeName_mem_python_names v

/-- Witness for the amended C6 on the 11-element array of the spec's own
example: `item_count` is 11 while `item_types` only reflects the first
ten elements. -/
theorem structure_info_array_witness :
    (JSONData.parse (toPy "[1,\"a\",true,null,{}, [], 2,3,4,5,6]") =
      .ok (.jarr (.cons (.jint 1) (.cons (.jstr [97]) (.cons .jtrue
        (.cons .jnull (.cons (.jobj .nil) (.cons (.jarr .nil)
        (.cons (.jint 2) (.cons (.jint 3) (.cons (.jint 4)
        (.cons (.jint 5) (.cons (.jint 6) .nil))))))))))))) ∧
    (getStructureInfo (toPy "[1,\"a\",true,null,{}, [], 2,3,4,5,6]")).item_count =
      some 11 ∧
    (getStructureInfo (toPy "[1,\"a\",true,null,{}, [], 2,3,4,5,6]")).item_types =
      some [toPy "int", toPy "str", toPy "bool", toPy "NoneType",
        toPy "dict", toPy "list"] := by
  have h : JSONData.parse (toPy "[1,\"a\",true,null,{}, [], 2,3,4,5,6]") =
      .ok (.jarr (.cons (.jint 1) (.cons (.jstr [97]) (.cons .jtrue
        (.cons .jnull (.cons (.jobj .nil) (.cons (.jarr .nil)
        (.cons (.jint 2) (.cons (.jint 3) (.cons (.jint 4)
        (.cons (.jint 5) (.cons (.jint 6) .nil)))))))))))) := by rfl
  exact ⟨h, (structure_info_array _ _ h).1, by rfl⟩

/-! ## Claim C9: error propagation of the pure components and services

The model-level components (`JSONData.validate` / `JSONData.format` /
`JSONData.get_structure_info`) are total and report all failures through
their results.  But `JSONProcessorService.format_json` deliberately
re-raises the formatter's failure as a `ValidationError` for malformed
string input (source comment: "For invalid JSON, raise ValidationError
instead of returning failed result", asserted by
`test_format_json_invalid_json`), so at the service boundary the format
operation raises rather than returning a failure result. -/

/-- **C9 (counterexample).** Invoking the service-level format operation
on the malformed string `"{"` raises a `ValidationError` past the
service boundary instead of returning a failure result. -/
theorem format_json_raises_cex :
    JSONProcessorService.formatJson (toPy "\x7b") 2 true =
      .error (.validationError (toPy
        "Invalid JSON at line 1 column 2: Expecting property name enclosed in double quotes")) := by
  rfl

/-- **C9 (amended).** On malformed (but non-empty, non-whitespace) string
input, the pure components report the failure in-band: `validate` returns
`is_valid=false`, `format` returns `success=false` with an error message
and no text, the structure analyzer returns `valid=false`, and the
service-level validate operation returns that result without raising —
while the service-level format operation raises a `ValidationError`
carrying the formatter's message. -/
theorem components_report_failures_in_band (s : PyStr) (ind : Nat) (sk : Bool)
    (e : JsonError) (h1 : pyStrip s ≠ []) (h2 : jsonLoads s = .error e) :
    (JSONData.validate s).is_valid = false ∧
    JSONData.format s ind sk =
      { success := false, formatted_json := none,
        error_message := some (invalidJsonMsg s e), line_count := 0 } ∧
    (getStructureInfo s).valid = false ∧
    JSONProcessorService.validateJson s = .ok (JSONData.validate s) ∧
    JSONProcessorService.formatJson s ind sk =
      .error (.validationError (invalidJsonMsg s e)) := by
  have hne : (pyStrip s).isEmpty = false := by
    simpa [List.isEmpty_iff] using h1
  have hparse : JSONData.parse s = .error (invalidJsonMsg s e) := by
    unfold JSONData.parse
    rw [if_neg (by simpa [List.isEmpty_iff] using h1), h2]
  refine ⟨?_, ?_, ?_, rfl, ?_⟩
  · unfold JSONData.validate
    rw [if_neg (by simpa [List.isEmpty_iff] using h1), h2]
  · unfold JSONData.format
    rw [hparse]
  · unfold getStructureInfo
    rw [hparse]
  · unfold JSONProcessorService.formatJson
    rw [hne]
    simp only [Bool.false_eq_true, if_false]
    unfold JSONData.format
    rw [hparse]
    rfl

/-- Witness for the amended C9 at the malformed input `"{"`. -/
theorem components_report_failures_in_band_witness :
    (pyStrip (toPy "\x7b") ≠ [] ∧
      jsonLoads (toPy "\x7b") = .error
        ⟨toPy "Expecting property name enclosed in double quotes", 1⟩) ∧
    ((JSONData.validate (toPy "\x7b")).is_valid = false ∧
     JSONData.format (toPy "\x7b") 2 true =
       { success := false, formatted_json := none,
         error_message := some (invalidJsonMsg (toPy "\x7b")
           ⟨toPy "Expecting property name enclosed in double quotes", 1⟩),
         line_count := 0 } ∧
     (getStructureInfo (toPy "\x7b")).valid = false ∧
     JSONProcessorService.validateJson (toPy "\x7b") = .ok (JSONData.validate (toPy "\x7b")) ∧
     JSONProcessorService.formatJson (toPy "\x7b") 2 true =
       .error (.validationError (invalidJsonMsg (toPy "\x7b")
         ⟨toPy "Expecting property name enclosed in double quotes", 1⟩))) :=
  ⟨⟨by decide, by rfl⟩, components_report_failures_in_band (toPy "\x7b") 2 true
    ⟨toPy "Expecting property name enclosed in double quotes", 1⟩
    (by decide) (by rfl)⟩

/-! ## Claim C4: the `FormatResult` invariants

The code computes `line_count` with `str.splitlines()`, which counts
Python's universal line boundaries — not only `\n`.  A formatted text can
legitimately contain an unescaped U+2028 (LINE SEPARATOR) inside a string
literal (`ensure_ascii=False` leaves code points ≥ 0x20 unescaped), and
then `line_count` exceeds the number of newline-delimited lines. -/

/-- **C4 (counterexample).** Formatting the valid input `" "` (a
one-string document containing LINE SEPARATOR) succeeds with a formatted
text that contains no `\n` at all — one newline-delimited line — yet
`line_count = 2`. -/
theorem format_line_count_cex :
    (JSONData.format [34, 0x2028, 34] 2 true).success = true ∧
    (JSONData.format [34, 0x2028, 34] 2 true).formatted_json =
      some [34, 0x2028, 34] ∧
    (JSONData.format [34, 0x2028, 34] 2 true).line_count = 2 ∧
    ([34, 0x2028, 34].filter (· == 10)).length + 1 = 1 + 0 + 1 - 1 := by
  refine ⟨rfl, rfl, rfl, rfl⟩

/-- **C4 (amended).** When validation fails, `format` returns
`success=false`, the validator's message, no formatted text and
`line_count=0`; `success` is true exactly when formatted text is present
and no error message is; and `line_count` is the number of lines of the
formatted text as counted by Python's `str.splitlines()` (universal line
boundaries, which coincide with `\n`-counting unless the text carries
unescaped U+0085/U+2028/U+2029), `0` on failure. -/
theorem format_result_invariants (s : PyStr) (ind : Nat) (sk : Bool) :
    ((JSONData.validate s).is_valid = false →
      JSONData.format s ind sk =
        { success := false, formatted_json := none,
          error_message := (JSONData.validate s).error_message,
          line_count := 0 }) ∧
    ((JSONData.format s ind sk).success = true ↔
      (JSONData.format s ind sk).formatted_json.isSome = true ∧
        (JSONData.format s ind sk).error_message = none) ∧
    (JSONData.format s ind sk).line_count =
      (match (JSONData.format s ind sk).formatted_json with
       | some t => (pySplitlines t).length
       | none => 0) := by
  by_cases hemp : (pyStrip s).isEmpty
  · unfold JSONData.format JSONData.parse JSONData.validate
    rw [if_pos hemp, if_pos hemp]
    simp
  · cases hload : jsonLoads s with
    | error e =>
      unfold JSONData.format JSONData.parse JSONData.validate
      rw [if_neg hemp, if_neg hemp, hload]
      simp
    | ok v =>
      unfold JSONData.format JSONData.parse JSONData.validate
      rw [if_neg hemp, if_neg hemp, hload]
      simp

/-- Witness instantiating the amended C4 on both branches: the invalid
input `"{"` and the valid input `"[]"`. -/
theorem format_result_invariants_witness :
    ((JSONData.validate (toPy "\x7b")).is_valid = false →
      JSONData.format (toPy "\x7b") 2 true =
        { success := false, formatted_json := none,
          error_message := (JSONData.validate (toPy "\x7b")).error_message,
          line_count := 0 }) ∧
    (JSONData.format (toPy "[]") 0 false).line_count =
      (match (JSONData.format (toPy "[]") 0 false).formatted_json with
       | some t => (pySplitlines t).length
       | none => 0) :=
  ⟨(format_result_invariants (toPy "\x7b") 2 true).1,
   (format_result_invariants (toPy "[]") 0 false).2.2⟩

/-! ## String lemmas for Claim C10 -/

theorem pySplitlinesAux_cons (c : Nat) (cs acc : PyStr)
    (h : ∀ cs1, c = 13 → cs = 10 :: cs1 → False) :
    pySplitlinesAux (c :: cs) acc =
      (if pyIsLineBreak c then acc.reverse :: pySplitlinesAux cs []
       else pySplitlinesAux cs (c :: acc)) := by
  rcases cs with _ | ⟨c2, cs⟩
  · simp only [pySplitlinesAux]
  · rw [pySplitlinesAux]
    intro cs1 hc heq
    exact h cs1 hc heq

theorem pyStripLeft_eq_dropWhile (l : PyStr) :
    pyStripLeft l = l.dropWhile (fun c => pyIsSpace c) := by
  induction l with
  | nil => rfl
  | cons c cs ih =>
    by_cases h : pyIsSpace c
    · simp [pyStripLeft, List.dropWhile, h, ih]
    · simp [pyStripLeft, List.dropWhile, h]

theorem pyStrip_eq (l : PyStr) :
    pyStrip l = List.rdropWhile (fun c => pyIsSpace c)
      (l.dropWhile (fun c => pyIsSpace c)) := by
  unfold pyStrip List.rdropWhile
  rw [pyStripLeft_eq_dropWhile, pyStripLeft_eq_dropWhile]

theorem pyStrip_head_not_space (l : PyStr) (c : Nat) (cs : PyStr)
    (h : pyStrip l = c :: cs) : pyIsSpace c = false := by
  rw [pyStrip_eq] at h
  have hpre := List.rdropWhile_prefix (fun c => pyIsSpace c)
    (l.dropWhile (fun c => pyIsSpace c))
  rw [h] at hpre
  obtain ⟨t, ht⟩ := hpre
  have hid := List.dropWhile_idempotent (fun c => pyIsSpace c) l
  rw [← ht] at hid
  have h2 := List.dropWhile_eq_self_iff.1 hid (by simp)
  simpa using h2

theorem pyStrip_idem (l : PyStr) : pyStrip (pyStrip l) = pyStrip l := by
  cases h : pyStrip l with
  | nil => rfl
  | cons c cs =>
    have hc := pyStrip_head_not_space l c cs h
    rw [pyStrip_eq, ← h]
    rw [pyStrip_eq l] at h ⊢
    set p : Nat → Bool := fun c => pyIsSpace c with hp
    have h1 : (List.rdropWhile p (l.dropWhile p)).dropWhile p =
        List.rdropWhile p (l.dropWhile p) := by
      rw [h, List.dropWhile_cons, if_neg (by simp [hp, hc])]
    rw [h1, List.rdropWhile_idempotent]

/-- A line produced by `splitlines` contains no line-break characters. -/
theorem pySplitlinesAux_no_break :
    ∀ s acc, (∀ c ∈ acc, pyIsLineBreak c = false) →
      ∀ l ∈ pySplitlinesAux s acc, ∀ c ∈ l, pyIsLineBreak c = false := by
  intro s acc
  induction s, acc using pySplitlinesAux.induct with
  | case1 acc hemp =>
    intro hacc l hl c hc
    simp [pySplitlinesAux, hemp] at hl
  | case2 acc hemp =>
    intro hacc l hl c hc
    rw [pySplitlinesAux, if_neg hemp] at hl
    rcases List.mem_singleton.1 hl with rfl
    exact hacc c (List.mem_reverse.1 hc)
  | case3 cs acc ih =>
    intro hacc l hl c hc
    rw [pySplitlinesAux] at hl
    rcases List.mem_cons.1 hl with rfl | hl2
    · exact hacc c (List.mem_reverse.1 hc)
    · exact ih (by simp) l hl2 c hc
  | case4 d cs acc hne hbr ih =>
    intro hacc l hl c hc
    rw [pySplitlinesAux_cons d cs acc hne, if_pos hbr] at hl
    rcases List.mem_cons.1 hl with rfl | hl2
    · exact hacc c (List.mem_reverse.1 hc)
    · exact ih (by simp) l hl2 c hc
  | case5 d cs acc hne hbr ih =>
    intro hacc l hl c hc
    rw [pySplitlinesAux_cons d cs acc hne, if_neg hbr] at hl
    refine ih ?_ l hl c hc
    intro x hx
    rcases List.mem_cons.1 hx with rfl | hx2
    · simpa using hbr
    · exact hacc x hx2

theorem pySplitlines_no_break (s : PyStr) :
    ∀ l ∈ pySplitlines s, ∀ c ∈ l, pyIsLineBreak c = false :=
  pySplitlinesAux_no_break s [] (by simp)

/-- Every character of a `splitlines` line occurs in the input (or the
accumulator). -/
theorem pySplitlinesAux_mem :
    ∀ s acc, ∀ l ∈ pySplitlinesAux s acc, ∀ c ∈ l, c ∈ s ∨ c ∈ acc := by
  intro s acc
  induction s, acc using pySplitlinesAux.induct with
  | case1 acc hemp =>
    intro l hl c hc
    simp [pySplitlinesAux, hemp] at hl
  | case2 acc hemp =>
    intro l hl c hc
    rw [pySplitlinesAux, if_neg hemp] at hl
    rcases List.mem_singleton.1 hl with rfl
    exact Or.inr (List.mem_reverse.1 hc)
  | case3 cs acc ih =>
    intro l hl c hc
    rw [pySplitlinesAux] at hl
    rcases List.mem_cons.1 hl with rfl | hl2
    · exact Or.inr (List.mem_reverse.1 hc)
    · rcases ih l hl2 c hc with h | h
      · exact Or.inl (by simp [h])
      · cases h
  | case4 d cs acc hne hbr ih =>
    intro l hl c hc
    rw [pySplitlinesAux_cons d cs acc hne, if_pos hbr] at hl
    rcases List.mem_cons.1 hl with rfl | hl2
    · exact Or.inr (List.mem_reverse.1 hc)
    · rcases ih l hl2 c hc with h | h
      · exact Or.inl (List.mem_cons_of_mem d h)
      · cases h
  | case5 d cs acc hne hbr ih =>
    intro l hl c hc
    rw [pySplitlinesAux_cons d cs acc hne, if_neg hbr] at hl
    rcases ih l hl c hc with h | h
    · exact Or.inl (List.mem_cons_of_mem d h)
    · rcases List.mem_cons.1 h with rfl | h2
      · exact Or.inl (List.mem_cons_self c cs)
      · exact Or.inr h2


theorem pySplitlinesAux_append_nl (piece : PyStr)
    (hbf : ∀ c ∈ piece, pyIsLineBreak c = false) (acc rest : PyStr) :
    pySplitlinesAux (piece ++ 10 :: rest) acc =
      (acc.reverse ++ piece) :: pySplitlinesAux rest [] := by
  induction piece generalizing acc with
  | nil =>
    rw [List.nil_append,
      pySplitlinesAux_cons 10 rest acc (fun _ h => by cases h),
      if_pos (by decide : pyIsLineBreak 10 = true)]
    simp
  | cons c cs ih =>
    have hc : pyIsLineBreak c = false := hbf c (List.mem_cons_self c cs)
    have h13 : c ≠ 13 := fun h => by rw [h] at hc; cases hc
    rw [List.cons_append,
      pySplitlinesAux_cons c (cs ++ 10 :: rest) acc (fun _ h _ => h13 h),
      hc]
    simp only [Bool.false_eq_true, if_false]
    rw [ih (fun x hx => hbf x (List.mem_cons_of_mem c hx)) (c :: acc)]
    simp

theorem pySplitlinesAux_terminal (piece : PyStr)
    (hbf : ∀ c ∈ piece, pyIsLineBreak c = false) (acc : PyStr)
    (hne : ¬(piece = [] ∧ acc = [])) :
    pySplitlinesAux piece acc = [acc.reverse ++ piece] := by
  induction piece generalizing acc with
  | nil =>
    have hacc : acc ≠ [] := fun h => hne ⟨rfl, h⟩
    rw [pySplitlinesAux, if_neg (by simpa [List.isEmpty_iff] using hacc)]
    simp
  | cons c cs ih =>
    have hc : pyIsLineBreak c = false := hbf c (List.mem_cons_self c cs)
    have h13 : c ≠ 13 := fun h => by rw [h] at hc; cases hc
    rw [pySplitlinesAux_cons c cs acc (fun _ h _ => h13 h), hc]
    simp only [Bool.false_eq_true, if_false]
    rw [ih (fun x hx => hbf x (List.mem_cons_of_mem c hx)) (c :: acc)
      (fun h => by cases h.2)]
    simp

/-- Splitting a `"\n"`-join of non-empty, break-free lines recovers the
lines. -/
theorem pySplitlines_pyJoinNl (ls : List PyStr)
    (h1 : ∀ l ∈ ls, l ≠ [])
    (h2 : ∀ l ∈ ls, ∀ c ∈ l, pyIsLineBreak c = false) :
    pySplitlines (pyJoinNl ls) = ls := by
  induction ls with
  | nil => rfl
  | cons l ls ih =>
    cases ls with
    | nil =>
      show pySplitlinesAux (l ++ []) [] = [l]
      rw [List.append_nil,
        pySplitlinesAux_terminal l (h2 l (List.mem_cons_self l [])) []
          (fun h => h1 l (List.mem_cons_self l []) h.1)]
      rfl
    | cons l2 ls2 =>
      have hj : pyJoinNl (l :: l2 :: ls2) = l ++ 10 :: pyJoinNl (l2 :: ls2) := by
        unfold pyJoinNl
        simp
      unfold pySplitlines
      rw [hj, pySplitlinesAux_append_nl l (h2 l (List.mem_cons_self l _)) []]
      have ih2 := ih (fun x hx => h1 x (List.mem_cons_of_mem l hx))
        (fun x hx => h2 x (List.mem_cons_of_mem l hx))
      unfold pySplitlines at ih2
      rw [ih2]
      simp

/-- An all-whitespace text yields no comment entries. -/
theorem trimmed_lines_of_all_space (tx : PyStr) (h : pyStrip tx = []) :
    ((pySplitlines tx).map pyStrip).filter (fun l => !l.isEmpty) = [] := by
  have hsp := all_space_of_pyStrip_eq_nil h
  rw [List.filter_eq_nil_iff]
  intro l hl
  obtain ⟨piece, hpiece, rfl⟩ := List.mem_map.1 hl
  have hall : ∀ c ∈ piece, pyIsSpace c = true := by
    intro c hc
    rcases pySplitlinesAux_mem tx [] piece hpiece c hc with hmem | hmem
    · exact hsp c hmem
    · cases hmem
  rw [pyStrip_eq_nil piece hall]
  simp

/-! ## Claim C10: text-level comment save normalizes -/

/-- **C10.** A successful `CommentService.save_comments(sid, tx)` stores
exactly the whitespace-trimmed non-empty lines of `tx`, in order; and
saving back what `load_comments` returns leaves the stored state
unchanged (`save ∘ load` is the identity on saved states). -/
theorem save_comments_normalizes (st : Storage) (sid tx : PyStr)
    (h : pyStrip sid ≠ []) :
    ∃ st', CommentService.saveComments st sid tx = .ok (true, st') ∧
      SessionCommentStorage.loadComments st' sid =
        ((pySplitlines tx).map pyStrip).filter (fun l => !l.isEmpty) ∧
      ∀ txt2, CommentService.loadComments st' sid = .ok txt2 →
        CommentService.saveComments st' sid txt2 = .ok (true, st') := by
  have hsid : sid ≠ [] := fun hh => h (by rw [hh]; rfl)
  have hne : (pyStrip sid).isEmpty = false := by simpa [List.isEmpty_iff] using h
  have hne2 : sid.isEmpty = false := by simpa [List.isEmpty_iff] using hsid
  set lst := ((pySplitlines tx).map pyStrip).filter (fun l => !l.isEmpty)
    with hlst
  have hbranch : (if (pyStrip tx).isEmpty then ([] : List PyStr)
      else ((pySplitlines tx).map pyStrip).filter (fun l => !l.isEmpty)) = lst := by
    by_cases he : (pyStrip tx).isEmpty
    · rw [if_pos he, hlst,
        trimmed_lines_of_all_space tx (List.isEmpty_iff.1 he)]
    · rw [if_neg he]
  have hsave : CommentService.saveComments st sid tx =
      .ok (true, storageSet st sid lst) := by
    unfold CommentService.saveComments SessionCommentStorage.saveComments
    rw [hne, hne2, hbranch]
    rfl
  have hload : SessionCommentStorage.loadComments (storageSet st sid lst) sid
      = lst := by
    unfold SessionCommentStorage.loadComments
    rw [hne2]
    simp [storageLookup_set_self]
  -- facts about the stored entries
  have hfacts : ∀ l ∈ lst, pyStrip l = l ∧ l ≠ [] ∧
      ∀ c ∈ l, pyIsLineBreak c = false := by
    intro l hl
    rw [hlst] at hl
    have hne3 := List.of_mem_filter hl
    obtain ⟨piece, hpiece, rfl⟩ := List.mem_map.1 (List.mem_of_mem_filter hl)
    refine ⟨pyStrip_idem piece, by simpa [List.isEmpty_iff] using hne3, ?_⟩
    intro c hc
    rcases pySplitlinesAux_mem tx [] piece hpiece c
      (mem_of_mem_pyStrip hc) with hmem | hmem
    · exact pySplitlines_no_break tx piece hpiece c (mem_of_mem_pyStrip hc)
    · cases hmem
  refine ⟨storageSet st sid lst, hsave, hload, ?_⟩
  intro txt2 hlo
  unfold CommentService.loadComments at hlo
  rw [hne] at hlo
  simp only [Bool.false_eq_true, if_false, hload, Except.ok.injEq] at hlo
  subst hlo
  -- the re-save stores the same list
  have hsplit : pySplitlines (pyJoinNl lst) = lst :=
    pySplitlines_pyJoinNl lst (fun l hl => (hfacts l hl).2.1)
      (fun l hl => (hfacts l hl).2.2)
  have hmap : lst.map pyStrip = lst := by
    conv_rhs => rw [← List.map_id lst]
    exact List.map_congr_left (fun l hl => (hfacts l hl).1)
  have hfilt : lst.filter (fun l => !l.isEmpty) = lst := by
    rw [List.filter_eq_self]
    intro l hl
    simpa [List.isEmpty_iff] using (hfacts l hl).2.1
  have hbranch2 : (if (pyStrip (pyJoinNl lst)).isEmpty then ([] : List PyStr)
      else ((pySplitlines (pyJoinNl lst)).map pyStrip).filter
        (fun l => !l.isEmpty)) = lst := by
    by_cases hem : (pyStrip (pyJoinNl lst)).isEmpty
    · rw [if_pos hem]
      cases hcl : lst with
      | nil => rfl
      | cons l0 rest =>
        exfalso
        have hl0 := hfacts l0 (by rw [hcl]; exact List.mem_cons_self l0 rest)
        obtain ⟨c, cs, hc⟩ : ∃ c cs, l0 = c :: cs := by
          cases l0 with
          | nil => exact absurd rfl hl0.2.1
          | cons c cs => exact ⟨c, cs, rfl⟩
        have hcs : pyIsSpace c = false := by
          have h5 := hl0.1
          rw [hc] at h5
          exact pyStrip_head_not_space (c :: cs) c cs h5
        have hall := all_space_of_pyStrip_eq_nil (List.isEmpty_iff.1 hem)
        have hcmem : c ∈ pyJoinNl lst := by
          rw [hcl]
          unfold pyJoinNl
          rw [hc]
          exact List.mem_append_left _ (List.mem_cons_self c cs)
        rw [hall c hcmem] at hcs
        cases hcs
    · rw [if_neg hem, hsplit, hmap, hfilt]
  unfold CommentService.saveComments SessionCommentStorage.saveComments
  rw [hne, hne2, hbranch2]
  simp only [Bool.false_eq_true, if_false]
  rw [storageSet_set_self]

/-- Witness for C10: saving `"  a \n\n b "` stores `["a", "b"]`, and
re-saving the loaded text keeps the state. -/
theorem save_comments_normalizes_witness :
    (pyStrip (toPy "s") ≠ []) ∧
    (∃ st', CommentService.saveComments [] (toPy "s") (toPy "  a \n\n b ") =
        .ok (true, st') ∧
      SessionCommentStorage.loadComments st' (toPy "s") =
        ((pySplitlines (toPy "  a \n\n b ")).map pyStrip).filter
          (fun l => !l.isEmpty) ∧
      ∀ txt2, CommentService.loadComments st' (toPy "s") = .ok txt2 →
        CommentService.saveComments st' (toPy "s") txt2 = .ok (true, st')) :=
  ⟨by decide, save_comments_normalizes [] (toPy "s") (toPy "  a \n\n b ")
    (by decide)⟩

/-! ## Digit-string lemmas -/

theorem scanDigits_spec (ds : PyStr) :
    ∀ rest acc, (∀ d ∈ ds, 48 ≤ d ∧ d ≤ 57) →
      (∀ c t, rest = c :: t → ¬(48 ≤ c ∧ c ≤ 57)) →
      scanDigits (ds ++ rest) acc =
        (ds.foldl (fun a d => a * 10 + (d - 48)) acc, ds.length, rest) := by
  induction ds with
  | nil =>
    intro rest acc _ h2
    cases rest with
    | nil => rfl
    | cons c t =>
      simp only [List.nil_append, scanDigits, if_neg (h2 c t rfl)]
      rfl
  | cons d ds ih =>
    intro rest acc h1 h2
    have hd := h1 d (List.mem_cons_self d ds)
    simp only [List.cons_append, scanDigits, if_pos hd, List.append_eq]
    rw [ih rest (acc * 10 + (d - 48)) (fun x hx => h1 x (List.mem_cons_of_mem d hx)) h2]
    simp [List.length_cons, Nat.add_comm]

theorem natDigitsRev_zero (f : Nat) : natDigitsRev f 0 = [] := by
  cases f <;> rfl

theorem natDigitsRev_succ (f m : Nat) :
    natDigitsRev (f + 1) (m + 1) =
      (m + 1) % 10 :: natDigitsRev f ((m + 1) / 10) := rfl

theorem natDigitsRev_lt_ten (f : Nat) :
    ∀ n, ∀ d ∈ natDigitsRev f n, d < 10 := by
  induction f with
  | zero => intro n d hd; simp [natDigitsRev] at hd
  | succ f ih =>
    intro n d hd
    cases n with
    | zero => simp [natDigitsRev] at hd
    | succ m =>
      rw [natDigitsRev_succ] at hd
      rcases List.mem_cons.1 hd with rfl | hd2
      · exact Nat.mod_lt _ (by omega)
      · exact ih _ d hd2

theorem natDigitsRev_foldl (f : Nat) :
    ∀ n acc, n ≤ f →
      ((natDigitsRev f n).map (· + 48)).reverse.foldl
        (fun a d => a * 10 + (d - 48)) acc =
      acc * 10 ^ (natDigitsRev f n).length + n := by
  induction f with
  | zero =>
    intro n acc hn
    have hz : n = 0 := by omega
    subst hz
    simp [natDigitsRev]
  | succ f ih =>
    intro n acc hn
    cases n with
    | zero => simp [natDigitsRev_zero]
    | succ m =>
      rw [natDigitsRev_succ]
      simp only [List.map_cons, List.reverse_cons, List.foldl_append,
        List.foldl_cons, List.foldl_nil, List.length_cons]
      have hlt : (m + 1) / 10 < m + 1 := Nat.div_lt_self (Nat.succ_pos m) (by omega)
      rw [ih ((m + 1) / 10) acc (by omega)]
      simp only [Nat.add_sub_cancel, pow_succ]
      generalize (10 : Nat) ^ (natDigitsRev f ((m + 1) / 10)).length = P
      have hdm := Nat.div_add_mod (m + 1) 10
      ring_nf
      omega

theorem pyNatRepr_digits (n : Nat) :
    ∀ d ∈ pyNatRepr n, 48 ≤ d ∧ d ≤ 57 := by
  intro d hd
  unfold pyNatRepr at hd
  by_cases h : n = 0
  · rw [if_pos h] at hd
    rcases List.mem_singleton.1 hd with rfl
    omega
  · rw [if_neg h] at hd
    rw [List.mem_reverse] at hd
    obtain ⟨x, hx, rfl⟩ := List.mem_map.1 hd
    have := natDigitsRev_lt_ten n n x hx
    omega

theorem pyNatRepr_foldl (n : Nat) :
    (pyNatRepr n).foldl (fun a d => a * 10 + (d - 48)) 0 = n := by
  unfold pyNatRepr
  by_cases h : n = 0
  · rw [if_pos h, h]; rfl
  · rw [if_neg h]
    have h2 := natDigitsRev_foldl n n 0 le_rfl
    simpa using h2

theorem natDigitsRev_getLast (f : Nat) :
    ∀ n, n ≠ 0 → n ≤ f →
      ∃ m ds, natDigitsRev f n = ds ++ [m] ∧ 1 ≤ m ∧ m ≤ 9 := by
  induction f with
  | zero => intro n h1 h2; omega
  | succ f ih =>
    intro n h1 h2
    cases n with
    | zero => exact absurd rfl h1
    | succ m =>
      rw [natDigitsRev_succ]
      by_cases hq : (m + 1) / 10 = 0
      · rw [hq, natDigitsRev_zero]
        exact ⟨(m + 1) % 10, [], rfl, by omega, by omega⟩
      · have hlt : (m + 1) / 10 < m + 1 :=
          Nat.div_lt_self (Nat.succ_pos m) (by omega)
        obtain ⟨m2, ds0, heq, ha, hb⟩ := ih ((m + 1) / 10) hq (by omega)
        exact ⟨m2, (m + 1) % 10 :: ds0, by rw [heq]; rfl, ha, hb⟩

theorem pyNatRepr_pos_head (n : Nat) (hn : n ≠ 0) :
    ∃ d ds, pyNatRepr n = d :: ds ∧ 49 ≤ d ∧ d ≤ 57 := by
  unfold pyNatRepr
  rw [if_neg hn]
  obtain ⟨m, ds0, heq, h1, h9⟩ := natDigitsRev_getLast n n hn le_rfl
  rw [heq]
  refine ⟨m + 48, (ds0.map (· + 48)).reverse, ?_, by omega, by omega⟩
  simp

/-! ## Number round-trip -/

/-- `numSafe` suffixes cannot begin with a digit. -/
theorem numSafe_not_digit (rest : PyStr) (h : numSafe rest = true) :
    ∀ c t, rest = c :: t → ¬(48 ≤ c ∧ c ≤ 57) := by
  intro c t hr
  subst hr
  simp only [numSafe] at h
  rcases Bool.or_eq_true_iff.1 h with h1 | h1
  · rcases Bool.or_eq_true_iff.1 h1 with h2 | h2
    · rcases Bool.or_eq_true_iff.1 h2 with h3 | h3 <;>
        · have := eq_of_beq h3; omega
    · have := eq_of_beq h2; omega
  · have := eq_of_beq h1; omega

/-- On a `numSafe` suffix the fraction and exponent groups do not match:
the integer part alone forms the number. -/
theorem scanNumTail_safe (neg : Bool) (iv : Nat) (rest : PyStr) (pos : Nat)
    (h : numSafe rest = true) :
    scanNumTail neg iv rest pos =
      (.jint (if neg then -(Int.ofNat iv) else Int.ofNat iv), rest, pos) := by
  have hd := numSafe_not_digit rest h
  rcases rest with _ | ⟨c, tail⟩
  · rfl
  · have hc : ¬(48 ≤ c ∧ c ≤ 57) := hd c tail rfl
    have hc2 : c = 44 ∨ c = 93 ∨ c = 125 ∨ c = 10 := by
      simp only [numSafe] at h
      rcases Bool.or_eq_true_iff.1 h with h1 | h1
      · rcases Bool.or_eq_true_iff.1 h1 with h2 | h2
        · rcases Bool.or_eq_true_iff.1 h2 with h3 | h3
          · exact Or.inl (eq_of_beq h3)
          · exact Or.inr (Or.inl (eq_of_beq h3))
        · exact Or.inr (Or.inr (Or.inl (eq_of_beq h2)))
      · exact Or.inr (Or.inr (Or.inr (eq_of_beq h1)))
    rcases hc2 with h4 | h4 | h4 | h4 <;> subst h4 <;>
      rcases tail with _ | ⟨d, ds⟩ <;> rfl

/-- `scanNumber` on the serialization of an integer. -/
theorem scanNumber_intRepr (i : Int) (rest : PyStr) (pos : Nat)
    (hsafe : numSafe rest = true) :
    scanNumber (pyIntRepr i ++ rest) pos =
      some (.jint i, rest, pos + (pyIntRepr i).length) := by
  by_cases hneg : i < 0
  · have hn0 : i.natAbs ≠ 0 := by omega
    obtain ⟨d, ds, heq, h49, h57⟩ := pyNatRepr_pos_head i.natAbs hn0
    have hdigits := pyNatRepr_digits i.natAbs
    rw [heq] at hdigits
    unfold pyIntRepr
    rw [if_pos hneg, heq]
    show scanNumber (45 :: (d :: ds ++ rest)) pos = _
    unfold scanNumber
    simp only [List.cons_append]
    rw [if_true]
    dsimp only
    rw [if_neg (by omega : ¬d = 48), if_pos (⟨by omega, h57⟩ : 49 ≤ d ∧ d ≤ 57)]
    rw [scanDigits_spec ds rest (d - 48)
      (fun x hx => hdigits x (List.mem_cons_of_mem d hx))
      (numSafe_not_digit rest hsafe)]
    rw [scanNumTail_safe _ _ _ _ hsafe]
    have hval : List.foldl (fun a d => a * 10 + (d - 48)) (d - 48) ds
        = i.natAbs := by
      have h2 := pyNatRepr_foldl i.natAbs
      rw [heq] at h2
      simpa using h2
    rw [hval]
    have : -(Int.ofNat i.natAbs) = i := by
      rw [Int.ofNat_eq_natCast]; omega
    rw [this]
    simp [List.length_cons]
    omega
  · have hrepr : pyIntRepr i = pyNatRepr i.natAbs := by
      unfold pyIntRepr
      rw [if_neg hneg]
    by_cases hz : i.natAbs = 0
    · have hi0 : i = 0 := by omega
      subst hi0
      show scanNumber ([48] ++ rest) pos = _
      unfold scanNumber
      simp only [List.cons_append, List.nil_append]
      rw [if_neg (by omega : ¬(48 : Nat) = 45)]
      dsimp only
      rw [if_pos rfl, scanNumTail_safe _ _ _ _ hsafe]
      rfl
    · obtain ⟨d, ds, heq, h49, h57⟩ := pyNatRepr_pos_head i.natAbs hz
      have hdigits := pyNatRepr_digits i.natAbs
      rw [heq] at hdigits
      rw [hrepr, heq]
      show scanNumber (d :: (ds ++ rest)) pos = _
      unfold scanNumber
      simp only
      rw [if_neg (by omega : ¬d = 45)]
      dsimp only
      rw [if_neg (by omega : ¬d = 48), if_pos (⟨by omega, h57⟩ : 49 ≤ d ∧ d ≤ 57)]
      rw [scanDigits_spec ds rest (d - 48)
        (fun x hx => hdigits x (List.mem_cons_of_mem d hx))
        (numSafe_not_digit rest hsafe)]
      rw [scanNumTail_safe _ _ _ _ hsafe]
      have hval : List.foldl (fun a d => a * 10 + (d - 48)) (d - 48) ds
          = i.natAbs := by
        have h2 := pyNatRepr_foldl i.natAbs
        rw [heq] at h2
        simpa using h2
      rw [hval]
      have : Int.ofNat i.natAbs = i := by
        rw [Int.ofNat_eq_natCast]; omega
      rw [this]
      simp [List.length_cons]
      omega

theorem foldl_digits (l : PyStr) :
    ∀ acc, l.foldl (fun a d => a * 10 + (d - 48)) acc
      = acc * 10 ^ l.length + digitsVal l := by
  induction l with
  | nil => intro acc; simp [digitsVal]
  | cons d tl ih =>
    intro acc
    have h1 : digitsVal (d :: tl) = (d - 48) * 10 ^ tl.length + digitsVal tl := by
      show List.foldl _ 0 (d :: tl) = _
      rw [List.foldl_cons, ih]
      ring_nf
    rw [List.foldl_cons, ih, h1, List.length_cons]
    ring

theorem digitsVal_append (a b : PyStr) :
    digitsVal (a ++ b) = digitsVal a * 10 ^ b.length + digitsVal b := by
  show List.foldl _ 0 (a ++ b) = _
  rw [List.foldl_append, foldl_digits]
  show List.foldl _ 0 a * 10 ^ b.length + digitsVal b = _
  rfl

theorem digitsVal_replicate_48 (z : Nat) :
    digitsVal (List.replicate z 48) = 0 := by
  induction z with
  | zero => rfl
  | succ m ih =>
    show List.foldl _ 0 _ = 0
    rw [List.replicate_succ, List.foldl_cons]
    have h0 : (0 * 10 + (48 - 48)) = 0 := by norm_num
    rw [h0]
    exact ih

theorem digitsVal_pyNatRepr (n : Nat) : digitsVal (pyNatRepr n) = n :=
  pyNatRepr_foldl n

/-- The fraction group on `'.' :: digits ++ safe rest`, exponent absent. -/
theorem scanNumTail_frac (neg : Bool) (iv : Nat) (f1 : Nat) (ftl : PyStr)
    (rest : PyStr) (pos : Nat)
    (hf1 : 48 ≤ f1 ∧ f1 ≤ 57) (hftl : ∀ d ∈ ftl, 48 ≤ d ∧ d ≤ 57)
    (hsafe : numSafe rest = true) :
    scanNumTail neg iv (46 :: f1 :: (ftl ++ rest)) pos =
      (.jfloat (if neg
          then -((iv : ℚ) + (digitsVal (f1 :: ftl) : ℚ)
              / (10 : ℚ) ^ (f1 :: ftl).length)
          else (iv : ℚ) + (digitsVal (f1 :: ftl) : ℚ)
              / (10 : ℚ) ^ (f1 :: ftl).length),
        rest, pos + 2 + ftl.length) := by
  have hd := numSafe_not_digit rest hsafe
  have hfold : List.foldl (fun a d => a * 10 + (d - 48)) (f1 - 48) ftl
      = digitsVal (f1 :: ftl) := by
    show _ = List.foldl _ 0 (f1 :: ftl)
    rw [List.foldl_cons]
    norm_num
  rcases rest with _ | ⟨c, tail⟩
  · unfold scanNumTail
    simp only [List.append_nil]
    rw [if_pos (show True ∧ 48 ≤ f1 ∧ f1 ≤ 57 from ⟨trivial, hf1⟩)]
    rw [show ftl = ftl ++ ([] : PyStr) from (List.append_nil ftl).symm,
      scanDigits_spec ftl [] (f1 - 48) hftl hd]
    dsimp only
    rw [hfold]
    norm_num [List.length_cons]
  · have hc2 : c = 44 ∨ c = 93 ∨ c = 125 ∨ c = 10 := by
      simp only [numSafe] at hsafe
      rcases Bool.or_eq_true_iff.1 hsafe with h1 | h1
      · rcases Bool.or_eq_true_iff.1 h1 with h2 | h2
        · rcases Bool.or_eq_true_iff.1 h2 with h3 | h3
          · exact Or.inl (eq_of_beq h3)
          · exact Or.inr (Or.inl (eq_of_beq h3))
        · exact Or.inr (Or.inr (Or.inl (eq_of_beq h2)))
      · exact Or.inr (Or.inr (Or.inr (eq_of_beq h1)))
    unfold scanNumTail
    simp only [List.cons_append]
    rw [if_pos (show True ∧ 48 ≤ f1 ∧ f1 ≤ 57 from ⟨trivial, hf1⟩)]
    rw [scanDigits_spec ftl (c :: tail) (f1 - 48) hftl hd]
    dsimp only
    rw [if_neg (by omega : ¬(c = 101 ∨ c = 69))]
    dsimp only
    rw [hfold]
    norm_num [List.length_cons]

theorem isDec_dvd (q : ℚ) (h : isDec q = true) :
    q.den ∣ 10 ^ leastPow10 q.den := by
  apply Nat.dvd_of_mod_eq_zero
  simpa [isDec] using h

theorem mul_pow_eq_num (q : ℚ) (k : Nat) (h : q.den ∣ 10 ^ k) :
    q * (10 : ℚ) ^ k = ((q * (10 : ℚ) ^ k).num : ℚ) := by
  obtain ⟨t, ht⟩ := h
  have h10 : ((10 : ℚ)) ^ k = (q.den : ℚ) * (t : ℚ) := by
    have h2 := congrArg (fun n : Nat => (n : ℚ)) ht
    push_cast at h2
    simpa using h2
  have hden : (q.den : ℚ) ≠ 0 := by
    exact_mod_cast q.den_nz
  have hkey : q * (10 : ℚ) ^ k = ((q.num * t : ℤ) : ℚ) := by
    conv_lhs => rw [← Rat.num_div_den q, h10]
    push_cast
    field_simp
    ring
  rw [hkey, Rat.num_intCast]

theorem isDec_eq_div (q : ℚ) (h : isDec q = true) :
    q = ((q * (10 : ℚ) ^ leastPow10 q.den).num : ℚ)
        / (10 : ℚ) ^ leastPow10 q.den := by
  have hkey := mul_pow_eq_num q (leastPow10 q.den) (isDec_dvd q h)
  have hpow : ((10 : ℚ) ^ leastPow10 q.den) ≠ 0 := by positivity
  rw [eq_div_iff hpow]
  exact hkey

/-- `scanNumber` on `intpart ++ '.' ++ fracpart ++ safe rest` (no sign). -/
theorem scanNumber_core_pos (ip fp2 rest : PyStr) (pos : Nat)
    (hip : ip = [48] ∨
      ∃ d tl, ip = d :: tl ∧ 49 ≤ d ∧ d ≤ 57 ∧ ∀ x ∈ tl, 48 ≤ x ∧ x ≤ 57)
    (hfp : ∃ f1 ftl, fp2 = f1 :: ftl ∧ (48 ≤ f1 ∧ f1 ≤ 57) ∧
      ∀ x ∈ ftl, 48 ≤ x ∧ x ≤ 57)
    (hsafe : numSafe rest = true) :
    scanNumber (ip ++ 46 :: fp2 ++ rest) pos =
      some (.jfloat ((digitsVal ip : ℚ) + (digitsVal fp2 : ℚ)
              / (10 : ℚ) ^ fp2.length),
        rest, pos + ip.length + 1 + fp2.length) := by
  obtain ⟨f1, ftl, hfpe, hf1, hftl⟩ := hfp
  subst hfpe
  rcases hip with hip | ⟨d, tl, hipe, hd49, hd57, htl⟩
  · subst hip
    show scanNumber (48 :: 46 :: f1 :: (ftl ++ rest)) pos = _
    unfold scanNumber
    simp only
    rw [if_neg (by omega : ¬(48 : Nat) = 45)]
    dsimp only
    rw [if_pos rfl]
    try simp only [List.append_eq, List.append_assoc, List.nil_append, List.cons_append]
    rw [scanNumTail_frac false 0 f1 ftl rest (pos + 1) hf1 hftl hsafe]
    have h48 : digitsVal [48] = 0 := by norm_num [digitsVal]
    rw [h48]
    norm_num [List.length_cons]
    omega
  · subst hipe
    simp only [List.append_assoc, List.cons_append, List.nil_append]
    unfold scanNumber
    simp only
    rw [if_neg (by omega : ¬d = 45)]
    dsimp only
    rw [if_neg (by omega : ¬d = 48),
      if_pos (⟨hd49, hd57⟩ : 49 ≤ d ∧ d ≤ 57)]
    try simp only [List.append_eq, List.append_assoc, List.nil_append, List.cons_append]
    rw [scanDigits_spec tl (46 :: f1 :: (ftl ++ rest)) (d - 48) htl
        (by intro c t hct h2; injection hct with h3 h4; omega)]
    have hfold : List.foldl (fun a d => a * 10 + (d - 48)) (d - 48) tl
        = digitsVal (d :: tl) := by
      show _ = List.foldl _ 0 (d :: tl)
      rw [List.foldl_cons]
      norm_num
    rw [hfold,
      scanNumTail_frac false (digitsVal (d :: tl)) f1 ftl rest
        (pos + 1 + tl.length) hf1 hftl hsafe]
    norm_num [List.length_cons]
    omega

/-- `scanNumber` on `'-' ++ intpart ++ '.' ++ fracpart ++ safe rest`. -/
theorem scanNumber_core_neg (ip fp2 rest : PyStr) (pos : Nat)
    (hip : ip = [48] ∨
      ∃ d tl, ip = d :: tl ∧ 49 ≤ d ∧ d ≤ 57 ∧ ∀ x ∈ tl, 48 ≤ x ∧ x ≤ 57)
    (hfp : ∃ f1 ftl, fp2 = f1 :: ftl ∧ (48 ≤ f1 ∧ f1 ≤ 57) ∧
      ∀ x ∈ ftl, 48 ≤ x ∧ x ≤ 57)
    (hsafe : numSafe rest = true) :
    scanNumber (45 :: (ip ++ 46 :: fp2 ++ rest)) pos =
      some (.jfloat (-((digitsVal ip : ℚ) + (digitsVal fp2 : ℚ)
              / (10 : ℚ) ^ fp2.length)),
        rest, pos + 1 + ip.length + 1 + fp2.length) := by
  obtain ⟨f1, ftl, hfpe, hf1, hftl⟩ := hfp
  subst hfpe
  rcases hip with hip | ⟨d, tl, hipe, hd49, hd57, htl⟩
  · subst hip
    simp only [List.append_assoc, List.cons_append, List.nil_append]
    unfold scanNumber
    simp only
    rw [if_true]
    dsimp only
    rw [if_pos rfl]
    try simp only [List.append_eq, List.append_assoc, List.nil_append, List.cons_append]
    rw [scanNumTail_frac true 0 f1 ftl rest (pos + 1 + 1) hf1 hftl hsafe]
    have h48 : digitsVal [48] = 0 := by norm_num [digitsVal]
    rw [h48]
    norm_num [List.length_cons]
    omega
  · subst hipe
    simp only [List.append_assoc, List.cons_append, List.nil_append]
    unfold scanNumber
    simp only
    rw [if_true]
    dsimp only
    rw [if_neg (by omega : ¬d = 48),
      if_pos (⟨hd49, hd57⟩ : 49 ≤ d ∧ d ≤ 57)]
    try simp only [List.append_eq, List.append_assoc, List.nil_append, List.cons_append]
    rw [scanDigits_spec tl (46 :: f1 :: (ftl ++ rest)) (d - 48) htl
        (by intro c t hct h2; injection hct with h3 h4; omega)]
    have hfold : List.foldl (fun a d => a * 10 + (d - 48)) (d - 48) tl
        = digitsVal (d :: tl) := by
      show _ = List.foldl _ 0 (d :: tl)
      rw [List.foldl_cons]
      norm_num
    rw [hfold,
      scanNumTail_frac true (digitsVal (d :: tl)) f1 ftl rest
        (pos + 1 + 1 + tl.length) hf1 hftl hsafe]
    norm_num [List.length_cons]
    omega

/-- `scanNumber` on the serialization of a decimal float. -/
theorem scanNumber_floatRepr (q : ℚ) (rest : PyStr) (pos : Nat)
    (hdec : isDec q = true) (hsafe : numSafe rest = true) :
    scanNumber (floatRepr q ++ rest) pos =
      some (.jfloat q, rest, pos + (floatRepr q).length) := by
  have hqe := isDec_eq_div q hdec
  set k := leastPow10 q.den with hk
  set N : ℤ := (q * (10 : ℚ) ^ k).num with hN
  have hNq : (N : ℚ) = q * (10 : ℚ) ^ k :=
    (mul_pow_eq_num q k (isDec_dvd q hdec)).symm
  set ds := pyNatRepr N.natAbs with hds
  set padded := List.replicate (k + 1 - ds.length) 48 ++ ds with hpadded
  set ip := padded.take (padded.length - k) with hip
  set fp := padded.drop (padded.length - k) with hfp
  set fp' := (if k = 0 then ([48] : PyStr) else fp) with hfp2
  have hfr : floatRepr q =
      if q < 0 then 45 :: (ip ++ 46 :: fp') else ip ++ 46 :: fp' := by
    rw [hip, hfp2, hfp, hpadded, hds, hN, hk]
    rfl
  have hds_digits : ∀ x ∈ ds, 48 ≤ x ∧ x ≤ 57 := by
    rw [hds]; exact pyNatRepr_digits _
  have hds_len : 1 ≤ ds.length := by
    rw [hds]
    by_cases h : N.natAbs = 0
    · unfold pyNatRepr; rw [if_pos h]; simp
    · obtain ⟨d, dtl, he, _, _⟩ := pyNatRepr_pos_head _ h
      rw [he]; simp
  have hpad_digits : ∀ x ∈ padded, 48 ≤ x ∧ x ≤ 57 := by
    intro x hx
    rw [hpadded] at hx
    rcases List.mem_append.1 hx with hx | hx
    · have h48 := List.eq_of_mem_replicate hx
      omega
    · exact hds_digits x hx
  have hpadlen : padded.length = k + 1 - ds.length + ds.length := by
    rw [hpadded]; simp
  have hk1 : k + 1 ≤ padded.length := by omega
  have hiplen : ip.length = padded.length - k := by
    rw [hip]; simp
  have hfplen : fp.length = k := by
    rw [hfp]; simp; omega
  have hipfp : ip ++ fp = padded := by
    rw [hip, hfp]; exact List.take_append_drop _ _
  have hpadval : digitsVal padded = N.natAbs := by
    rw [hpadded, digitsVal_append, digitsVal_replicate_48, hds,
      digitsVal_pyNatRepr]
    simp
  have hip_digits : ∀ x ∈ ip, 48 ≤ x ∧ x ≤ 57 := by
    intro x hx
    exact hpad_digits x (List.take_subset _ _ (by rw [← hip]; exact hx))
  have hfp_digits : ∀ x ∈ fp, 48 ≤ x ∧ x ≤ 57 := by
    intro x hx
    exact hpad_digits x (List.drop_subset _ _ (by rw [← hfp]; exact hx))
  have hip_shape : ip = [48] ∨
      ∃ d tl, ip = d :: tl ∧ 49 ≤ d ∧ d ≤ 57 ∧ ∀ x ∈ tl, 48 ≤ x ∧ x ≤ 57 := by
    by_cases hz : N.natAbs = 0
    · left
      have hds0 : ds = [48] := by rw [hds, hz]; rfl
      have hq0 : q = 0 := by
        rw [hqe, Int.natAbs_eq_zero.1 hz]
        simp
      have hden1 : q.den = 1 := by rw [hq0]; rfl
      have hk0 : k = 0 := by rw [hk, hden1]; rfl
      have hpad1 : padded = [48] := by
        rw [hpadded, hds0, hk0]
        rfl
      rw [hip, hpad1, hk0]
      rfl
    · by_cases hcase : ds.length ≤ k
      · left
        have h2 : padded.length - k = 1 := by omega
        have h1 : k + 1 - ds.length = (k - ds.length) + 1 := by omega
        have hpad_head : ∃ t, padded = 48 :: t := by
          rw [hpadded, h1, List.replicate_succ]
          exact ⟨_, rfl⟩
        obtain ⟨t, ht⟩ := hpad_head
        rw [hip, h2, ht]
        simp
      · right
        have hpad_ds : padded = ds := by
          rw [hpadded, show k + 1 - ds.length = 0 from by omega]
          rfl
        obtain ⟨d, dtl, hdse, h49, h57⟩ := pyNatRepr_pos_head N.natAbs hz
        have hdse2 : ds = d :: dtl := by rw [hds, hdse]
        set m := padded.length - k - 1 with hm0
        have hlen2 : padded.length - k = m + 1 := by omega
        refine ⟨d, dtl.take m, ?_, h49, h57, ?_⟩
        · rw [hip, hlen2, hpad_ds, hdse2, List.take_succ_cons]
        · intro x hx
          have hx2 : x ∈ dtl := List.take_subset _ _ hx
          have hx3 : x ∈ ds := by
            rw [hdse2]; exact List.mem_cons_of_mem _ hx2
          exact hds_digits x hx3
  have hfp_shape : ∃ f1 ftl, fp' = f1 :: ftl ∧ (48 ≤ f1 ∧ f1 ≤ 57) ∧
      ∀ x ∈ ftl, 48 ≤ x ∧ x ≤ 57 := by
    by_cases hk0 : k = 0
    · rw [hfp2, if_pos hk0]
      exact ⟨48, [], rfl, by omega, by simp⟩
    · rw [hfp2, if_neg hk0]
      have hne : fp ≠ [] := by
        intro h
        rw [h] at hfplen
        simp at hfplen
        omega
      obtain ⟨f1, ftl, he⟩ := List.exists_cons_of_ne_nil hne
      refine ⟨f1, ftl, he, ?_, ?_⟩
      · exact hfp_digits f1 (by rw [he]; exact List.mem_cons_self _ _)
      · intro x hx
        exact hfp_digits x (by rw [he]; exact List.mem_cons_of_mem _ hx)
  have hvq : (digitsVal ip : ℚ) + (digitsVal fp' : ℚ) / (10 : ℚ) ^ fp'.length
      = ((N.natAbs : ℕ) : ℚ) / (10 : ℚ) ^ k := by
    by_cases hk0 : k = 0
    · have hip_pad : ip = padded := by
        rw [hip, hk0, Nat.sub_zero, List.take_length]
      rw [hfp2, if_pos hk0, hip_pad, hpadval, hk0]
      norm_num [digitsVal]
    · have hnum : digitsVal ip * 10 ^ k + digitsVal fp = N.natAbs := by
        have h := digitsVal_append ip fp
        rw [hipfp, hfplen] at h
        omega
      have h10 : ((10 : ℚ)) ^ k ≠ 0 := by positivity
      rw [hfp2, if_neg hk0, hfplen]
      field_simp
      exact_mod_cast congrArg (fun n : Nat => (n : ℚ)) hnum
  by_cases hq0 : q < 0
  · have hfr2 : floatRepr q = 45 :: (ip ++ 46 :: fp') := by
      rw [hfr, if_pos hq0]
    have hNneg : N < 0 := by
      have h1 : (N : ℚ) < 0 := by
        rw [hNq]
        exact mul_neg_of_neg_of_pos hq0 (by positivity)
      exact_mod_cast h1
    have habs : ((N.natAbs : ℕ) : ℚ) = -(N : ℚ) := by
      have h1 : ((N.natAbs : ℕ) : ℤ) = -N := by omega
      calc ((N.natAbs : ℕ) : ℚ) = (((N.natAbs : ℕ) : ℤ) : ℚ) := (Int.cast_natCast _).symm
        _ = ((-N : ℤ) : ℚ) := by rw [h1]
        _ = -(N : ℚ) := by push_cast; ring
    rw [hfr2, List.cons_append,
      scanNumber_core_neg ip fp' rest pos hip_shape hfp_shape hsafe]
    have hval : -((digitsVal ip : ℚ) + (digitsVal fp' : ℚ)
        / (10 : ℚ) ^ fp'.length) = q := by
      rw [hvq, habs, hqe]
      ring
    rw [hval]
    simp only [Option.some.injEq, Prod.mk.injEq]
    refine ⟨trivial, trivial, ?_⟩
    simp [List.length_cons, List.length_append]
    omega
  · have hfr2 : floatRepr q = ip ++ 46 :: fp' := by
      rw [hfr, if_neg hq0]
    have hNpos : 0 ≤ N := by
      have h1 : (0 : ℚ) ≤ (N : ℚ) := by
        rw [hNq]
        have : (0 : ℚ) ≤ q := le_of_not_lt hq0
        positivity
      exact_mod_cast h1
    have habs : ((N.natAbs : ℕ) : ℚ) = (N : ℚ) := by
      have h1 : ((N.natAbs : ℕ) : ℤ) = N := by omega
      calc ((N.natAbs : ℕ) : ℚ) = (((N.natAbs : ℕ) : ℤ) : ℚ) := (Int.cast_natCast _).symm
        _ = (N : ℚ) := by rw [h1]
    rw [hfr2, scanNumber_core_pos ip fp' rest pos hip_shape hfp_shape hsafe]
    have hval : (digitsVal ip : ℚ) + (digitsVal fp' : ℚ)
        / (10 : ℚ) ^ fp'.length = q := by
      rw [hvq, habs, hqe]
    rw [hval]
    simp only [Option.some.injEq, Prod.mk.injEq]
    refine ⟨trivial, trivial, ?_⟩
    simp [List.length_cons, List.length_append]
    omega

theorem hexVal_hexDigit (v : Nat) (h : v < 16) :
    hexVal (hexDigit v) = some v := by
  unfold hexVal hexDigit
  by_cases h10 : v < 10
  · rw [if_pos h10, if_pos (by omega : 48 ≤ 48 + v ∧ 48 + v ≤ 57)]
    congr 1
    omega
  · rw [if_neg h10,
      if_neg (by omega : ¬(48 ≤ 87 + v ∧ 87 + v ≤ 57)),
      if_pos (by omega : 97 ≤ 87 + v ∧ 87 + v ≤ 102)]
    congr 1
    omega

theorem escChar_ctrl (c : Nat) (h : c < 32) (h8 : c ≠ 8) (h9 : c ≠ 9)
    (h10 : c ≠ 10) (h12 : c ≠ 12) (h13 : c ≠ 13) :
    escChar c = [92, 117, 48, 48, hexDigit (c / 16), hexDigit (c % 16)] := by
  unfold escChar
  simp only [beq_iff_eq]
  rw [if_neg (by omega : ¬c = 92), if_neg (by omega : ¬c = 34),
    if_neg h8, if_neg h12, if_neg h10, if_neg h13, if_neg h9, if_pos h]

/-- `scanstring` decodes `encode_basestring` output, for any source
string. -/
theorem scanString_encode (s : PyStr) :
    ∀ fuel acc rest pos bg, s.length + 1 ≤ fuel →
      scanString fuel bg ((s.map escChar).flatten ++ 34 :: rest) pos acc
        = .ok (acc.reverse ++ s) rest
            (pos + ((s.map escChar).flatten).length + 1) := by
  induction s with
  | nil =>
    intro fuel acc rest pos bg hfuel
    cases fuel with
    | zero => omega
    | succ f =>
      simp only [List.map_nil, List.flatten_nil, List.nil_append,
        List.length_nil, List.append_nil]
      show scanString (f + 1) bg (34 :: rest) pos acc = _
      simp [scanString]
  | cons c cs ih =>
    intro fuel acc rest pos bg hfuel
    cases fuel with
    | zero => omega
    | succ f =>
      have hlen : cs.length + 1 ≤ f := by
        simp only [List.length_cons] at hfuel
        omega
      have hinput : ((c :: cs).map escChar).flatten ++ 34 :: rest
          = escChar c ++ ((cs.map escChar).flatten ++ 34 :: rest) := by
        simp [List.append_assoc]
      have hlenc : (((c :: cs).map escChar).flatten).length
          = (escChar c).length + ((cs.map escChar).flatten).length := by
        simp
      rw [hinput, hlenc]
      by_cases hc92 : c = 92
      · subst hc92
        rw [show escChar 92 = [92, 92] from rfl]
        show scanString (f + 1) bg
          (92 :: 92 :: ((cs.map escChar).flatten ++ 34 :: rest)) pos acc = _
        have hstep : scanString (f + 1) bg
            (92 :: 92 :: ((cs.map escChar).flatten ++ 34 :: rest)) pos acc
            = scanString f bg ((cs.map escChar).flatten ++ 34 :: rest)
                (pos + 2) (92 :: acc) := rfl
        rw [hstep, ih f (92 :: acc) rest (pos + 2) bg hlen]
        simp [List.reverse_cons, List.append_assoc]
        omega
      · by_cases hc34 : c = 34
        · subst hc34
          rw [show escChar 34 = [92, 34] from rfl]
          have hstep : scanString (f + 1) bg
              (92 :: 34 :: ((cs.map escChar).flatten ++ 34 :: rest)) pos acc
              = scanString f bg ((cs.map escChar).flatten ++ 34 :: rest)
                  (pos + 2) (34 :: acc) := rfl
          rw [List.cons_append, List.cons_append, List.nil_append, hstep,
            ih f (34 :: acc) rest (pos + 2) bg hlen]
          simp [List.reverse_cons, List.append_assoc]
          omega
        · by_cases hc8 : c = 8
          · subst hc8
            rw [show escChar 8 = [92, 98] from rfl]
            have hstep : scanString (f + 1) bg
                (92 :: 98 :: ((cs.map escChar).flatten ++ 34 :: rest)) pos acc
                = scanString f bg ((cs.map escChar).flatten ++ 34 :: rest)
                    (pos + 2) (8 :: acc) := rfl
            rw [List.cons_append, List.cons_append, List.nil_append, hstep,
              ih f (8 :: acc) rest (pos + 2) bg hlen]
            simp [List.reverse_cons, List.append_assoc]
            omega
          · by_cases hc12 : c = 12
            · subst hc12
              rw [show escChar 12 = [92, 102] from rfl]
              have hstep : scanString (f + 1) bg
                  (92 :: 102 :: ((cs.map escChar).flatten ++ 34 :: rest)) pos
                    acc
                  = scanString f bg ((cs.map escChar).flatten ++ 34 :: rest)
                      (pos + 2) (12 :: acc) := rfl
              rw [List.cons_append, List.cons_append, List.nil_append, hstep,
                ih f (12 :: acc) rest (pos + 2) bg hlen]
              simp [List.reverse_cons, List.append_assoc]
              omega
            · by_cases hc10 : c = 10
              · subst hc10
                rw [show escChar 10 = [92, 110] from rfl]
                have hstep : scanString (f + 1) bg
                    (92 :: 110 :: ((cs.map escChar).flatten ++ 34 :: rest))
                      pos acc
                    = scanString f bg ((cs.map escChar).flatten ++ 34 :: rest)
                        (pos + 2) (10 :: acc) := rfl
                rw [List.cons_append, List.cons_append, List.nil_append,
                  hstep, ih f (10 :: acc) rest (pos + 2) bg hlen]
                simp [List.reverse_cons, List.append_assoc]
                omega
              · by_cases hc13 : c = 13
                · subst hc13
                  rw [show escChar 13 = [92, 114] from rfl]
                  have hstep : scanString (f + 1) bg
                      (92 :: 114 :: ((cs.map escChar).flatten ++ 34 :: rest))
                        pos acc
                      = scanString f bg
                          ((cs.map escChar).flatten ++ 34 :: rest)
                          (pos + 2) (13 :: acc) := rfl
                  rw [List.cons_append, List.cons_append, List.nil_append,
                    hstep, ih f (13 :: acc) rest (pos + 2) bg hlen]
                  simp [List.reverse_cons, List.append_assoc]
                  omega
                · by_cases hc9 : c = 9
                  · subst hc9
                    rw [show escChar 9 = [92, 116] from rfl]
                    have hstep : scanString (f + 1) bg
                        (92 :: 116 ::
                          ((cs.map escChar).flatten ++ 34 :: rest)) pos acc
                        = scanString f bg
                            ((cs.map escChar).flatten ++ 34 :: rest)
                            (pos + 2) (9 :: acc) := rfl
                    rw [List.cons_append, List.cons_append, List.nil_append,
                      hstep, ih f (9 :: acc) rest (pos + 2) bg hlen]
                    simp [List.reverse_cons, List.append_assoc]
                    omega
                  · by_cases hctl : c < 32
                    · rw [escChar_ctrl c hctl hc8 hc9 hc10 hc12 hc13]
                      have hd1 : hexVal (hexDigit (c / 16)) = some (c / 16) :=
                        hexVal_hexDigit _ (by omega)
                      have hd2 : hexVal (hexDigit (c % 16)) = some (c % 16) :=
                        hexVal_hexDigit _ (by omega)
                      have hstep : scanString (f + 1) bg
                          (92 :: 117 :: 48 :: 48 :: hexDigit (c / 16) ::
                            hexDigit (c % 16) ::
                            ((cs.map escChar).flatten ++ 34 :: rest)) pos acc
                          = scanString f bg
                              ((cs.map escChar).flatten ++ 34 :: rest)
                              (pos + 6) (c :: acc) := by
                        have hval : c / 16 * 16 + c % 16 = c := by omega
                        have hnot : ¬(55296 ≤ c) := by omega
                        have h48 : hexVal 48 = some 0 := rfl
                        simp [scanString, hex4, h48, hd1, hd2, hval, hnot]
                      rw [List.cons_append, List.cons_append,
                        List.cons_append, List.cons_append, List.cons_append,
                        List.cons_append, List.nil_append, hstep,
                        ih f (c :: acc) rest (pos + 6) bg hlen]
                      simp [List.reverse_cons, List.append_assoc]
                      omega
                    · rw [show escChar c = [c] from by
                        unfold escChar
                        simp only [beq_iff_eq]
                        rw [if_neg hc92, if_neg hc34, if_neg hc8, if_neg hc12,
                          if_neg hc10, if_neg hc13, if_neg hc9, if_neg hctl]]
                      have hstep : scanString (f + 1) bg
                          (c :: ((cs.map escChar).flatten ++ 34 :: rest)) pos
                            acc
                          = scanString f bg
                              ((cs.map escChar).flatten ++ 34 :: rest)
                              (pos + 1) (c :: acc) := by
                        show (if (c == 34 : Bool) = true then _ else _) = _
                        rw [if_neg (by simpa using hc34),
                          if_neg (by simpa using hc92), if_neg hctl]
                      rw [List.cons_append, List.nil_append, hstep,
                        ih f (c :: acc) rest (pos + 1) bg hlen]
                      simp [List.reverse_cons, List.append_assoc]
                      omega

/-! ## Round-trip infrastructure -/

theorem skipWs_all (w : PyStr) :
    ∀ r p, (∀ x ∈ w, jsonWs x = true) →
      skipWs (w ++ r) p = skipWs r (p + w.length) := by
  induction w with
  | nil => intro r p _; simp
  | cons c cs ih =>
    intro r p h
    have hc : jsonWs c = true := h c (List.mem_cons_self _ _)
    show skipWs (c :: (cs ++ r)) p = _
    conv_lhs => unfold skipWs
    rw [if_pos hc, ih r (p + 1) (fun x hx => h x (List.mem_cons_of_mem _ hx))]
    have harg : p + 1 + cs.length = p + (c :: cs).length := by
      simp only [List.length_cons]
      omega
    rw [harg]

theorem skipWs_nows (c : Nat) (t : PyStr) (p : Nat) (h : jsonWs c = false) :
    skipWs (c :: t) p = (c :: t, p) := by
  unfold skipWs
  rw [h]
  simp

theorem nlInd_ws (ind lvl : Nat) : ∀ x ∈ nlInd ind lvl, jsonWs x = true := by
  intro x hx
  unfold nlInd at hx
  rcases List.mem_cons.1 hx with h | h
  · subst h; rfl
  · have := List.eq_of_mem_replicate h
    subst this; rfl

mutual

/-- Fuel needed by `scanOnce` to parse the serialization of a value. -/
def szV : JsonValue → Nat
  | .jstr s => s.length + 2
  | .jarr l => szL l + 2
  | .jobj p => szP p + 2
  | _ => 1

def szL : JsonList → Nat
  | .nil => 0
  | .cons hd tl => szV hd + szL tl + 1

def szP : JsonPairs → Nat
  | .nil => 0
  | .cons k v tl => k.length + szV v + szP tl + 2

end

theorem szV_pos (v : JsonValue) : 1 ≤ szV v := by
  cases v with
  | jstr s => show 1 ≤ s.length + 2; omega
  | jarr l => show 1 ≤ szL l + 2; omega
  | jobj p => show 1 ≤ szP p + 2; omega
  | _ => exact le_rfl

theorem pyIntRepr_head (i : Int) :
    ∃ c t, pyIntRepr i = c :: t ∧ (c = 45 ∨ 48 ≤ c ∧ c ≤ 57) := by
  unfold pyIntRepr
  by_cases h : i < 0
  · rw [if_pos h]
    exact ⟨45, _, rfl, Or.inl rfl⟩
  · rw [if_neg h]
    by_cases hz : i.natAbs = 0
    · rw [hz]
      exact ⟨48, [], rfl, Or.inr (by omega)⟩
    · obtain ⟨d, ds, he, h1, h2⟩ := pyNatRepr_pos_head _ hz
      exact ⟨d, ds, he, Or.inr (by omega)⟩

theorem pyNatRepr_len_pos (n : Nat) : 1 ≤ (pyNatRepr n).length := by
  by_cases h : n = 0
  · subst h; rfl
  · obtain ⟨d, ds, he, _, _⟩ := pyNatRepr_pos_head _ h
    rw [he]
    simp

theorem floatRepr_head (q : ℚ) :
    ∃ c t, floatRepr q = c :: t ∧ (c = 45 ∨ 48 ≤ c ∧ c ≤ 57) := by
  unfold floatRepr
  by_cases h : q < 0
  · rw [if_pos h]
    exact ⟨45, _, rfl, Or.inl rfl⟩
  · rw [if_neg h]
    set k := leastPow10 q.den with hk
    set ds := pyNatRepr (q * (10 : ℚ) ^ k).num.natAbs with hds
    set padded := List.replicate (k + 1 - ds.length) 48 ++ ds with hpadded
    have hds_len : 1 ≤ ds.length := pyNatRepr_len_pos _
    have hpadlen : padded.length = k + 1 - ds.length + ds.length := by
      rw [hpadded]; simp
    have htk : 1 ≤ padded.length - k := by omega
    have hne : padded ≠ [] := by
      intro h0
      rw [h0] at hpadlen
      simp at hpadlen
      omega
    obtain ⟨c, t, hct⟩ := List.exists_cons_of_ne_nil hne
    have hcd : 48 ≤ c ∧ c ≤ 57 := by
      by_cases hrep : 1 ≤ k + 1 - ds.length
      · have : padded = 48 :: (List.replicate (k - ds.length) 48 ++ ds) := by
          rw [hpadded, show k + 1 - ds.length = (k - ds.length) + 1 from by omega,
            List.replicate_succ]
          rfl
        rw [this] at hct
        injection hct with h1 h2
        omega
      · have hpad_ds : padded = ds := by
          rw [hpadded, show k + 1 - ds.length = 0 from by omega]
          rfl
        have : c ∈ ds := by
          rw [← hpad_ds, hct]
          exact List.mem_cons_self _ _
        exact pyNatRepr_digits _ c this
    refine ⟨c, t.take (padded.length - k - 1) ++
      46 :: (if k = 0 then [48] else padded.drop (padded.length - k)), ?_,
      Or.inr hcd⟩
    have htake : padded.take (padded.length - k)
        = c :: t.take (padded.length - k - 1) := by
      rw [show padded.length - k = (padded.length - k - 1) + 1 from by omega,
        hct, List.take_succ_cons]
      congr 2
    rw [htake]
    rfl

/-- The first code point of a serialized value: never whitespace, a
closer, a separator, or a BOM. -/
theorem encV_head (ind lvl : Nat) (v : JsonValue) :
    ∃ c t, encV ind lvl v = c :: t ∧
      (c = 34 ∨ c = 45 ∨ (48 ≤ c ∧ c ≤ 57) ∨ c = 91 ∨ c = 102 ∨ c = 110 ∨
        c = 116 ∨ c = 123 ∨ c = 78 ∨ c = 73) := by
  cases v with
  | jnull => exact ⟨110, _, rfl, by omega⟩
  | jtrue => exact ⟨116, _, rfl, by omega⟩
  | jfalse => exact ⟨102, _, rfl, by omega⟩
  | jint n =>
    obtain ⟨c, t, he, hc⟩ := pyIntRepr_head n
    exact ⟨c, t, he, by omega⟩
  | jfloat q =>
    obtain ⟨c, t, he, hc⟩ := floatRepr_head q
    exact ⟨c, t, he, by omega⟩
  | jnan => exact ⟨78, _, rfl, by omega⟩
  | jinf => exact ⟨73, _, rfl, by omega⟩
  | jneginf => exact ⟨45, _, rfl, by omega⟩
  | jstr s => exact ⟨34, _, rfl, by omega⟩
  | jarr xs =>
    cases xs with
    | nil => exact ⟨91, _, rfl, by omega⟩
    | cons hd tl => exact ⟨91, _, rfl, by omega⟩
  | jobj kvs =>
    cases kvs with
    | nil => exact ⟨123, _, rfl, by omega⟩
    | cons k v tl => exact ⟨123, _, rfl, by omega⟩

theorem encV_head_not_ws (c : Nat)
    (h : c = 34 ∨ c = 45 ∨ (48 ≤ c ∧ c ≤ 57) ∨ c = 91 ∨ c = 102 ∨ c = 110 ∨
      c = 116 ∨ c = 123 ∨ c = 78 ∨ c = 73) : jsonWs c = false := by
  unfold jsonWs
  have h32 : (c == 32) = false := by
    rw [beq_eq_false_iff_ne]
    omega
  have h9 : (c == 9) = false := by
    rw [beq_eq_false_iff_ne]
    omega
  have h10 : (c == 10) = false := by
    rw [beq_eq_false_iff_ne]
    omega
  have h13 : (c == 13) = false := by
    rw [beq_eq_false_iff_ne]
    omega
  rw [h32, h9, h10, h13]
  rfl

theorem jlConcat_append :
    ∀ (acc : JsonList) (v : JsonValue) (l : JsonList),
      jlConcat (jlAppend acc v) l = jlConcat acc (.cons v l)
  | .nil, v, l => rfl
  | .cons hd tl, v, l => by
    show JsonList.cons hd (jlConcat (jlAppend tl v) l) = _
    rw [jlConcat_append tl v l]
    rfl

theorem jpConcat_append :
    ∀ (acc : JsonPairs) (k : PyStr) (v : JsonValue) (l : JsonPairs),
      jpConcat (jpAppend acc k v) l = jpConcat acc (.cons k v l)
  | .nil, k, v, l => rfl
  | .cons k' v' tl, k, v, l => by
    show JsonPairs.cons k' v' (jpConcat (jpAppend tl k v) l) = _
    rw [jpConcat_append tl k v l]
    rfl

theorem jpConcat_assoc :
    ∀ (a b c : JsonPairs), jpConcat (jpConcat a b) c = jpConcat a (jpConcat b c)
  | .nil, _, _ => rfl
  | .cons k v tl, b, c => by
    show JsonPairs.cons k v (jpConcat (jpConcat tl b) c) = _
    rw [jpConcat_assoc tl b c]
    rfl

theorem hasKey_concat :
    ∀ (a b : JsonPairs) (k : PyStr),
      (jpConcat a b).hasKey k = (a.hasKey k || b.hasKey k)
  | .nil, b, k => by
    show b.hasKey k = _
    simp [JsonPairs.hasKey, JsonPairs.lookup]
  | .cons k' v' tl, b, k => by
    show ((JsonPairs.cons k' v' (jpConcat tl b)).lookup k).isSome = _
    by_cases h : k' = k
    · simp [JsonPairs.lookup, JsonPairs.hasKey, if_pos h]
    · simp only [JsonPairs.lookup, if_neg h]
      rw [show ∀ x : JsonPairs, (x.lookup k).isSome = x.hasKey k from
        fun x => rfl, hasKey_concat tl b k]
      simp [JsonPairs.hasKey, JsonPairs.lookup, if_neg h]

theorem keys_concat :
    ∀ (a b : JsonPairs), (jpConcat a b).keys = a.keys ++ b.keys
  | .nil, b => rfl
  | .cons k v tl, b => by
    show k :: (jpConcat tl b).keys = _
    rw [keys_concat tl b]
    rfl

theorem setKey_fresh :
    ∀ (p : JsonPairs) (k : PyStr) (v : JsonValue), p.hasKey k = false →
      p.setKey k v = jpConcat p (.cons k v .nil)
  | .nil, k, v, _ => rfl
  | .cons k' v' tl, k, v, h => by
    have hne : ¬k' = k := by
      intro he
      simp [JsonPairs.hasKey, JsonPairs.lookup, if_pos he] at h
    have htl : tl.hasKey k = false := by
      simp only [JsonPairs.hasKey, JsonPairs.lookup, if_neg hne] at h
      exact h
    show (if k' = k then _ else JsonPairs.cons k' v' (tl.setKey k v)) = _
    rw [if_neg hne, setKey_fresh tl k v htl]
    rfl

theorem hasKey_false_of_not_mem :
    ∀ (p : JsonPairs) (k : PyStr), k ∉ p.keys → p.hasKey k = false
  | .nil, k, _ => rfl
  | .cons k' v' tl, k, h => by
    have h1 : ¬k' = k := by
      intro he
      exact h (by rw [he]; exact List.mem_cons_self _ _)
    have h2 : k ∉ tl.keys := fun hx => h (List.mem_cons_of_mem _ hx)
    simp only [JsonPairs.hasKey, JsonPairs.lookup, if_neg h1]
    exact hasKey_false_of_not_mem tl k h2

theorem jpConcat_nil :
    ∀ p : JsonPairs, jpConcat p .nil = p
  | .nil => rfl
  | .cons k v tl => by
    show JsonPairs.cons k v (jpConcat tl .nil) = _
    rw [jpConcat_nil tl]

theorem dictAdd_concat :
    ∀ (p : JsonPairs) (acc : JsonPairs),
      (∀ k2, k2 ∈ p.keys → acc.hasKey k2 = false) → p.keys.Nodup →
      dictAdd acc p = jpConcat acc p
  | .nil, acc, _, _ => by
    show acc = jpConcat acc .nil
    rw [jpConcat_nil]
  | .cons k v tl, acc, h, hnd => by
    show dictAdd (acc.setKey k v) tl = _
    have hk : acc.hasKey k = false :=
      h k (by show k ∈ k :: tl.keys; exact List.mem_cons_self _ _)
    rw [setKey_fresh acc k v hk]
    have hnd2 : tl.keys.Nodup := by
      have : (JsonPairs.cons k v tl).keys = k :: tl.keys := rfl
      rw [this] at hnd
      exact (List.nodup_cons.1 hnd).2
    have hknotin : k ∉ tl.keys := by
      have : (JsonPairs.cons k v tl).keys = k :: tl.keys := rfl
      rw [this] at hnd
      exact (List.nodup_cons.1 hnd).1
    rw [dictAdd_concat tl (jpConcat acc (.cons k v .nil)) ?_ hnd2]
    · rw [jpConcat_assoc]
      rfl
    · intro k2 hk2
      rw [hasKey_concat]
      have ha : acc.hasKey k2 = false :=
        h k2 (by show k2 ∈ k :: tl.keys; exact List.mem_cons_of_mem _ hk2)
      have hb : (JsonPairs.cons k v .nil).hasKey k2 = false := by
        apply hasKey_false_of_not_mem
        show k2 ∉ [k]
        simp only [List.mem_singleton]
        intro he
        exact hknotin (he ▸ hk2)
      rw [ha, hb]
      rfl

/-- `dict(pairs)` with pairwise-distinct keys is the identity. -/
theorem dictOfPairs_self (p : JsonPairs) (h : p.keys.Nodup) :
    dictOfPairs p = p := by
  unfold dictOfPairs
  rw [dictAdd_concat p .nil (fun k2 _ => rfl) h]
  rfl

theorem jlConcat_nil :
    ∀ l : JsonList, jlConcat l .nil = l
  | .nil => rfl
  | .cons hd tl => by
    show JsonList.cons hd (jlConcat tl .nil) = _
    rw [jlConcat_nil tl]

/-- `_scan_once` falls through to the number branch. -/
theorem scanOnce_num (fuel : Nat) (c : Nat) (rs : PyStr) (pos : Nat)
    (hc : c = 45 ∨ 48 ≤ c ∧ c ≤ 57) (v : JsonValue) (r : PyStr) (p : Nat)
    (hnum : scanNumber (c :: rs) pos = some (v, r, p)) :
    scanOnce (fuel + 1) (c :: rs) pos = .ok v r p := by
  have hne34 : ¬((c == 34) = true) := by simp; omega
  have hne123 : ¬((c == 123) = true) := by simp; omega
  have hne91 : ¬((c == 91) = true) := by simp; omega
  have hnull : ¬((c :: rs).take 4 = toPy "null") := by
    intro hEq
    have ht : (c :: rs).take 4 = c :: rs.take 3 := rfl
    have hn : toPy "null" = 110 :: [117, 108, 108] := rfl
    rw [ht, hn] at hEq
    injection hEq with h1 _
    omega
  have htrue : ¬((c :: rs).take 4 = toPy "true") := by
    intro hEq
    have ht : (c :: rs).take 4 = c :: rs.take 3 := rfl
    have hn : toPy "true" = 116 :: [114, 117, 101] := rfl
    rw [ht, hn] at hEq
    injection hEq with h1 _
    omega
  have hfalse : ¬((c :: rs).take 5 = toPy "false") := by
    intro hEq
    have ht : (c :: rs).take 5 = c :: rs.take 4 := rfl
    have hn : toPy "false" = 102 :: [97, 108, 115, 101] := rfl
    rw [ht, hn] at hEq
    injection hEq with h1 _
    omega
  unfold scanOnce
  rw [if_neg hne34, if_neg hne123, if_neg hne91, if_neg hnull, if_neg htrue,
    if_neg hfalse, hnum]

/-- `_scan_once` on a serialized string. -/
theorem scanOnce_str (f : Nat) (s : PyStr) (rest : PyStr) (pos : Nat)
    (hfuel : s.length + 1 ≤ f) :
    scanOnce (f + 1) (encodeString s ++ rest) pos
      = .ok (.jstr s) rest (pos + (encodeString s).length) := by
  have hform : encodeString s ++ rest
      = 34 :: ((s.map escChar).flatten ++ 34 :: rest) := by
    unfold encodeString
    simp
  rw [hform]
  unfold scanOnce
  rw [if_pos (by rfl : (((34 : Nat)) == 34) = true)]
  rw [scanString_encode s f [] rest (pos + 1) pos hfuel]
  have hlen : (encodeString s).length = (s.map escChar).flatten.length + 2 := by
    unfold encodeString
    simp
  rw [hlen]
  dsimp only
  rw [List.reverse_nil, List.nil_append]
  congr 1
  omega

/-- `_scan_once` on a serialized integer. -/
theorem scanOnce_int (f : Nat) (i : Int) (rest : PyStr) (pos : Nat)
    (hsafe : numSafe rest = true) :
    scanOnce (f + 1) (pyIntRepr i ++ rest) pos
      = .ok (.jint i) rest (pos + (pyIntRepr i).length) := by
  obtain ⟨c, t, he, hc⟩ := pyIntRepr_head i
  have h2 := scanNumber_intRepr i rest pos hsafe
  rw [he] at h2 ⊢
  rw [List.cons_append] at h2 ⊢
  exact scanOnce_num f c (t ++ rest) pos hc _ _ _ h2

/-- `_scan_once` on a serialized float. -/
theorem scanOnce_float (f : Nat) (q : ℚ) (rest : PyStr) (pos : Nat)
    (hdec : isDec q = true) (hsafe : numSafe rest = true) :
    scanOnce (f + 1) (floatRepr q ++ rest) pos
      = .ok (.jfloat q) rest (pos + (floatRepr q).length) := by
  obtain ⟨c, t, he, hc⟩ := floatRepr_head q
  have h2 := scanNumber_floatRepr q rest pos hdec hsafe
  rw [he] at h2 ⊢
  rw [List.cons_append] at h2 ⊢
  exact scanOnce_num f c (t ++ rest) pos hc _ _ _ h2

theorem scanOnce_arr (f : Nat) (rs : PyStr) (pos : Nat) :
    scanOnce (f + 1) (91 :: rs) pos = parseArray f rs (pos + 1) := by
  unfold scanOnce
  rw [if_neg (by decide : ¬(((91 : Nat)) == 34) = true),
    if_neg (by decide : ¬(((91 : Nat)) == 123) = true),
    if_pos (by decide : (((91 : Nat)) == 91) = true)]

theorem scanOnce_objEntry (f : Nat) (rs : PyStr) (pos : Nat) :
    scanOnce (f + 1) (123 :: rs) pos = parseObject f rs (pos + 1) := by
  unfold scanOnce
  rw [if_neg (by decide : ¬(((123 : Nat)) == 34) = true),
    if_pos (by decide : (((123 : Nat)) == 123) = true)]

theorem parseArray_cons (g : Nat) (w : PyStr) (c : Nat) (t : PyStr) (pos : Nat)
    (hw : ∀ x ∈ w, jsonWs x = true) (hc : jsonWs c = false) (hne93 : c ≠ 93) :
    parseArray (g + 1) (w ++ c :: t) pos
      = arrayLoop g (c :: t) (pos + w.length) .nil := by
  unfold parseArray
  rw [skipWs_all w (c :: t) pos hw, skipWs_nows c t _ hc]
  dsimp only
  split
  · next r₂ heq =>
    injection heq with h1 _
    exact absurd h1 hne93
  · rfl

theorem parseObject_key (g : Nat) (w : PyStr) (t : PyStr) (pos : Nat)
    (hw : ∀ x ∈ w, jsonWs x = true) :
    parseObject (g + 1) (10 :: (w ++ 34 :: t)) pos
      = objLoop g t (pos + w.length + 2) .nil := by
  unfold parseObject
  split
  · next r₁ heq =>
    injection heq with h1 _
    omega
  · next hne =>
    have hwall : ∀ x ∈ (10 : Nat) :: w, jsonWs x = true := by
      intro x hx
      rcases List.mem_cons.1 hx with h | h
      · subst h; rfl
      · exact hw x h
    have hskip : skipWs (10 :: (w ++ 34 :: t)) pos
        = (34 :: t, pos + w.length + 1) := by
      have h1 : (10 : Nat) :: (w ++ 34 :: t) = (10 :: w) ++ 34 :: t := rfl
      rw [h1, skipWs_all (10 :: w) (34 :: t) pos hwall,
        skipWs_nows 34 t _ (by rfl)]
      congr 1
    rw [hskip]

/-- The round-trip core: `_scan_once` (and the array/object loops)
re-parse serializer output exactly, for well-formed values. -/
theorem rt_main : ∀ fuel : Nat,
    (∀ v ind lvl rest pos, wfV v = true → szV v ≤ fuel → numSafe rest = true →
      scanOnce fuel (encV ind lvl v ++ rest) pos
        = .ok v rest (pos + (encV ind lvl v).length)) ∧
    (∀ hd tl ind lvl rest pos acc,
      wfV hd = true → wfL tl = true → szL (.cons hd tl) ≤ fuel →
      numSafe rest = true →
      arrayLoop fuel
        (encV ind (lvl + 1) hd ++
          (encLRest ind (lvl + 1) tl ++ (nlInd ind lvl ++ 93 :: rest)))
        pos acc
        = .ok (.jarr (jlConcat acc (.cons hd tl))) rest
            (pos + (encV ind (lvl + 1) hd).length
              + (encLRest ind (lvl + 1) tl).length + (nlInd ind lvl).length
              + 1)) ∧
    (∀ k v tl ind lvl rest pos pacc,
      wfV v = true → wfP tl = true → szP (.cons k v tl) ≤ fuel →
      numSafe rest = true →
      objLoop fuel
        ((k.map escChar).flatten ++ 34 :: 58 :: 32 ::
          (encV ind (lvl + 1) v ++
            (encPRest ind (lvl + 1) tl ++ (nlInd ind lvl ++ 125 :: rest))))
        pos pacc
        = .ok (.jobj (dictOfPairs (jpConcat pacc (.cons k v tl)))) rest
            (pos + (k.map escChar).flatten.length + 3
              + (encV ind (lvl + 1) v).length
              + (encPRest ind (lvl + 1) tl).length + (nlInd ind lvl).length
              + 1)) := by
  intro fuel
  induction fuel using Nat.strong_induction_on with
  | _ fuel IH =>
  refine ⟨?_, ?_, ?_⟩
  · -- scanOnce on a serialized value
    intro v ind lvl rest pos hwf hsz hsafe
    cases fuel with
    | zero => have := szV_pos v; omega
    | succ f =>
    cases v with
    | jnull => rfl
    | jtrue => rfl
    | jfalse => rfl
    | jnan => rfl
    | jinf => rfl
    | jneginf => rfl
    | jint i => exact scanOnce_int f i rest pos hsafe
    | jfloat q => exact scanOnce_float f q rest pos hwf hsafe
    | jstr s =>
      have hfuel : s.length + 1 ≤ f := by
        have h1 : szV (.jstr s) = s.length + 2 := rfl
        omega
      exact scanOnce_str f s rest pos hfuel
    | jarr xs =>
      cases xs with
      | nil =>
        have h1 : szV (.jarr .nil) = 2 := rfl
        cases f with
        | zero => omega
        | succ g => rfl
      | cons hd tl =>
        have hand : wfV hd = true ∧ wfL tl = true := by
          simpa using (show (wfV hd && wfL tl) = true from hwf)
        have hsz1 : szL (.cons hd tl) + 2 ≤ f + 1 := hsz
        have hsz2 : szV hd + szL tl + 1 + 2 ≤ f + 1 := hsz1
        have hvp := szV_pos hd
        cases f with
        | zero => omega
        | succ g =>
        obtain ⟨c, t0, henc2, hprop⟩ := encV_head ind (lvl + 1) hd
        have henc : encV ind lvl (.jarr (.cons hd tl)) ++ rest
            = 91 :: (nlInd ind (lvl + 1) ++
                (c :: (t0 ++ (encLRest ind (lvl + 1) tl ++
                  (nlInd ind lvl ++ 93 :: rest))))) := by
          show (91 :: nlInd ind (lvl + 1) ++ encV ind (lvl + 1) hd ++
              encLRest ind (lvl + 1) tl ++ nlInd ind lvl ++ [93]) ++ rest = _
          rw [henc2]
          simp
        rw [henc, scanOnce_arr (g + 1),
          parseArray_cons g (nlInd ind (lvl + 1)) c _ (pos + 1)
            (nlInd_ws ind (lvl + 1)) (encV_head_not_ws c hprop) (by omega)]
        have hback : (c : Nat) :: (t0 ++ (encLRest ind (lvl + 1) tl ++
            (nlInd ind lvl ++ 93 :: rest)))
            = encV ind (lvl + 1) hd ++ (encLRest ind (lvl + 1) tl ++
              (nlInd ind lvl ++ 93 :: rest)) := by
          rw [henc2]
          simp
        obtain ⟨ihS, ihA, ihO⟩ := IH g (by omega)
        rw [hback,
          ihA hd tl ind lvl rest
            (pos + 1 + (nlInd ind (lvl + 1)).length) .nil hand.1 hand.2
            (by omega) hsafe]
        have hval : jlConcat .nil (.cons hd tl) = JsonList.cons hd tl := rfl
        rw [hval]
        have hlen : (encV ind lvl (.jarr (.cons hd tl))).length
            = 1 + (nlInd ind (lvl + 1)).length + (encV ind (lvl + 1) hd).length
              + (encLRest ind (lvl + 1) tl).length + (nlInd ind lvl).length
              + 1 := by
          show (91 :: nlInd ind (lvl + 1) ++ encV ind (lvl + 1) hd ++
              encLRest ind (lvl + 1) tl ++ nlInd ind lvl ++ [93]).length = _
          simp
          omega
        rw [hlen]
        congr 1
        omega
    | jobj kvs =>
      cases kvs with
      | nil =>
        have h1 : szV (.jobj .nil) = 2 := rfl
        cases f with
        | zero => omega
        | succ g => rfl
      | cons k v tl =>
        have hand : decide (JsonPairs.cons k v tl).keys.Nodup = true ∧
            wfP (.cons k v tl) = true := by
          simpa using (show (decide (JsonPairs.cons k v tl).keys.Nodup &&
            wfP (.cons k v tl)) = true from hwf)
        have hnd : (JsonPairs.cons k v tl).keys.Nodup :=
          of_decide_eq_true hand.1
        have hand2 : wfV v = true ∧ wfP tl = true := by
          simpa using (show (wfV v && wfP tl) = true from hand.2)
        have hsz1 : szP (.cons k v tl) + 2 ≤ f + 1 := hsz
        have hsz2 : k.length + szV v + szP tl + 2 + 2 ≤ f + 1 := hsz1
        have hvp := szV_pos v
        cases f with
        | zero => omega
        | succ g =>
        have henc : encV ind lvl (.jobj (.cons k v tl)) ++ rest
            = 123 :: (10 :: (List.replicate (ind * (lvl + 1)) 32 ++
                34 :: ((k.map escChar).flatten ++ 34 :: 58 :: 32 ::
                  (encV ind (lvl + 1) v ++ (encPRest ind (lvl + 1) tl ++
                    (nlInd ind lvl ++ 125 :: rest)))))) := by
          show (123 :: nlInd ind (lvl + 1) ++ encodeString k ++ 58 :: 32 ::
              encV ind (lvl + 1) v ++ encPRest ind (lvl + 1) tl ++
              nlInd ind lvl ++ [125]) ++ rest = _
          unfold nlInd encodeString
          simp
        obtain ⟨ihS, ihA, ihO⟩ := IH g (by omega)
        rw [henc, scanOnce_objEntry (g + 1),
          parseObject_key g (List.replicate (ind * (lvl + 1)) 32) _ (pos + 1)
            (fun x hx => by
              have := List.eq_of_mem_replicate hx
              subst this
              rfl),
          ihO k v tl ind lvl rest
            (pos + 1 + (List.replicate (ind * (lvl + 1)) 32).length + 2) .nil
            hand2.1 hand2.2 (by omega) hsafe]
        have hval : dictOfPairs (jpConcat .nil (.cons k v tl))
            = JsonPairs.cons k v tl := by
          show dictOfPairs (.cons k v tl) = _
          exact dictOfPairs_self _ hnd
        rw [hval]
        have hlen : (encV ind lvl (.jobj (.cons k v tl))).length
            = 1 + (nlInd ind (lvl + 1)).length + ((k.map escChar).flatten.length
              + 2) + 2 + (encV ind (lvl + 1) v).length
              + (encPRest ind (lvl + 1) tl).length + (nlInd ind lvl).length
              + 1 := by
          show (123 :: nlInd ind (lvl + 1) ++ encodeString k ++ 58 :: 32 ::
              encV ind (lvl + 1) v ++ encPRest ind (lvl + 1) tl ++
              nlInd ind lvl ++ [125]).length = _
          unfold encodeString
          simp
          ring
        rw [hlen]
        have hnllen : (nlInd ind (lvl + 1)).length
            = 1 + (List.replicate (ind * (lvl + 1)) 32).length := by
          unfold nlInd
          simp
          ring
        rw [hnllen]
        congr 1
        ring
  · -- arrayLoop on serialized elements
    intro hd tl ind lvl rest pos acc hwfhd hwftl hsz hsafe
    cases fuel with
    | zero =>
      have h1 : szL (.cons hd tl) = szV hd + szL tl + 1 := rfl
      omega
    | succ f =>
    have hsz1 : szV hd + szL tl + 1 ≤ f + 1 := hsz
    have hsafe2 : numSafe (encLRest ind (lvl + 1) tl ++
        (nlInd ind lvl ++ 93 :: rest)) = true := by
      cases tl <;> rfl
    obtain ⟨ihS, ihA, ihO⟩ := IH f (by omega)
    unfold arrayLoop
    rw [ihS hd ind (lvl + 1)
      (encLRest ind (lvl + 1) tl ++ (nlInd ind lvl ++ 93 :: rest)) pos
      hwfhd (by omega) hsafe2]
    dsimp only
    cases tl with
    | nil =>
      have h0 : encLRest ind (lvl + 1) JsonList.nil ++
          (nlInd ind lvl ++ 93 :: rest) = nlInd ind lvl ++ 93 :: rest := rfl
      rw [h0, skipWs_all (nlInd ind lvl) (93 :: rest) _ (nlInd_ws ind lvl),
        skipWs_nows 93 rest _ (by rfl)]
      dsimp only
      have hval : jlAppend acc hd = jlConcat acc (.cons hd .nil) := by
        rw [← jlConcat_append acc hd .nil, jlConcat_nil]
      rw [hval]
      have hlen0 : (encLRest ind (lvl + 1) JsonList.nil).length = 0 := rfl
      rw [hlen0]
      congr 1
    | cons hd2 tl2 =>
      have hand : wfV hd2 = true ∧ wfL tl2 = true := by
        simpa using (show (wfV hd2 && wfL tl2) = true from hwftl)
      obtain ⟨c, t0, henc2, hprop⟩ := encV_head ind (lvl + 1) hd2
      have h0 : encLRest ind (lvl + 1) (.cons hd2 tl2) ++
          (nlInd ind lvl ++ 93 :: rest)
          = 44 :: (nlInd ind (lvl + 1) ++
              (c :: (t0 ++ (encLRest ind (lvl + 1) tl2 ++
                (nlInd ind lvl ++ 93 :: rest))))) := by
        show (44 :: nlInd ind (lvl + 1) ++ encV ind (lvl + 1) hd2 ++
            encLRest ind (lvl + 1) tl2) ++ (nlInd ind lvl ++ 93 :: rest) = _
        rw [henc2]
        simp
      rw [h0, skipWs_nows 44 _ _ (by rfl)]
      dsimp only
      rw [skipWs_all (nlInd ind (lvl + 1)) _ _ (nlInd_ws ind (lvl + 1)),
        skipWs_nows c _ _ (encV_head_not_ws c hprop)]
      have hback : (c : Nat) :: (t0 ++ (encLRest ind (lvl + 1) tl2 ++
          (nlInd ind lvl ++ 93 :: rest)))
          = encV ind (lvl + 1) hd2 ++ (encLRest ind (lvl + 1) tl2 ++
            (nlInd ind lvl ++ 93 :: rest)) := by
        rw [henc2]
        simp
      rw [hback,
        ihA hd2 tl2 ind lvl rest
          (pos + (encV ind (lvl + 1) hd).length + 1 +
            (nlInd ind (lvl + 1)).length) (jlAppend acc hd) hand.1 hand.2
          (by
            have h2 : szL (.cons hd2 tl2) = szV hd2 + szL tl2 + 1 := rfl
            have h3 : szL (.cons hd (.cons hd2 tl2))
                = szV hd + szL (.cons hd2 tl2) + 1 := rfl
            have := szV_pos hd
            omega) hsafe]
      rw [jlConcat_append acc hd (.cons hd2 tl2)]
      have hlen : (encLRest ind (lvl + 1) (.cons hd2 tl2)).length
          = 1 + (nlInd ind (lvl + 1)).length + (encV ind (lvl + 1) hd2).length
            + (encLRest ind (lvl + 1) tl2).length := by
        show (44 :: nlInd ind (lvl + 1) ++ encV ind (lvl + 1) hd2 ++
            encLRest ind (lvl + 1) tl2).length = _
        simp
        omega
      rw [hlen]
      congr 1
      omega
  · -- objLoop on serialized members
    intro k v tl ind lvl rest pos pacc hwfv hwfp hsz hsafe
    cases fuel with
    | zero =>
      have h1 : szP (.cons k v tl) = k.length + szV v + szP tl + 2 := rfl
      omega
    | succ f =>
    have hsz1 : k.length + szV v + szP tl + 2 ≤ f + 1 := hsz
    have hvp := szV_pos v
    obtain ⟨ihS, ihA, ihO⟩ := IH f (by omega)
    unfold objLoop
    rw [scanString_encode k f []
      (58 :: 32 :: (encV ind (lvl + 1) v ++ (encPRest ind (lvl + 1) tl ++
        (nlInd ind lvl ++ 125 :: rest)))) pos (pos - 1) (by omega)]
    dsimp only
    rw [List.reverse_nil, List.nil_append]
    have h32 : (32 : Nat) :: (encV ind (lvl + 1) v ++
        (encPRest ind (lvl + 1) tl ++ (nlInd ind lvl ++ 125 :: rest)))
        = [32] ++ (encV ind (lvl + 1) v ++
          (encPRest ind (lvl + 1) tl ++ (nlInd ind lvl ++ 125 :: rest))) := rfl
    obtain ⟨c, t0, henc2, hprop⟩ := encV_head ind (lvl + 1) v
    have hsafe2 : numSafe (encPRest ind (lvl + 1) tl ++
        (nlInd ind lvl ++ 125 :: rest)) = true := by
      cases tl <;> rfl
    rw [h32, skipWs_all [32] _ _ (by intro x hx; simp at hx; subst hx; rfl),
      henc2, List.cons_append,
      skipWs_nows c _ _ (encV_head_not_ws c hprop), ← List.cons_append,
      ← henc2,
      ihS v ind (lvl + 1)
        (encPRest ind (lvl + 1) tl ++ (nlInd ind lvl ++ 125 :: rest))
        (pos + (k.map escChar).flatten.length + 1 + 1 + [32].length)
        hwfv (by omega) hsafe2]
    dsimp only
    cases tl with
    | nil =>
      have h0 : encPRest ind (lvl + 1) JsonPairs.nil ++
          (nlInd ind lvl ++ 125 :: rest) = nlInd ind lvl ++ 125 :: rest := rfl
      rw [h0, skipWs_all (nlInd ind lvl) (125 :: rest) _ (nlInd_ws ind lvl),
        skipWs_nows 125 rest _ (by rfl)]
      dsimp only
      have hval : jpAppend pacc k v = jpConcat pacc (.cons k v .nil) := by
        rw [← jpConcat_append pacc k v .nil, jpConcat_nil]
      rw [hval]
      have hlen0 : (encPRest ind (lvl + 1) JsonPairs.nil).length = 0 := rfl
      rw [hlen0]
      congr 1
    | cons k2 v2 tl2 =>
      have hand : wfV v2 = true ∧ wfP tl2 = true := by
        simpa using (show (wfV v2 && wfP tl2) = true from hwfp)
      have h0 : encPRest ind (lvl + 1) (.cons k2 v2 tl2) ++
          (nlInd ind lvl ++ 125 :: rest)
          = 44 :: (nlInd ind (lvl + 1) ++
              (34 :: ((k2.map escChar).flatten ++ 34 :: 58 :: 32 ::
                (encV ind (lvl + 1) v2 ++ (encPRest ind (lvl + 1) tl2 ++
                  (nlInd ind lvl ++ 125 :: rest)))))) := by
        show (44 :: nlInd ind (lvl + 1) ++ encodeString k2 ++ 58 :: 32 ::
            encV ind (lvl + 1) v2 ++ encPRest ind (lvl + 1) tl2) ++
            (nlInd ind lvl ++ 125 :: rest) = _
        unfold encodeString
        simp
      rw [h0, skipWs_nows 44 _ _ (by rfl)]
      dsimp only
      rw [skipWs_all (nlInd ind (lvl + 1)) _ _ (nlInd_ws ind (lvl + 1)),
        skipWs_nows 34 _ _ (by rfl)]
      dsimp only
      rw [ihO k2 v2 tl2 ind lvl rest
        (pos + (k.map escChar).flatten.length + 1 + 1 + [32].length +
          (encV ind (lvl + 1) v).length + 1 + (nlInd ind (lvl + 1)).length + 1)
        (jpAppend pacc k v) hand.1 hand.2
        (by
          have h2 : szP (.cons k2 v2 tl2)
              = k2.length + szV v2 + szP tl2 + 2 := rfl
          omega) hsafe]
      rw [jpConcat_append pacc k v (.cons k2 v2 tl2)]
      have hlen : (encPRest ind (lvl + 1) (.cons k2 v2 tl2)).length
          = 1 + (nlInd ind (lvl + 1)).length
            + ((k2.map escChar).flatten.length + 2) + 2
            + (encV ind (lvl + 1) v2).length
            + (encPRest ind (lvl + 1) tl2).length := by
        show (44 :: nlInd ind (lvl + 1) ++ encodeString k2 ++ 58 :: 32 ::
            encV ind (lvl + 1) v2 ++ encPRest ind (lvl + 1) tl2).length = _
        unfold encodeString
        simp
        omega
      rw [hlen]
      congr 1
      simp
      omega

theorem escChar_ne_nil (c : Nat) : escChar c ≠ [] := by
  unfold escChar
  split_ifs <;> simp

theorem flatten_esc_ge (s : PyStr) :
    s.length ≤ ((s.map escChar).flatten).length := by
  induction s with
  | nil => simp
  | cons c cs ih =>
    have h1 : 1 ≤ (escChar c).length := by
      have := escChar_ne_nil c
      cases h : escChar c with
      | nil => exact absurd h this
      | cons a t => simp
    simp only [List.map_cons, List.flatten_cons, List.length_append,
      List.length_cons]
    omega

theorem nlInd_len_pos (ind lvl : Nat) : 1 ≤ (nlInd ind lvl).length := by
  unfold nlInd
  simp

mutual

theorem szV_le_enc : ∀ (ind lvl : Nat) (v : JsonValue),
    szV v ≤ (encV ind lvl v).length + 1
  | ind, lvl, .jnull => by
    show 1 ≤ (encV ind lvl .jnull).length + 1
    omega
  | ind, lvl, .jtrue => by
    show 1 ≤ (encV ind lvl .jtrue).length + 1
    omega
  | ind, lvl, .jfalse => by
    show 1 ≤ (encV ind lvl .jfalse).length + 1
    omega
  | ind, lvl, .jint n => by
    show 1 ≤ (encV ind lvl (.jint n)).length + 1
    omega
  | ind, lvl, .jfloat q => by
    show 1 ≤ (encV ind lvl (.jfloat q)).length + 1
    omega
  | ind, lvl, .jnan => by
    show 1 ≤ (encV ind lvl .jnan).length + 1
    omega
  | ind, lvl, .jinf => by
    show 1 ≤ (encV ind lvl .jinf).length + 1
    omega
  | ind, lvl, .jneginf => by
    show 1 ≤ (encV ind lvl .jneginf).length + 1
    omega
  | ind, lvl, .jstr s => by
    have h1 := flatten_esc_ge s
    have h2 : (encV ind lvl (.jstr s)).length
        = ((s.map escChar).flatten).length + 2 := by
      show (encodeString s).length = _
      unfold encodeString
      simp
    have h3 : szV (.jstr s) = s.length + 2 := rfl
    omega
  | _, _, .jarr .nil => by
    show (2 : Nat) ≤ 2 + 1
    omega
  | ind, lvl, .jarr (.cons hd tl) => by
    have h1 := szV_le_enc ind (lvl + 1) hd
    have h2 := szL_le_enc ind (lvl + 1) tl
    have h3 : szV (.jarr (.cons hd tl)) = szV hd + szL tl + 1 + 2 := rfl
    have h4 : (encV ind lvl (.jarr (.cons hd tl))).length
        = 1 + (nlInd ind (lvl + 1)).length + (encV ind (lvl + 1) hd).length
          + (encLRest ind (lvl + 1) tl).length + (nlInd ind lvl).length
          + 1 := by
      show (91 :: nlInd ind (lvl + 1) ++ encV ind (lvl + 1) hd ++
          encLRest ind (lvl + 1) tl ++ nlInd ind lvl ++ [93]).length = _
      simp
      omega
    have h5 := nlInd_len_pos ind (lvl + 1)
    have h6 := nlInd_len_pos ind lvl
    omega
  | _, _, .jobj .nil => by
    show (2 : Nat) ≤ 2 + 1
    omega
  | ind, lvl, .jobj (.cons k v tl) => by
    have h1 := szV_le_enc ind (lvl + 1) v
    have h2 := szP_le_enc ind (lvl + 1) tl
    have h3 : szV (.jobj (.cons k v tl))
        = k.length + szV v + szP tl + 2 + 2 := rfl
    have hfl := flatten_esc_ge k
    have h4 : (encV ind lvl (.jobj (.cons k v tl))).length
        = 1 + (nlInd ind (lvl + 1)).length
          + ((k.map escChar).flatten.length + 2) + 2
          + (encV ind (lvl + 1) v).length
          + (encPRest ind (lvl + 1) tl).length + (nlInd ind lvl).length
          + 1 := by
      show (123 :: nlInd ind (lvl + 1) ++ encodeString k ++ 58 :: 32 ::
          encV ind (lvl + 1) v ++ encPRest ind (lvl + 1) tl ++
          nlInd ind lvl ++ [125]).length = _
      unfold encodeString
      simp
      omega
    have h5 := nlInd_len_pos ind (lvl + 1)
    have h6 := nlInd_len_pos ind lvl
    omega

theorem szL_le_enc : ∀ (ind lvl : Nat) (l : JsonList),
    szL l ≤ (encLRest ind lvl l).length
  | _, _, .nil => by
    show (0 : Nat) ≤ 0
    omega
  | ind, lvl, .cons hd tl => by
    have h1 := szV_le_enc ind lvl hd
    have h2 := szL_le_enc ind lvl tl
    have h3 : szL (.cons hd tl) = szV hd + szL tl + 1 := rfl
    have h4 : (encLRest ind lvl (.cons hd tl)).length
        = 1 + (nlInd ind lvl).length + (encV ind lvl hd).length
          + (encLRest ind lvl tl).length := by
      show (44 :: nlInd ind lvl ++ encV ind lvl hd ++
          encLRest ind lvl tl).length = _
      simp
      omega
    have h5 := nlInd_len_pos ind lvl
    omega

theorem szP_le_enc : ∀ (ind lvl : Nat) (p : JsonPairs),
    szP p ≤ (encPRest ind lvl p).length
  | _, _, .nil => by
    show (0 : Nat) ≤ 0
    omega
  | ind, lvl, .cons k v tl => by
    have h1 := szV_le_enc ind lvl v
    have h2 := szP_le_enc ind lvl tl
    have h3 : szP (.cons k v tl) = k.length + szV v + szP tl + 2 := rfl
    have hfl := flatten_esc_ge k
    have h4 : (encPRest ind lvl (.cons k v tl)).length
        = 1 + (nlInd ind lvl).length + ((k.map escChar).flatten.length + 2)
          + 2 + (encV ind lvl v).length + (encPRest ind lvl tl).length := by
      show (44 :: nlInd ind lvl ++ encodeString k ++ 58 :: 32 ::
          encV ind lvl v ++ encPRest ind lvl tl).length = _
      unfold encodeString
      simp
      omega
    have h5 := nlInd_len_pos ind lvl
    omega

end

/-- `json.loads` inverts serialization of a well-formed value. -/
theorem jsonLoads_enc (v : JsonValue) (ind : Nat) (hwf : wfV v = true) :
    jsonLoads (encV ind 0 v) = .ok v := by
  obtain ⟨c, t, henc, hprop⟩ := encV_head ind 0 v
  have hsz : szV v ≤ loadsFuel (encV ind 0 v) := by
    have h1 := szV_le_enc ind 0 v
    unfold loadsFuel
    omega
  have hscan := (rt_main (loadsFuel (encV ind 0 v))).1 v ind 0 [] 0 hwf hsz rfl
  rw [List.append_nil] at hscan
  unfold jsonLoads
  have hbom : ¬(encV ind 0 v).take 1 = [0xfeff] := by
    rw [henc]
    intro h
    have h2 : ((c : Nat) :: t).take 1 = [c] := rfl
    rw [h2] at h
    injection h with h1 _
    omega
  rw [if_neg hbom]
  have hskip : skipWs (encV ind 0 v) 0 = (encV ind 0 v, 0) := by
    rw [henc]
    exact skipWs_nows c t 0 (encV_head_not_ws c hprop)
  rw [hskip]
  dsimp only
  rw [hscan]
  rfl

/-! ## Canonicalization (sort_keys) -/

theorem pyStrLe_total : ∀ a b : PyStr, pyStrLe a b = true ∨ pyStrLe b a = true
  | [], b => Or.inl rfl
  | a :: as, [] => Or.inr rfl
  | a :: as, b :: bs => by
    by_cases h1 : a < b
    · left
      show (if a < b then true else if b < a then false else pyStrLe as bs) = true
      rw [if_pos h1]
    · by_cases h2 : b < a
      · right
        show (if b < a then true else if a < b then false else pyStrLe bs as) = true
        rw [if_pos h2]
      · rcases pyStrLe_total as bs with h | h
        · left
          show (if a < b then true else if b < a then false else pyStrLe as bs) = true
          rw [if_neg h1, if_neg h2]
          exact h
        · right
          show (if b < a then true else if a < b then false else pyStrLe bs as) = true
          rw [if_neg h2, if_neg h1]
          exact h

theorem keys_insertSorted :
    ∀ (p : JsonPairs) (k : PyStr) (v : JsonValue),
      (p.insertSorted k v).keys.Perm (k :: p.keys)
  | .nil, k, v => by simp [JsonPairs.insertSorted, JsonPairs.keys]
  | .cons k' v' tl, k, v => by
    show (if pyStrLe k k' then JsonPairs.cons k v (.cons k' v' tl)
      else JsonPairs.cons k' v' (tl.insertSorted k v)).keys.Perm _
    by_cases h : pyStrLe k k' = true
    · rw [if_pos h]
      exact List.Perm.refl _
    · rw [if_neg h]
      show (k' :: (tl.insertSorted k v).keys).Perm (k :: k' :: tl.keys)
      exact ((keys_insertSorted tl k v).cons k').trans
        (List.Perm.swap k k' tl.keys)

theorem keys_sortByKey :
    ∀ p : JsonPairs, p.sortByKey.keys.Perm p.keys
  | .nil => List.Perm.refl _
  | .cons k v tl => by
    show ((tl.sortByKey).insertSorted k v).keys.Perm (k :: tl.keys)
    exact (keys_insertSorted tl.sortByKey k v).trans
      ((keys_sortByKey tl).cons k)

theorem keys_canonP (sk : Bool) :
    ∀ p : JsonPairs, (canonP sk p).keys = p.keys
  | .nil => rfl
  | .cons k v tl => by
    show k :: (canonP sk tl).keys = k :: tl.keys
    rw [keys_canonP sk tl]

theorem length_insertSorted :
    ∀ (p : JsonPairs) (k : PyStr) (v : JsonValue),
      (p.insertSorted k v).length = p.length + 1
  | .nil, k, v => rfl
  | .cons k' v' tl, k, v => by
    show (if pyStrLe k k' then JsonPairs.cons k v (.cons k' v' tl)
      else JsonPairs.cons k' v' (tl.insertSorted k v)).length = _
    by_cases h : pyStrLe k k' = true
    · rw [if_pos h]
      show 1 + (1 + tl.length) = 1 + tl.length + 1
      omega
    · rw [if_neg h]
      show 1 + (tl.insertSorted k v).length = 1 + tl.length + 1
      rw [length_insertSorted tl k v]
      omega

theorem length_sortByKey :
    ∀ p : JsonPairs, p.sortByKey.length = p.length
  | .nil => rfl
  | .cons k v tl => by
    show ((tl.sortByKey).insertSorted k v).length = 1 + tl.length
    rw [length_insertSorted, length_sortByKey tl]
    omega

theorem length_canonP (sk : Bool) :
    ∀ p : JsonPairs, (canonP sk p).length = p.length
  | .nil => rfl
  | .cons k v tl => by
    show 1 + (canonP sk tl).length = 1 + tl.length
    rw [length_canonP sk tl]

theorem canonP_insertSorted (sk : Bool) :
    ∀ (p : JsonPairs) (k : PyStr) (v : JsonValue),
      canonP sk (p.insertSorted k v)
        = (canonP sk p).insertSorted k (canonV sk v)
  | .nil, k, v => rfl
  | .cons k' v' tl, k, v => by
    by_cases h : pyStrLe k k' = true
    · show canonP sk (if pyStrLe k k' then JsonPairs.cons k v (.cons k' v' tl)
        else JsonPairs.cons k' v' (tl.insertSorted k v)) = _
      rw [if_pos h]
      show JsonPairs.cons k (canonV sk v)
          (.cons k' (canonV sk v') (canonP sk tl)) = _
      show _ = (if pyStrLe k k' then JsonPairs.cons k (canonV sk v)
        (.cons k' (canonV sk v') (canonP sk tl))
        else JsonPairs.cons k' (canonV sk v')
          ((canonP sk tl).insertSorted k (canonV sk v)))
      rw [if_pos h]
    · show canonP sk (if pyStrLe k k' then JsonPairs.cons k v (.cons k' v' tl)
        else JsonPairs.cons k' v' (tl.insertSorted k v)) = _
      rw [if_neg h]
      show JsonPairs.cons k' (canonV sk v')
          (canonP sk (tl.insertSorted k v)) = _
      rw [canonP_insertSorted sk tl k v]
      show _ = (if pyStrLe k k' then JsonPairs.cons k (canonV sk v)
        (.cons k' (canonV sk v') (canonP sk tl))
        else JsonPairs.cons k' (canonV sk v')
          ((canonP sk tl).insertSorted k (canonV sk v)))
      rw [if_neg h]

theorem canonP_sortByKey (sk : Bool) :
    ∀ p : JsonPairs, canonP sk p.sortByKey = (canonP sk p).sortByKey
  | .nil => rfl
  | .cons k v tl => by
    show canonP sk ((tl.sortByKey).insertSorted k v) = _
    rw [canonP_insertSorted sk tl.sortByKey k v, canonP_sortByKey sk tl]
    rfl

theorem jpSortedB_insertSorted :
    ∀ (p : JsonPairs) (k : PyStr) (v : JsonValue), jpSortedB p = true →
      jpSortedB (p.insertSorted k v) = true
  | .nil, _, _, _ => rfl
  | .cons k' v' tl, k, v, hs => by
    by_cases h : pyStrLe k k' = true
    · have hstep : JsonPairs.insertSorted k v (.cons k' v' tl)
          = .cons k v (.cons k' v' tl) := by
        show (if pyStrLe k k' then _ else _) = _
        rw [if_pos h]
      rw [hstep]
      show (pyStrLe k k' && jpSortedB (.cons k' v' tl)) = true
      rw [h, hs]
      rfl
    · have hstep : JsonPairs.insertSorted k v (.cons k' v' tl)
          = .cons k' v' (tl.insertSorted k v) := by
        show (if pyStrLe k k' then _ else _) = _
        rw [if_neg h]
      rw [hstep]
      cases tl with
      | nil =>
        show (pyStrLe k' k && jpSortedB (JsonPairs.cons k v .nil)) = true
        rcases pyStrLe_total k' k with h2 | h2
        · rw [h2]
          rfl
        · exact absurd h2 h
      | cons k3 v3 tl3 =>
        have hsp : pyStrLe k' k3 = true ∧
            jpSortedB (.cons k3 v3 tl3) = true := by
          simpa using (show (pyStrLe k' k3 &&
            jpSortedB (.cons k3 v3 tl3)) = true from hs)
        have hrec := jpSortedB_insertSorted (.cons k3 v3 tl3) k v hsp.2
        by_cases h3 : pyStrLe k k3 = true
        · have hstep2 : JsonPairs.insertSorted k v (.cons k3 v3 tl3)
              = .cons k v (.cons k3 v3 tl3) := by
            show (if pyStrLe k k3 then _ else _) = _
            rw [if_pos h3]
          rw [hstep2]
          rw [hstep2] at hrec
          show (pyStrLe k' k &&
            jpSortedB (JsonPairs.cons k v (.cons k3 v3 tl3))) = true
          rcases pyStrLe_total k' k with h2 | h2
          · rw [h2, hrec]
            rfl
          · exact absurd h2 h
        · have hstep2 : JsonPairs.insertSorted k v (.cons k3 v3 tl3)
              = .cons k3 v3 (tl3.insertSorted k v) := by
            show (if pyStrLe k k3 then _ else _) = _
            rw [if_neg h3]
          rw [hstep2]
          rw [hstep2] at hrec
          show (pyStrLe k' k3 &&
            jpSortedB (JsonPairs.cons k3 v3 (tl3.insertSorted k v))) = true
          rw [hsp.1, hrec]
          rfl

theorem jpSortedB_sortByKey :
    ∀ p : JsonPairs, jpSortedB p.sortByKey = true
  | .nil => rfl
  | .cons k v tl =>
    jpSortedB_insertSorted tl.sortByKey k v (jpSortedB_sortByKey tl)

theorem sortByKey_of_sorted :
    ∀ p : JsonPairs, jpSortedB p = true → p.sortByKey = p
  | .nil, _ => rfl
  | .cons k v tl, hs => by
    cases tl with
    | nil => rfl
    | cons k2 v2 tl2 =>
      have hsp : pyStrLe k k2 = true ∧ jpSortedB (.cons k2 v2 tl2) = true := by
        simpa using (show (pyStrLe k k2 &&
          jpSortedB (.cons k2 v2 tl2)) = true from hs)
      show (JsonPairs.sortByKey (.cons k2 v2 tl2)).insertSorted k v = _
      rw [sortByKey_of_sorted (.cons k2 v2 tl2) hsp.2]
      show (if pyStrLe k k2 then _ else _) = _
      rw [if_pos hsp.1]

theorem sortByKey_idem (p : JsonPairs) :
    p.sortByKey.sortByKey = p.sortByKey :=
  sortByKey_of_sorted _ (jpSortedB_sortByKey p)

mutual

theorem canonV_idem (sk : Bool) :
    ∀ v : JsonValue, canonV sk (canonV sk v) = canonV sk v
  | .jnull => rfl
  | .jtrue => rfl
  | .jfalse => rfl
  | .jint _ => rfl
  | .jfloat _ => rfl
  | .jnan => rfl
  | .jinf => rfl
  | .jneginf => rfl
  | .jstr _ => rfl
  | .jarr xs => by
    show JsonValue.jarr (canonL sk (canonL sk xs)) = .jarr (canonL sk xs)
    rw [canonL_idem sk xs]
  | .jobj kvs => by
    cases hsk : sk with
    | false =>
      show JsonValue.jobj (if false then _ else canonP false
        (if false then _ else canonP false kvs)) = _
      show JsonValue.jobj (canonP false (canonP false kvs)) = _
      rw [canonP_idem false kvs]
      rfl
    | true =>
      show JsonValue.jobj
        ((canonP true ((canonP true kvs).sortByKey)).sortByKey) = _
      rw [canonP_sortByKey true (canonP true kvs), canonP_idem true kvs,
        sortByKey_idem]
      rfl

theorem canonL_idem (sk : Bool) :
    ∀ l : JsonList, canonL sk (canonL sk l) = canonL sk l
  | .nil => rfl
  | .cons hd tl => by
    show JsonList.cons (canonV sk (canonV sk hd))
      (canonL sk (canonL sk tl)) = _
    rw [canonV_idem sk hd, canonL_idem sk tl]
    rfl

theorem canonP_idem (sk : Bool) :
    ∀ p : JsonPairs, canonP sk (canonP sk p) = canonP sk p
  | .nil => rfl
  | .cons k v tl => by
    show JsonPairs.cons k (canonV sk (canonV sk v))
      (canonP sk (canonP sk tl)) = _
    rw [canonV_idem sk v, canonP_idem sk tl]
    rfl

end

theorem wfP_insertSorted :
    ∀ (p : JsonPairs) (k : PyStr) (v : JsonValue),
      wfP p = true → wfV v = true → wfP (p.insertSorted k v) = true
  | .nil, k, v, _, hv => by
    show (wfV v && true) = true
    rw [hv]
    rfl
  | .cons k' v' tl, k, v, hp, hv => by
    have hsp : wfV v' = true ∧ wfP tl = true := by
      simpa using (show (wfV v' && wfP tl) = true from hp)
    by_cases h : pyStrLe k k' = true
    · have hstep : JsonPairs.insertSorted k v (.cons k' v' tl)
          = .cons k v (.cons k' v' tl) := by
        show (if pyStrLe k k' then _ else _) = _
        rw [if_pos h]
      rw [hstep]
      show (wfV v && wfP (.cons k' v' tl)) = true
      rw [hv, hp]
      rfl
    · have hstep : JsonPairs.insertSorted k v (.cons k' v' tl)
          = .cons k' v' (tl.insertSorted k v) := by
        show (if pyStrLe k k' then _ else _) = _
        rw [if_neg h]
      rw [hstep]
      show (wfV v' && wfP (tl.insertSorted k v)) = true
      rw [hsp.1, wfP_insertSorted tl k v hsp.2 hv]
      rfl

theorem wfP_sortByKey :
    ∀ p : JsonPairs, wfP p = true → wfP p.sortByKey = true
  | .nil, _ => rfl
  | .cons k v tl, hp => by
    have hsp : wfV v = true ∧ wfP tl = true := by
      simpa using (show (wfV v && wfP tl) = true from hp)
    show wfP ((tl.sortByKey).insertSorted k v) = true
    exact wfP_insertSorted tl.sortByKey k v (wfP_sortByKey tl hsp.2) hsp.1

mutual

theorem wfV_canon (sk : Bool) :
    ∀ v : JsonValue, wfV v = true → wfV (canonV sk v) = true
  | .jnull, h => h
  | .jtrue, h => h
  | .jfalse, h => h
  | .jint _, h => h
  | .jfloat _, h => h
  | .jnan, h => h
  | .jinf, h => h
  | .jneginf, h => h
  | .jstr _, h => h
  | .jarr xs, h => by
    show wfL (canonL sk xs) = true
    exact wfL_canon sk xs h
  | .jobj kvs, h => by
    have hsp : decide kvs.keys.Nodup = true ∧ wfP kvs = true := by
      simpa using
        (show (decide kvs.keys.Nodup && wfP kvs) = true from h)
    have hnd : kvs.keys.Nodup := of_decide_eq_true hsp.1
    have hwfc : wfP (canonP sk kvs) = true := wfP_canon sk kvs hsp.2
    cases sk with
    | false =>
      show (decide (canonP false kvs).keys.Nodup &&
        wfP (canonP false kvs)) = true
      rw [keys_canonP false kvs, hwfc, decide_eq_true hnd]
      rfl
    | true =>
      show (decide ((canonP true kvs).sortByKey).keys.Nodup &&
        wfP ((canonP true kvs).sortByKey)) = true
      have hperm := keys_sortByKey (canonP true kvs)
      rw [keys_canonP true kvs] at hperm
      have hnd2 : ((canonP true kvs).sortByKey).keys.Nodup :=
        hperm.nodup_iff.2 hnd
      rw [decide_eq_true hnd2, wfP_sortByKey _ hwfc]
      rfl

theorem wfL_canon (sk : Bool) :
    ∀ l : JsonList, wfL l = true → wfL (canonL sk l) = true
  | .nil, h => h
  | .cons hd tl, h => by
    have hsp : wfV hd = true ∧ wfL tl = true := by
      simpa using (show (wfV hd && wfL tl) = true from h)
    show (wfV (canonV sk hd) && wfL (canonL sk tl)) = true
    rw [wfV_canon sk hd hsp.1, wfL_canon sk tl hsp.2]
    rfl

theorem wfP_canon (sk : Bool) :
    ∀ p : JsonPairs, wfP p = true → wfP (canonP sk p) = true
  | .nil, h => h
  | .cons k v tl, h => by
    have hsp : wfV v = true ∧ wfP tl = true := by
      simpa using (show (wfV v && wfP tl) = true from h)
    show (wfV (canonV sk v) && wfP (canonP sk tl)) = true
    rw [wfV_canon sk v hsp.1, wfP_canon sk tl hsp.2]
    rfl

end

/-! ## The parser produces well-formed values -/

theorem wfL_jlAppend :
    ∀ (l : JsonList) (v : JsonValue), wfL l = true → wfV v = true →
      wfL (jlAppend l v) = true
  | .nil, v, _, hv => by
    show (wfV v && true) = true
    rw [hv]
    rfl
  | .cons hd tl, v, hl, hv => by
    have hsp : wfV hd = true ∧ wfL tl = true := by
      simpa using (show (wfV hd && wfL tl) = true from hl)
    show (wfV hd && wfL (jlAppend tl v)) = true
    rw [hsp.1, wfL_jlAppend tl v hsp.2 hv]
    rfl

theorem wfP_jpAppend :
    ∀ (p : JsonPairs) (k : PyStr) (v : JsonValue),
      wfP p = true → wfV v = true → wfP (jpAppend p k v) = true
  | .nil, k, v, _, hv => by
    show (wfV v && true) = true
    rw [hv]
    rfl
  | .cons k' v' tl, k, v, hp, hv => by
    have hsp : wfV v' = true ∧ wfP tl = true := by
      simpa using (show (wfV v' && wfP tl) = true from hp)
    show (wfV v' && wfP (jpAppend tl k v)) = true
    rw [hsp.1, wfP_jpAppend tl k v hsp.2 hv]
    rfl

theorem hasKey_iff_mem :
    ∀ (p : JsonPairs) (k : PyStr), p.hasKey k = true ↔ k ∈ p.keys
  | .nil, k => by
    constructor
    · intro h
      exact absurd h (by simp [JsonPairs.hasKey, JsonPairs.lookup])
    · intro h
      simp [JsonPairs.keys] at h
  | .cons k' v' tl, k => by
    constructor
    · intro h
      by_cases he : k' = k
      · subst he
        exact List.mem_cons_self _ _
      · have h2 : tl.hasKey k = true := by
          simpa [JsonPairs.hasKey, JsonPairs.lookup, if_neg he] using h
        exact List.mem_cons_of_mem _ ((hasKey_iff_mem tl k).1 h2)
    · intro h
      by_cases he : k' = k
      · simp [JsonPairs.hasKey, JsonPairs.lookup, if_pos he]
      · have h2 : k ∈ tl.keys := by
          rcases List.mem_cons.1 h with h3 | h3
          · exact absurd h3.symm he
          · exact h3
        simpa [JsonPairs.hasKey, JsonPairs.lookup, if_neg he] using
          (hasKey_iff_mem tl k).2 h2

theorem keys_setKey :
    ∀ (p : JsonPairs) (k : PyStr) (v : JsonValue),
      (p.setKey k v).keys
        = if p.hasKey k then p.keys else p.keys ++ [k]
  | .nil, k, v => by
    simp [JsonPairs.setKey, JsonPairs.keys, JsonPairs.hasKey,
      JsonPairs.lookup]
  | .cons k' v' tl, k, v => by
    by_cases he : k' = k
    · subst he
      have h1 : (JsonPairs.cons k' v' tl).setKey k' v
          = .cons k' v tl := by
        show (if k' = k' then _ else _) = _
        rw [if_pos rfl]
      have h2 : (JsonPairs.cons k' v' tl).hasKey k' = true := by
        simp [JsonPairs.hasKey, JsonPairs.lookup]
      rw [h1, h2]
      rfl
    · have h1 : (JsonPairs.cons k' v' tl).setKey k v
          = .cons k' v' (tl.setKey k v) := by
        show (if k' = k then _ else _) = _
        rw [if_neg he]
      have h2 : (JsonPairs.cons k' v' tl).hasKey k = tl.hasKey k := by
        simp [JsonPairs.hasKey, JsonPairs.lookup, if_neg he]
      rw [h1, h2]
      show k' :: (tl.setKey k v).keys = _
      rw [keys_setKey tl k v]
      by_cases h3 : tl.hasKey k = true
      · rw [if_pos h3, if_pos h3]
        rfl
      · rw [if_neg h3, if_neg h3]
        rfl

theorem wfP_setKey :
    ∀ (p : JsonPairs) (k : PyStr) (v : JsonValue),
      wfP p = true → wfV v = true → wfP (p.setKey k v) = true
  | .nil, k, v, _, hv => by
    show (wfV v && true) = true
    rw [hv]
    rfl
  | .cons k' v' tl, k, v, hp, hv => by
    have hsp : wfV v' = true ∧ wfP tl = true := by
      simpa using (show (wfV v' && wfP tl) = true from hp)
    by_cases he : k' = k
    · have h1 : (JsonPairs.cons k' v' tl).setKey k v = .cons k' v tl := by
        show (if k' = k then _ else _) = _
        rw [if_pos he]
      rw [h1]
      show (wfV v && wfP tl) = true
      rw [hv, hsp.2]
      rfl
    · have h1 : (JsonPairs.cons k' v' tl).setKey k v
          = .cons k' v' (tl.setKey k v) := by
        show (if k' = k then _ else _) = _
        rw [if_neg he]
      rw [h1]
      show (wfV v' && wfP (tl.setKey k v)) = true
      rw [hsp.1, wfP_setKey tl k v hsp.2 hv]
      rfl

theorem nodup_setKey (p : JsonPairs) (k : PyStr) (v : JsonValue)
    (h : p.keys.Nodup) : (p.setKey k v).keys.Nodup := by
  rw [keys_setKey]
  by_cases h2 : p.hasKey k = true
  · rw [if_pos h2]
    exact h
  · rw [if_neg h2]
    have h3 : k ∉ p.keys := fun hm =>
      h2 ((hasKey_iff_mem p k).2 hm)
    simp [List.nodup_append, h, h3]

theorem dictAdd_wf :
    ∀ (p acc : JsonPairs), wfP acc = true → wfP p = true →
      wfP (dictAdd acc p) = true
  | .nil, acc, ha, _ => ha
  | .cons k v tl, acc, ha, hp => by
    have hsp : wfV v = true ∧ wfP tl = true := by
      simpa using (show (wfV v && wfP tl) = true from hp)
    show wfP (dictAdd (acc.setKey k v) tl) = true
    exact dictAdd_wf tl _ (wfP_setKey acc k v ha hsp.1) hsp.2

theorem dictAdd_nodup :
    ∀ (p acc : JsonPairs), acc.keys.Nodup → (dictAdd acc p).keys.Nodup
  | .nil, acc, ha => ha
  | .cons k v tl, acc, ha => by
    show (dictAdd (acc.setKey k v) tl).keys.Nodup
    exact dictAdd_nodup tl _ (nodup_setKey acc k v ha)

theorem dictOfPairs_wf (p : JsonPairs) (h : wfP p = true) :
    wfP (dictOfPairs p) = true :=
  dictAdd_wf p .nil rfl h

theorem dictOfPairs_nodup (p : JsonPairs) :
    (dictOfPairs p).keys.Nodup :=
  dictAdd_nodup p .nil (by show List.Nodup []; simp)

theorem wfV_jobj_mk (p : JsonPairs) (h1 : p.keys.Nodup)
    (h2 : wfP p = true) : wfV (.jobj p) = true := by
  show (decide p.keys.Nodup && wfP p) = true
  rw [decide_eq_true h1, h2]
  rfl

theorem den_dvd_ten_pow :
    ∀ n : Nat, ∀ m : Nat, n ∣ 10 ^ m → n ∣ 10 ^ n := by
  intro n
  induction n using Nat.strong_induction_on with
  | _ n IH =>
  intro m h
  cases n with
  | zero =>
    exfalso
    have h2 := Nat.eq_zero_of_zero_dvd h
    have h3 : 0 < 10 ^ m := Nat.pos_pow_of_pos m (by omega)
    omega
  | succ n1 =>
  cases n1 with
  | zero => exact one_dvd _
  | succ n2 =>
    obtain ⟨p, hp, hpd⟩ := Nat.exists_prime_and_dvd
      (show n2 + 1 + 1 ≠ 1 by omega)
    have hp10 : p ∣ 10 := hp.dvd_of_dvd_pow (hpd.trans h)
    obtain ⟨d, hd⟩ := hpd
    have hd2 : d ∣ 10 ^ m := dvd_trans ⟨p, by rw [hd]; ring⟩ h
    have hp2 := hp.two_le
    have hdpos : 0 < d := by
      rcases Nat.eq_zero_or_pos d with h0 | h0
      · subst h0
        simp at hd
      · exact h0
    have hdlt : d < n2 + 1 + 1 := by
      have h4 : 2 * d ≤ p * d := Nat.mul_le_mul_right d hp2
      have h5 : p * d = n2 + 1 + 1 := hd.symm
      omega
    have hdd : d ∣ 10 ^ d := IH d hdlt m hd2
    have hle : d ≤ n2 + 1 := by omega
    have h10d : (10 : Nat) ^ d ∣ 10 ^ (n2 + 1) := pow_dvd_pow 10 hle
    have hfinal : p * d ∣ 10 * 10 ^ (n2 + 1) :=
      mul_dvd_mul hp10 (hdd.trans h10d)
    have hpow : 10 * 10 ^ (n2 + 1) = 10 ^ (n2 + 1 + 1) := by ring
    rw [hpow] at hfinal
    rw [← hd] at hfinal
    exact hfinal

theorem leastPow10Aux_finds (den : Nat) :
    ∀ fuel k, 10 ^ (k + fuel) % den = 0 →
      10 ^ (leastPow10Aux den fuel k) % den = 0 := by
  intro fuel
  induction fuel with
  | zero =>
    intro k h
    simpa using h
  | succ f ih =>
    intro k h
    by_cases h0 : 10 ^ k % den = 0
    · have he : leastPow10Aux den (f + 1) k = k := by
        show (if 10 ^ k % den = 0 then k else leastPow10Aux den f (k + 1)) = k
        rw [if_pos h0]
      rw [he]
      exact h0
    · have he : leastPow10Aux den (f + 1) k = leastPow10Aux den f (k + 1) := by
        show (if 10 ^ k % den = 0 then k else leastPow10Aux den f (k + 1)) = _
        rw [if_neg h0]
      rw [he]
      apply ih (k + 1)
      have h2 : k + 1 + f = k + (f + 1) := by omega
      rw [h2]
      exact h

theorem isDec_of_den_dvd (q : ℚ) (M : Nat) (h : q.den ∣ 10 ^ M) :
    isDec q = true := by
  have h2 : q.den ∣ 10 ^ q.den := den_dvd_ten_pow q.den M h
  have h3 : 10 ^ (0 + q.den) % q.den = 0 := by
    rw [Nat.zero_add]
    exact Nat.mod_eq_zero_of_dvd h2
  have h4 := leastPow10Aux_finds q.den q.den 0 h3
  show (10 ^ leastPow10 q.den % q.den == 0) = true
  unfold leastPow10
  rw [h4]
  rfl

theorem rat_div_pow_den (N : ℤ) (M : Nat) :
    ((N : ℚ) / (10 : ℚ) ^ M).den ∣ 10 ^ M := by
  have h1 : ((10 : ℚ)) ^ M = (((10 : ℤ) ^ M : ℤ) : ℚ) := by
    push_cast
    ring
  rw [h1, ← Rat.divInt_eq_div]
  have h2 := Rat.den_dvd N ((10 : ℤ) ^ M)
  have h4 : ((10 : ℤ) ^ M) = ((10 ^ M : ℕ) : ℤ) := by
    push_cast
    ring
  rw [h4] at h2
  exact_mod_cast h2

theorem float_shape (iv fv fn : Nat) (e : ℤ) (neg : Bool) :
    ∃ N : ℤ, ∃ M : Nat,
      (if neg then -(((iv : ℚ) + (fv : ℚ) / (10 : ℚ) ^ fn) * (10 : ℚ) ^ e)
        else ((iv : ℚ) + (fv : ℚ) / (10 : ℚ) ^ fn) * (10 : ℚ) ^ e)
        = (N : ℚ) / (10 : ℚ) ^ M := by
  have hp : ((10 : ℚ)) ^ fn ≠ 0 := by positivity
  have key : (iv : ℚ) + (fv : ℚ) / (10 : ℚ) ^ fn
      = ((iv : ℚ) * (10 : ℚ) ^ fn + (fv : ℚ)) / (10 : ℚ) ^ fn := by
    field_simp
  have hbase : ∃ N : ℤ, ∃ M : Nat,
      ((iv : ℚ) + (fv : ℚ) / (10 : ℚ) ^ fn) * (10 : ℚ) ^ e
        = (N : ℚ) / (10 : ℚ) ^ M := by
    cases e with
    | ofNat m =>
      refine ⟨((iv : ℤ) * 10 ^ fn + fv) * 10 ^ m, fn, ?_⟩
      have h10 : (10 : ℚ) ^ (Int.ofNat m) = (10 : ℚ) ^ m := zpow_natCast 10 m
      rw [h10, key, div_mul_eq_mul_div]
      congr 1
      push_cast
      ring
    | negSucc m =>
      refine ⟨(iv : ℤ) * 10 ^ fn + fv, fn + (m + 1), ?_⟩
      have h10 : (10 : ℚ) ^ (Int.negSucc m) = ((10 : ℚ) ^ (m + 1))⁻¹ :=
        zpow_negSucc 10 m
      rw [h10, key, ← div_eq_mul_inv, div_div, ← pow_add]
      congr 1
      push_cast
      ring
  obtain ⟨N, M, hNM⟩ := hbase
  cases neg with
  | false =>
    refine ⟨N, M, ?_⟩
    rw [if_neg (by simp)]
    exact hNM
  | true =>
    refine ⟨-N, M, ?_⟩
    rw [if_pos rfl, hNM]
    push_cast
    ring

theorem scanNumTail_wf (neg : Bool) (iv : Nat) (rest : PyStr) (pos : Nat) :
    wfV (scanNumTail neg iv rest pos).1 = true := by
  unfold scanNumTail
  split
  next frac rest₁ pos₁ heq1 =>
  split
  next exp rest₂ pos₂ heq2 =>
  split
  · rfl
  · next h1 =>
    show isDec _ = true
    obtain ⟨N, M, hNM⟩ := float_shape iv ((frac.map Prod.fst).getD 0)
      ((frac.map Prod.snd).getD 0) (exp.getD 0) neg
    rw [hNM]
    exact isDec_of_den_dvd _ M (rat_div_pow_den N M)

theorem scanNumber_wf (s : PyStr) (pos : Nat) (v : JsonValue) (r : PyStr)
    (p : Nat) (h : scanNumber s pos = some (v, r, p)) : wfV v = true := by
  unfold scanNumber at h
  split at h
  next neg s₁ p₁ heq1 =>
  split at h
  · split_ifs at h with h1 h2
    · have h3 := Option.some.inj h
      have h4 := congrArg Prod.fst h3
      simp only [] at h4
      rw [← h4]
      exact scanNumTail_wf _ _ _ _
    · split at h
      next iv n rest2 heq2 =>
      have h3 := Option.some.inj h
      have h4 := congrArg Prod.fst h3
      simp only [] at h4
      rw [← h4]
      exact scanNumTail_wf _ _ _ _
  · exact absurd h (by simp)

/-- Every value the scanner returns is well-formed: every object node has
pairwise-distinct keys (it went through `dict(pairs)`) and every float is
an exact decimal. -/
theorem wf_parse : ∀ fuel : Nat,
    (∀ s pos v r p, scanOnce fuel s pos = .ok v r p → wfV v = true) ∧
    (∀ s pos v r p, parseArray fuel s pos = .ok v r p → wfV v = true) ∧
    (∀ s pos acc v r p, wfL acc = true →
      arrayLoop fuel s pos acc = .ok v r p → wfV v = true) ∧
    (∀ s pos v r p, parseObject fuel s pos = .ok v r p → wfV v = true) ∧
    (∀ s pos pacc v r p, wfP pacc = true →
      objLoop fuel s pos pacc = .ok v r p → wfV v = true) := by
  intro fuel
  induction fuel using Nat.strong_induction_on with
  | _ fuel IH =>
  cases fuel with
  | zero =>
    refine ⟨?_, ?_, ?_, ?_, ?_⟩
    · intro s pos v r p h
      exact absurd h (by simp [scanOnce])
    · intro s pos v r p h
      exact absurd h (by simp [parseArray])
    · intro s pos acc v r p _ h
      exact absurd h (by simp [arrayLoop])
    · intro s pos v r p h
      exact absurd h (by simp [parseObject])
    · intro s pos pacc v r p _ h
      exact absurd h (by simp [objLoop])
  | succ f =>
  obtain ⟨ihS, ihPA, ihAL, ihPO, ihOL⟩ := IH f (by omega)
  refine ⟨?_, ?_, ?_, ?_, ?_⟩
  · intro s pos v r p h
    cases s with
    | nil => exact absurd h (by simp [scanOnce])
    | cons c rs =>
      unfold scanOnce at h
      split_ifs at h with h34 h123 h91 hnull htrue hfalse hnan hinf hninf
      · split at h
        · injection h with h1 h2 h3
          subst h1
          rfl
        · exact absurd h (by simp)
        · exact absurd h (by simp)
      · exact ihPO _ _ _ _ _ h
      · exact ihPA _ _ _ _ _ h
      · injection h with h1 h2 h3
        subst h1
        rfl
      · injection h with h1 h2 h3
        subst h1
        rfl
      · injection h with h1 h2 h3
        subst h1
        rfl
      · split at h
        · next v1 rest1 p2 heq =>
          injection h with h1 h2 h3
          subst h1
          exact scanNumber_wf _ _ _ _ _ heq
        · injection h with h1 h2 h3
          subst h1
          rfl
      · split at h
        · next v1 rest1 p2 heq =>
          injection h with h1 h2 h3
          subst h1
          exact scanNumber_wf _ _ _ _ _ heq
        · injection h with h1 h2 h3
          subst h1
          rfl
      · split at h
        · next v1 rest1 p2 heq =>
          injection h with h1 h2 h3
          subst h1
          exact scanNumber_wf _ _ _ _ _ heq
        · injection h with h1 h2 h3
          subst h1
          rfl
      · split at h
        · next v1 rest1 p2 heq =>
          injection h with h1 h2 h3
          subst h1
          exact scanNumber_wf _ _ _ _ _ heq
        · exact absurd h (by simp)
  · intro s pos v r p h
    unfold parseArray at h
    split at h
    next r1 p1 heq =>
    split at h
    · injection h with h1 h2 h3
      subst h1
      rfl
    · exact ihAL _ _ .nil _ _ _ rfl h
  · intro s pos acc v r p hacc h
    unfold arrayLoop at h
    split at h
    · exact absurd h (by simp)
    · exact absurd h (by simp)
    · next v1 r1 p1 heq1 =>
      have hv1 : wfV v1 = true := ihS _ _ _ _ _ heq1
      split at h
      next r2 p2 heq2 =>
      split at h
      · injection h with h1 h2 h3
        subst h1
        exact wfL_jlAppend acc v1 hacc hv1
      · split at h
        next r4 p4 heq3 =>
        exact ihAL _ _ _ _ _ _ (wfL_jlAppend acc v1 hacc hv1) h
      · exact absurd h (by simp)
  · intro s pos v r p h
    unfold parseObject at h
    split at h
    · exact ihOL _ _ .nil _ _ _ rfl h
    · split at h
      next r1 p1 heq =>
      split at h
      · injection h with h1 h2 h3
        subst h1
        exact wfV_jobj_mk .nil (by show List.Nodup []; simp) rfl
      · exact ihOL _ _ .nil _ _ _ rfl h
      · exact absurd h (by simp)
  · intro s pos pacc v r p hpacc h
    unfold objLoop at h
    split at h
    · exact absurd h (by simp)
    · exact absurd h (by simp)
    · next key r1 p1 heq1 =>
      split at h
      · next r2 =>
        simp only [] at h
        split at h
        · exact absurd h (by simp)
        · exact absurd h (by simp)
        · next v1 r5 p5 heq4 =>
          have hv1 : wfV v1 = true := ihS _ _ _ _ _ heq4
          split at h
          · injection h with h1 h2 h3
            subst h1
            exact wfV_jobj_mk _ (dictOfPairs_nodup _)
              (dictOfPairs_wf _ (wfP_jpAppend pacc key v1 hpacc hv1))
          · split at h
            · exact ihOL _ _ _ _ _ _
                (wfP_jpAppend pacc key v1 hpacc hv1) h
            · exact absurd h (by simp)
          · exact absurd h (by simp)
      · split at h
        next r2w p2w heqw =>
        split at h
        · next r3 =>
          simp only [] at h
          split at h
          · exact absurd h (by simp)
          · exact absurd h (by simp)
          · next v1 r5 p5 heq4 =>
            have hv1 : wfV v1 = true := ihS _ _ _ _ _ heq4
            split at h
            · injection h with h1 h2 h3
              subst h1
              exact wfV_jobj_mk _ (dictOfPairs_nodup _)
                (dictOfPairs_wf _ (wfP_jpAppend pacc key v1 hpacc hv1))
            · split at h
              · exact ihOL _ _ _ _ _ _
                  (wfP_jpAppend pacc key v1 hpacc hv1) h
              · exact absurd h (by simp)
            · exact absurd h (by simp)
        · simp only [] at h
          exact absurd h (by simp)

/-! ## The scanner functions never lengthen the remaining input -/

theorem skipWs_len : ∀ (s : PyStr) (pos : Nat),
    (skipWs s pos).1.length ≤ s.length
  | [], _ => le_refl _
  | c :: cs, pos => by
    unfold skipWs
    split_ifs with h
    · have := skipWs_len cs (pos + 1)
      simp only [List.length_cons]
      omega
    · exact le_refl _

theorem scanDigits_len : ∀ (cs : PyStr) (acc v n : Nat) (rest : PyStr),
    scanDigits cs acc = (v, n, rest) → rest.length ≤ cs.length
  | [], acc, v, n, rest, h => by
    injection h with h1 h2
    injection h2 with h2 h3
    subst h3
    exact le_refl _
  | c :: cs, acc, v, n, rest, h => by
    unfold scanDigits at h
    split_ifs at h with hd
    · split at h
      next v1 n1 rest1 heq =>
      injection h with h1 h2
      injection h2 with h2 h3
      subst h3
      have := scanDigits_len cs (acc * 10 + (c - 48)) v1 n1 rest1 heq
      simp only [List.length_cons]
      omega
    · injection h with h1 h2
      injection h2 with h2 h3
      subst h3
      exact le_refl _

theorem scanNumTail_len (neg : Bool) (iv : Nat) (rest : PyStr) (pos : Nat)
    (v : JsonValue) (rest2 : PyStr) (pos2 : Nat)
    (h : scanNumTail neg iv rest pos = (v, rest2, pos2)) :
    rest2.length ≤ rest.length := by
  unfold scanNumTail at h
  split at h
  next frac rest1 pos1 heq1 =>
  have h1 : rest1.length ≤ rest.length := by
    split at heq1
    · next c d ds =>
      split_ifs at heq1 with hcd
      · split at heq1
        next fv n r heqd =>
        injection heq1 with e1 e2
        injection e2 with e2 e3
        subst e2
        have := scanDigits_len ds (d - 48) fv n r heqd
        simp only [List.length_cons]
        omega
      · injection heq1 with e1 e2
        injection e2 with e2 e3
        subst e2
        exact le_refl _
    · injection heq1 with e1 e2
      injection e2 with e2 e3
      subst e2
      exact le_refl _
  split at h
  next exp rest2' pos2' heq2 =>
  have h2 : rest2'.length ≤ rest1.length := by
    split at heq2
    · next e es =>
      split_ifs at heq2 with he
      · split at heq2
        · next sg srest =>
          by_cases hs : sg = 43 ∨ sg = 45
          · rw [if_pos hs] at heq2
            split at heq2
            · next d ds =>
              by_cases hd : 48 ≤ d ∧ d ≤ 57
              · rw [if_pos hd] at heq2
                split at heq2
                next ev n r heqd =>
                injection heq2 with e1 e2
                injection e2 with e2 e3
                subst e2
                have := scanDigits_len ds (d - 48) ev n r heqd
                simp only [List.length_cons]
                omega
              · rw [if_neg hd] at heq2
                injection heq2 with e1 e2
                injection e2 with e2 e3
                subst e2
                exact le_refl _
            · injection heq2 with e1 e2
              injection e2 with e2 e3
              subst e2
              exact le_refl _
          · rw [if_neg hs] at heq2
            split_ifs at heq2 with hd
            · split at heq2
              next ev n r heqd =>
              injection heq2 with e1 e2
              injection e2 with e2 e3
              subst e2
              have := scanDigits_len srest (sg - 48) ev n r heqd
              simp only [List.length_cons]
              omega
            · injection heq2 with e1 e2
              injection e2 with e2 e3
              subst e2
              exact le_refl _
        · injection heq2 with e1 e2
          injection e2 with e2 e3
          subst e2
          exact le_refl _
      · injection heq2 with e1 e2
        injection e2 with e2 e3
        subst e2
        exact le_refl _
    · injection heq2 with e1 e2
      injection e2 with e2 e3
      subst e2
      exact le_refl _
  have h3 : rest2 = rest2' := by
    split at h
    · injection h with e1 e2
      injection e2 with e2 e3
      exact e2.symm
    · injection h with e1 e2
      injection e2 with e2 e3
      exact e2.symm
  subst h3
  omega

theorem scanNumber_len (s : PyStr) (pos : Nat) (v : JsonValue)
    (rest : PyStr) (p : Nat)
    (h : scanNumber s pos = some (v, rest, p)) : rest.length ≤ s.length := by
  unfold scanNumber at h
  split at h
  next neg s1 p1 heq1 =>
  have hs1 : s1.length ≤ s.length := by
    split at heq1
    · next c cs =>
      split_ifs at heq1 with hc
      · injection heq1 with e1 e2
        injection e2 with e2 e3
        subst e2
        simp only [List.length_cons]
        omega
      · injection heq1 with e1 e2
        injection e2 with e2 e3
        subst e2
        exact le_refl _
    · injection heq1 with e1 e2
      injection e2 with e2 e3
      subst e2
      exact le_refl _
  split at h
  · next c cs =>
    split_ifs at h with h0 h19
    · injection h with h1
      have := scanNumTail_len neg 0 cs (p1 + 1) v rest p
        (by rw [h1])
      simp only [List.length_cons] at hs1 ⊢
      omega
    · split at h
      next iv n r heqd =>
      injection h with h1
      have hr := scanDigits_len cs (c - 48) iv n r heqd
      have := scanNumTail_len neg iv r (p1 + 1 + n) v rest p (by rw [h1])
      simp only [List.length_cons] at hs1 ⊢
      omega
  · exact absurd h (by simp)

theorem scanString_len :
    ∀ (fuel begin : Nat) (s : PyStr) (pos : Nat) (acc str rest : PyStr)
      (p : Nat), scanString fuel begin s pos acc = .ok str rest p →
      rest.length ≤ s.length
  | 0, _, _, _, _, _, _, _, h => absurd h (by simp [scanString])
  | _ + 1, bg, [], pos, acc, str, rest, p, h =>
    absurd h (by simp [scanString])
  | fuel + 1, bg, c :: rs, pos, acc, str, rest, p, h => by
    unfold scanString at h
    by_cases h34 : (c == 34) = true
    · rw [if_pos h34] at h
      injection h with h1 h2 h3
      subst h2
      simp only [List.length_cons]
      omega
    · rw [if_neg h34] at h
      by_cases h92 : (c == 92) = true
      · rw [if_pos h92] at h
        split at h
        · exact absurd h (by simp)
        · next e rs2 =>
          by_cases hu : (e == 117) = true
          · rw [if_pos hu] at h
            split at h
            · exact absurd h (by simp)
            · next uni hequ =>
              simp only [] at h
              by_cases hsur : 0xd800 ≤ uni ∧ uni ≤ 0xdbff ∧
                  (rs2.drop 4).take 2 = [92, 117]
              · rw [if_pos hsur] at h
                split at h
                · exact absurd h (by simp)
                · next uni2 hequ2 =>
                  by_cases hlo : 0xdc00 ≤ uni2 ∧ uni2 ≤ 0xdfff
                  · rw [if_pos hlo] at h
                    have := scanString_len fuel bg ((rs2.drop 4).drop 6)
                      (pos + 12) _ str rest p h
                    simp only [List.length_drop, List.length_cons] at this ⊢
                    omega
                  · rw [if_neg hlo] at h
                    have := scanString_len fuel bg (rs2.drop 4) (pos + 6)
                      (uni :: acc) str rest p h
                    simp only [List.length_drop, List.length_cons] at this ⊢
                    omega
              · rw [if_neg hsur] at h
                have := scanString_len fuel bg (rs2.drop 4) (pos + 6)
                  (uni :: acc) str rest p h
                simp only [List.length_drop, List.length_cons] at this ⊢
                omega
          · rw [if_neg hu] at h
            split at h
            · next ch heqb =>
              have := scanString_len fuel bg rs2 (pos + 2) (ch :: acc)
                str rest p h
              simp only [List.length_cons] at this ⊢
              omega
            · exact absurd h (by simp)
      · rw [if_neg h92] at h
        by_cases hctl : c < 32
        · rw [if_pos hctl] at h
          exact absurd h (by simp)
        · rw [if_neg hctl] at h
          have := scanString_len fuel bg rs (pos + 1) (c :: acc) str rest p h
          simp only [List.length_cons]
          omega

/-- The recursive-descent functions only ever consume input: the returned
rest is no longer than the input suffix. -/
theorem cons_parse : ∀ fuel : Nat,
    (∀ s pos v r p, scanOnce fuel s pos = .ok v r p →
      r.length ≤ s.length) ∧
    (∀ s pos v r p, parseArray fuel s pos = .ok v r p →
      r.length ≤ s.length) ∧
    (∀ s pos acc v r p, arrayLoop fuel s pos acc = .ok v r p →
      r.length ≤ s.length) ∧
    (∀ s pos v r p, parseObject fuel s pos = .ok v r p →
      r.length ≤ s.length) ∧
    (∀ s pos pacc v r p, objLoop fuel s pos pacc = .ok v r p →
      r.length ≤ s.length) := by
  intro fuel
  induction fuel using Nat.strong_induction_on with
  | _ fuel IH =>
  cases fuel with
  | zero =>
    refine ⟨?_, ?_, ?_, ?_, ?_⟩
    · intro s pos v r p h
      exact absurd h (by simp [scanOnce])
    · intro s pos v r p h
      exact absurd h (by simp [parseArray])
    · intro s pos acc v r p h
      exact absurd h (by simp [arrayLoop])
    · intro s pos v r p h
      exact absurd h (by simp [parseObject])
    · intro s pos pacc v r p h
      exact absurd h (by simp [objLoop])
  | succ f =>
  obtain ⟨ihS, ihPA, ihAL, ihPO, ihOL⟩ := IH f (by omega)
  refine ⟨?_, ?_, ?_, ?_, ?_⟩
  · intro s pos v r p h
    cases s with
    | nil => exact absurd h (by simp [scanOnce])
    | cons c rs =>
      unfold scanOnce at h
      split_ifs at h with h34 h123 h91 hnull htrue hfalse hnan hinf hninf
      · split at h
        · next str rest1 p2 heq =>
          injection h with h1 h2 h3
          subst h2
          have := scanString_len f pos rs (pos + 1) [] str rest1 p2 heq
          simp only [List.length_cons]
          omega
        · exact absurd h (by simp)
        · exact absurd h (by simp)
      · have := ihPO _ _ _ _ _ h
        simp only [List.length_cons]
        omega
      · have := ihPA _ _ _ _ _ h
        simp only [List.length_cons]
        omega
      · injection h with h1 h2 h3
        subst h2
        simp only [List.length_drop]
        omega
      · injection h with h1 h2 h3
        subst h2
        simp only [List.length_drop]
        omega
      · injection h with h1 h2 h3
        subst h2
        simp only [List.length_drop]
        omega
      · split at h
        · next v1 rest1 p2 heq =>
          injection h with h1 h2 h3
          subst h2
          exact scanNumber_len _ _ _ _ _ heq
        · injection h with h1 h2 h3
          subst h2
          simp only [List.length_drop]
          omega
      · split at h
        · next v1 rest1 p2 heq =>
          injection h with h1 h2 h3
          subst h2
          exact scanNumber_len _ _ _ _ _ heq
        · injection h with h1 h2 h3
          subst h2
          simp only [List.length_drop]
          omega
      · split at h
        · next v1 rest1 p2 heq =>
          injection h with h1 h2 h3
          subst h2
          exact scanNumber_len _ _ _ _ _ heq
        · injection h with h1 h2 h3
          subst h2
          simp only [List.length_drop]
          omega
      · split at h
        · next v1 rest1 p2 heq =>
          injection h with h1 h2 h3
          subst h2
          exact scanNumber_len _ _ _ _ _ heq
        · exact absurd h (by simp)
  · intro s pos v r p h
    unfold parseArray at h
    split at h
    next r1 p1 heq =>
    have hw : r1.length ≤ s.length := by
      have := skipWs_len s pos
      rw [heq] at this
      exact this
    split at h
    · next r2 =>
      injection h with h1 h2 h3
      subst h2
      simp only [List.length_cons] at hw
      omega
    · have := ihAL _ _ .nil _ _ _ h
      omega
  · intro s pos acc v r p h
    unfold arrayLoop at h
    split at h
    · exact absurd h (by simp)
    · exact absurd h (by simp)
    · next v1 r1 p1 heq1 =>
      have h1 : r1.length ≤ s.length := ihS _ _ _ _ _ heq1
      split at h
      next r2 p2 heq2 =>
      have h2 : r2.length ≤ r1.length := by
        have := skipWs_len r1 p1
        rw [heq2] at this
        exact this
      split at h
      · next r3 =>
        injection h with h1' h2' h3'
        subst h2'
        simp only [List.length_cons] at h2
        omega
      · next r3 =>
        split at h
        next r4 p4 heq3 =>
        have h4 : r4.length ≤ r3.length := by
          have := skipWs_len r3 (p2 + 1)
          rw [heq3] at this
          exact this
        have h5 := ihAL _ _ _ _ _ _ h
        simp only [List.length_cons] at h2
        omega
      · exact absurd h (by simp)
  · intro s pos v r p h
    unfold parseObject at h
    split at h
    · next r1 =>
      have := ihOL _ _ .nil _ _ _ h
      simp only [List.length_cons]
      omega
    · split at h
      next r1 p1 heq =>
      have hw : r1.length ≤ s.length := by
        have := skipWs_len s pos
        rw [heq] at this
        exact this
      split at h
      · next r2 =>
        injection h with h1 h2 h3
        subst h2
        simp only [List.length_cons] at hw
        omega
      · next r2 =>
        have := ihOL _ _ .nil _ _ _ h
        simp only [List.length_cons] at hw
        omega
      · exact absurd h (by simp)
  · intro s pos pacc v r p h
    unfold objLoop at h
    split at h
    · exact absurd h (by simp)
    · exact absurd h (by simp)
    · next key r1 p1 heq1 =>
      have h1 : r1.length ≤ s.length :=
        scanString_len f (pos - 1) s pos [] key r1 p1 heq1
      split at h
      · next r2 =>
        simp only [] at h
        simp only [List.length_cons] at h1
        have hw4 : (skipWs r2 (p1 + 1)).1.length ≤ r2.length :=
          skipWs_len r2 (p1 + 1)
        split at h
        · exact absurd h (by simp)
        · exact absurd h (by simp)
        · next v1 r5 p5 heq4 =>
          have h5 : r5.length ≤ (skipWs r2 (p1 + 1)).1.length :=
            ihS _ _ _ _ _ heq4
          have hw6 : (skipWs r5 p5).1.length ≤ r5.length :=
            skipWs_len r5 p5
          split at h
          · next r7 heq6 =>
            injection h with h1' h2' h3'
            subst h2'
            rw [heq6] at hw6
            simp only [List.length_cons] at hw6
            omega
          · next r7 heq6 =>
            rw [heq6] at hw6
            simp only [List.length_cons] at hw6
            have hw8 : (skipWs r7 ((skipWs r5 p5).2 + 1)).1.length ≤
                r7.length := skipWs_len r7 ((skipWs r5 p5).2 + 1)
            split at h
            · next r9 heq7 =>
              rw [heq7] at hw8
              simp only [List.length_cons] at hw8
              have := ihOL _ _ _ _ _ _ h
              omega
            · exact absurd h (by simp)
          · exact absurd h (by simp)
      · split at h
        next r2w p2w heqw =>
        split at h
        · next r3 =>
          simp only [] at h
          simp only [List.length_cons] at h1
          have hw2 : (58 :: r3).length ≤ r1.length := by
            have := skipWs_len r1 p1
            rw [heqw] at this
            exact this
          simp only [List.length_cons] at hw2
          have hw4 : (skipWs r3 (p2w + 1)).1.length ≤ r3.length :=
            skipWs_len r3 (p2w + 1)
          split at h
          · exact absurd h (by simp)
          · exact absurd h (by simp)
          · next v1 r5 p5 heq4 =>
            have h5 : r5.length ≤ (skipWs r3 (p2w + 1)).1.length :=
              ihS _ _ _ _ _ heq4
            have hw6 : (skipWs r5 p5).1.length ≤ r5.length :=
              skipWs_len r5 p5
            split at h
            · next r7 heq6 =>
              injection h with h1' h2' h3'
              subst h2'
              rw [heq6] at hw6
              simp only [List.length_cons] at hw6
              omega
            · next r7 heq6 =>
              rw [heq6] at hw6
              simp only [List.length_cons] at hw6
              have hw8 : (skipWs r7 ((skipWs r5 p5).2 + 1)).1.length ≤
                  r7.length := skipWs_len r7 ((skipWs r5 p5).2 + 1)
              split at h
              · next r9 heq7 =>
                rw [heq7] at hw8
                simp only [List.length_cons] at hw8
                have := ihOL _ _ _ _ _ _ h
                omega
              · exact absurd h (by simp)
            · exact absurd h (by simp)
        · simp only [] at h
          exact absurd h (by simp)

/-! ## The fuel supplied by `jsonLoads` is sufficient -/

theorem scanString_no_out :
    ∀ (fuel begin : Nat) (s : PyStr) (pos : Nat) (acc : PyStr),
      s.length + 1 ≤ fuel → scanString fuel begin s pos acc ≠ .out
  | 0, _, s, _, _, hf => absurd hf (by omega)
  | fuel + 1, bg, [], pos, acc, hf => by simp [scanString]
  | fuel + 1, bg, c :: rs, pos, acc, hf => by
    unfold scanString
    by_cases h34 : (c == 34) = true
    · rw [if_pos h34]
      simp
    · rw [if_neg h34]
      by_cases h92 : (c == 92) = true
      · rw [if_pos h92]
        split
        · simp
        · next e rs2 =>
          by_cases hu : (e == 117) = true
          · rw [if_pos hu]
            split
            · simp
            · next uni hequ =>
              simp only []
              by_cases hsur : 0xd800 ≤ uni ∧ uni ≤ 0xdbff ∧
                  (rs2.drop 4).take 2 = [92, 117]
              · rw [if_pos hsur]
                split
                · simp
                · next uni2 hequ2 =>
                  by_cases hlo : 0xdc00 ≤ uni2 ∧ uni2 ≤ 0xdfff
                  · rw [if_pos hlo]
                    exact scanString_no_out fuel bg _ _ _ (by
                      simp only [List.length_cons] at hf
                      simp only [List.length_drop]
                      omega)
                  · rw [if_neg hlo]
                    exact scanString_no_out fuel bg _ _ _ (by
                      simp only [List.length_cons] at hf
                      simp only [List.length_drop]
                      omega)
              · rw [if_neg hsur]
                exact scanString_no_out fuel bg _ _ _ (by
                  simp only [List.length_cons] at hf
                  simp only [List.length_drop]
                  omega)
          · rw [if_neg hu]
            split
            · next ch heqb =>
              exact scanString_no_out fuel bg _ _ _ (by
                simp only [List.length_cons] at hf ⊢
                omega)
            · simp
      · rw [if_neg h92]
        by_cases hctl : c < 32
        · rw [if_pos hctl]
          simp
        · rw [if_neg hctl]
          exact scanString_no_out fuel bg _ _ _ (by
            simp only [List.length_cons] at hf ⊢
            omega)

/-- With fuel at least three times the remaining input (plus the given
slack), none of the parsing functions runs out of fuel. -/
theorem parse_no_out : ∀ fuel : Nat,
    (∀ s pos, 3 * s.length + 1 ≤ fuel → scanOnce fuel s pos ≠ .out) ∧
    (∀ s pos, 3 * s.length + 3 ≤ fuel → parseArray fuel s pos ≠ .out) ∧
    (∀ s pos acc, 3 * s.length + 2 ≤ fuel →
      arrayLoop fuel s pos acc ≠ .out) ∧
    (∀ s pos, 3 * s.length + 3 ≤ fuel → parseObject fuel s pos ≠ .out) ∧
    (∀ s pos pacc, 3 * s.length + 5 ≤ fuel →
      objLoop fuel s pos pacc ≠ .out) := by
  intro fuel
  induction fuel using Nat.strong_induction_on with
  | _ fuel IH =>
  cases fuel with
  | zero =>
    refine ⟨?_, ?_, ?_, ?_, ?_⟩
    · intro s pos hb
      exact absurd hb (by omega)
    · intro s pos hb
      exact absurd hb (by omega)
    · intro s pos acc hb
      exact absurd hb (by omega)
    · intro s pos hb
      exact absurd hb (by omega)
    · intro s pos pacc hb
      exact absurd hb (by omega)
  | succ f =>
  obtain ⟨ihS, ihPA, ihAL, ihPO, ihOL⟩ := IH f (by omega)
  refine ⟨?_, ?_, ?_, ?_, ?_⟩
  · intro s pos hb
    cases s with
    | nil => simp [scanOnce]
    | cons c rs =>
      simp only [List.length_cons] at hb
      unfold scanOnce
      split_ifs with h34 h123 h91 hnull htrue hfalse hnan hinf hninf
      · split
        · simp
        · simp
        · next heq =>
          exact absurd heq (scanString_no_out f pos rs (pos + 1) []
            (by omega))
      · exact ihPO _ _ (by omega)
      · exact ihPA _ _ (by omega)
      · simp
      · simp
      · simp
      · split
        · simp
        · simp
      · split
        · simp
        · simp
      · split
        · simp
        · simp
      · split
        · simp
        · simp
  · intro s pos hb
    unfold parseArray
    split
    next r1 p1 heq =>
    have hw : r1.length ≤ s.length := by
      have := skipWs_len s pos
      rw [heq] at this
      exact this
    split
    · simp
    · exact ihAL _ _ .nil (by omega)
  · intro s pos acc hb
    unfold arrayLoop
    split
    · simp
    · next heq =>
      exact absurd heq (ihS _ _ (by omega))
    · next v1 r1 p1 heq1 =>
      have h1 : r1.length ≤ s.length := (cons_parse f).1 _ _ _ _ _ heq1
      split
      next r2 p2 heq2 =>
      have h2 : r2.length ≤ r1.length := by
        have := skipWs_len r1 p1
        rw [heq2] at this
        exact this
      split
      · simp
      · next r3 =>
        split
        next r4 p4 heq3 =>
        have h4 : r4.length ≤ r3.length := by
          have := skipWs_len r3 (p2 + 1)
          rw [heq3] at this
          exact this
        simp only [List.length_cons] at h2
        exact ihAL _ _ _ (by omega)
      · simp
  · intro s pos hb
    unfold parseObject
    split
    · next r1 =>
      simp only [List.length_cons] at hb
      exact ihOL _ _ .nil (by omega)
    · split
      next r1 p1 heq =>
      have hw : r1.length ≤ s.length := by
        have := skipWs_len s pos
        rw [heq] at this
        exact this
      split
      · simp
      · next r2 =>
        simp only [List.length_cons] at hw
        exact ihOL _ _ .nil (by omega)
      · simp
  · intro s pos pacc hb
    unfold objLoop
    split
    · simp
    · next heq =>
      exact absurd heq (scanString_no_out f (pos - 1) s pos [] (by omega))
    · next key r1 p1 heq1 =>
      have h1 : r1.length ≤ s.length :=
        scanString_len f (pos - 1) s pos [] key r1 p1 heq1
      split
      · next r2 =>
        simp only []
        simp only [List.length_cons] at h1
        have hw4 : (skipWs r2 (p1 + 1)).1.length ≤ r2.length :=
          skipWs_len r2 (p1 + 1)
        split
        · simp
        · next heq4 =>
          exact absurd heq4 (ihS _ _ (by omega))
        · next v1 r5 p5 heq4 =>
          have h5 : r5.length ≤ (skipWs r2 (p1 + 1)).1.length :=
            (cons_parse f).1 _ _ _ _ _ heq4
          have hw6 : (skipWs r5 p5).1.length ≤ r5.length :=
            skipWs_len r5 p5
          split
          · simp
          · next r7 heq6 =>
            rw [heq6] at hw6
            simp only [List.length_cons] at hw6
            have hw8 : (skipWs r7 ((skipWs r5 p5).2 + 1)).1.length ≤
                r7.length := skipWs_len r7 ((skipWs r5 p5).2 + 1)
            split
            · next r9 heq7 =>
              rw [heq7] at hw8
              simp only [List.length_cons] at hw8
              exact ihOL _ _ _ (by omega)
            · simp
          · simp
      · split
        next r2w p2w heqw =>
        split
        · next r3 =>
          simp only []
          simp only [List.length_cons] at h1
          have hw2 : (58 :: r3).length ≤ r1.length := by
            have := skipWs_len r1 p1
            rw [heqw] at this
            exact this
          simp only [List.length_cons] at hw2
          have hw4 : (skipWs r3 (p2w + 1)).1.length ≤ r3.length :=
            skipWs_len r3 (p2w + 1)
          split
          · simp
          · next heq4 =>
            exact absurd heq4 (ihS _ _ (by omega))
          · next v1 r5 p5 heq4 =>
            have h5 : r5.length ≤ (skipWs r3 (p2w + 1)).1.length :=
              (cons_parse f).1 _ _ _ _ _ heq4
            have hw6 : (skipWs r5 p5).1.length ≤ r5.length :=
              skipWs_len r5 p5
            split
            · simp
            · next r7 heq6 =>
              rw [heq6] at hw6
              simp only [List.length_cons] at hw6
              have hw8 : (skipWs r7 ((skipWs r5 p5).2 + 1)).1.length ≤
                  r7.length := skipWs_len r7 ((skipWs r5 p5).2 + 1)
              split
              · next r9 heq7 =>
                rw [heq7] at hw8
                simp only [List.length_cons] at hw8
                exact ihOL _ _ _ (by omega)
              · simp
            · simp
        · simp only []
          simp

/-- The fuel `jsonLoads` supplies can never run out: its `.out` fallback
branch is unreachable. -/
theorem scanOnce_no_out (s : PyStr) (pos : Nat) :
    scanOnce (loadsFuel s) ((skipWs s 0).1) pos ≠ .out := by
  have h1 := skipWs_len s 0
  exact (parse_no_out (loadsFuel s)).1 _ pos (by unfold loadsFuel; omega)

/-! ## From the parser entry points to well-formedness -/

theorem jsonLoads_wf (s : PyStr) (v : JsonValue) (h : jsonLoads s = .ok v) :
    wfV v = true := by
  unfold jsonLoads at h
  split at h
  · exact absurd h (by simp)
  · split at h
    next r1 p1 heq1 =>
    split at h
    · exact absurd h (by simp)
    · exact absurd h (by simp)
    · next v1 rest p heq2 =>
      have hwf1 := (wf_parse (loadsFuel s)).1 _ _ _ _ _ heq2
      split at h
      next rest2 p2 heq3 =>
      split at h
      · injection h with h1
        subst h1
        exact hwf1
      · exact absurd h (by simp)

theorem parse_wf (s : PyStr) (v : JsonValue)
    (h : JSONData.parse s = .ok v) : wfV v = true := by
  unfold JSONData.parse at h
  split at h
  · exact absurd h (by simp)
  · split at h
    · next w heq =>
      injection h with h1
      subst h1
      exact jsonLoads_wf s w heq
    · exact absurd h (by simp)

theorem pyStripLeft_empty_all :
    ∀ l : PyStr, pyStripLeft l = [] → ∀ x ∈ l, pyIsSpace x = true
  | [], _, x, hx => absurd hx (by simp)
  | c :: cs, h, x, hx => by
    by_cases hc : pyIsSpace c = true
    · have h2 : pyStripLeft cs = [] := by
        have hstep : pyStripLeft (c :: cs) = pyStripLeft cs := by
          conv_lhs => unfold pyStripLeft
          rw [if_pos hc]
        rw [hstep] at h
        exact h
      rcases List.mem_cons.1 hx with hx | hx
      · subst hx; exact hc
      · exact pyStripLeft_empty_all cs h2 x hx
    · have h2 : pyStripLeft (c :: cs) = c :: cs := by
        unfold pyStripLeft
        rw [if_neg hc]
      rw [h2] at h
      exact absurd h (by simp)

theorem pyStrip_cons_ne_empty (c : Nat) (t : PyStr)
    (hc : pyIsSpace c = false) : (pyStrip (c :: t)).isEmpty = false := by
  unfold pyStrip
  have h1 : pyStripLeft (c :: t) = c :: t := by
    unfold pyStripLeft
    rw [if_neg (by simp [hc])]
  rw [h1]
  rcases h2 : pyStripLeft (c :: t).reverse with _ | ⟨d, ds⟩
  · have hall := pyStripLeft_empty_all _ h2 c (by simp)
    rw [hall] at hc
    exact absurd hc (by simp)
  · simp

theorem encV_head_not_space (c : Nat)
    (h : c = 34 ∨ c = 45 ∨ (48 ≤ c ∧ c ≤ 57) ∨ c = 91 ∨ c = 102 ∨ c = 110 ∨
      c = 116 ∨ c = 123 ∨ c = 78 ∨ c = 73) : pyIsSpace c = false := by
  unfold pyIsSpace
  simp only [Bool.or_eq_false_iff, Bool.and_eq_false_iff,
    decide_eq_false_iff_not, beq_eq_false_iff_ne, not_le]
  omega

/-- `JSONData.parse` inverts serialization of a well-formed value. -/
theorem parse_enc (w : JsonValue) (ind : Nat) (hwf : wfV w = true) :
    JSONData.parse (encV ind 0 w) = .ok w := by
  obtain ⟨c, tt, henc, hprop⟩ := encV_head ind 0 w
  have hne : (pyStrip (encV ind 0 w)).isEmpty = false := by
    rw [henc]
    exact pyStrip_cons_ne_empty c tt (encV_head_not_space c hprop)
  unfold JSONData.parse
  rw [if_neg (by simp [hne]), jsonLoads_enc w ind hwf]

/-! ## Deep equality between the canonicalized and the original value -/

theorem pairMemB_cons_iff (a : PyStr) (b : JsonValue) (tl : JsonPairs)
    (k : PyStr) (w : JsonValue) :
    (JsonPairs.cons a b tl).pairMemB k w = true ↔
      (a = k ∧ b = w) ∨ tl.pairMemB k w = true := by
  show ((decide (a = k) && decide (b = w)) || tl.pairMemB k w) = true ↔ _
  simp

theorem pairMemB_key_mem :
    ∀ (p : JsonPairs) (k : PyStr) (v : JsonValue),
      p.pairMemB k v = true → k ∈ p.keys
  | .nil, _, _, h => absurd h (by simp [JsonPairs.pairMemB])
  | .cons k2 v2 tl, k, v, h => by
    show k ∈ k2 :: tl.keys
    rcases (pairMemB_cons_iff k2 v2 tl k v).1 h with ⟨hk, _⟩ | ht
    · exact List.mem_cons.2 (Or.inl hk.symm)
    · exact List.mem_cons.2 (Or.inr (pairMemB_key_mem tl k v ht))

theorem lookup_of_pairMemB :
    ∀ (p : JsonPairs) (k : PyStr) (v : JsonValue),
      p.keys.Nodup → p.pairMemB k v = true → p.lookup k = some v
  | .nil, _, _, _, h => absurd h (by simp [JsonPairs.pairMemB])
  | .cons k2 v2 tl, k, v, hnd, h => by
    have hnd2 : k2 ∉ tl.keys ∧ tl.keys.Nodup := by
      simpa [JsonPairs.keys] using hnd
    show (if k2 = k then some v2 else tl.lookup k) = some v
    rcases (pairMemB_cons_iff k2 v2 tl k v).1 h with ⟨hk, hv⟩ | ht
    · rw [if_pos hk, hv]
    · have hkne : ¬k2 = k := fun he =>
        hnd2.1 (he ▸ pairMemB_key_mem tl k v ht)
      rw [if_neg hkne]
      exact lookup_of_pairMemB tl k v hnd2.2 ht

theorem pairMemB_insertSorted :
    ∀ (p : JsonPairs) (a : PyStr) (b : JsonValue) (k : PyStr) (w : JsonValue),
      (p.insertSorted a b).pairMemB k w = true →
      (a = k ∧ b = w) ∨ p.pairMemB k w = true
  | .nil, a, b, k, w, h => by
    have h2 : (JsonPairs.cons a b .nil).pairMemB k w = true := h
    rcases (pairMemB_cons_iff a b .nil k w).1 h2 with hh | ht
    · exact Or.inl hh
    · exact absurd ht (by simp [JsonPairs.pairMemB])
  | .cons k2 v2 tl, a, b, k, w, h => by
    by_cases hle : pyStrLe a k2 = true
    · have hrw : (JsonPairs.cons k2 v2 tl).insertSorted a b =
          .cons a b (.cons k2 v2 tl) := by
        conv_lhs => unfold JsonPairs.insertSorted
        rw [if_pos hle]
      rw [hrw] at h
      rcases (pairMemB_cons_iff a b _ k w).1 h with hh | ht
      · exact Or.inl hh
      · exact Or.inr ht
    · have hrw : (JsonPairs.cons k2 v2 tl).insertSorted a b =
          .cons k2 v2 (tl.insertSorted a b) := by
        conv_lhs => unfold JsonPairs.insertSorted
        rw [if_neg hle]
      rw [hrw] at h
      rcases (pairMemB_cons_iff k2 v2 _ k w).1 h with hh | ht
      · exact Or.inr ((pairMemB_cons_iff k2 v2 tl k w).2 (Or.inl hh))
      · rcases pairMemB_insertSorted tl a b k w ht with hh2 | ht2
        · exact Or.inl hh2
        · exact Or.inr ((pairMemB_cons_iff k2 v2 tl k w).2 (Or.inr ht2))

theorem pairMemB_sortByKey :
    ∀ (p : JsonPairs) (k : PyStr) (w : JsonValue),
      p.sortByKey.pairMemB k w = true → p.pairMemB k w = true
  | .nil, _, _, h => h
  | .cons k2 v2 tl, k, w, h => by
    have h2 : ((tl.sortByKey).insertSorted k2 v2).pairMemB k w = true := h
    rcases pairMemB_insertSorted tl.sortByKey k2 v2 k w h2 with hh | ht
    · exact (pairMemB_cons_iff k2 v2 tl k w).2 (Or.inl hh)
    · exact (pairMemB_cons_iff k2 v2 tl k w).2
        (Or.inr (pairMemB_sortByKey tl k w ht))

theorem pairMemB_canonP (sk : Bool) :
    ∀ (p : JsonPairs) (k : PyStr) (w : JsonValue),
      (canonP sk p).pairMemB k w = true →
      ∃ v, p.pairMemB k v = true ∧ w = canonV sk v
  | .nil, _, _, h => absurd h (by simp [canonP, JsonPairs.pairMemB])
  | .cons k2 v2 tl, k, w, h => by
    have h2 : (JsonPairs.cons k2 (canonV sk v2) (canonP sk tl)).pairMemB k w
        = true := h
    rcases (pairMemB_cons_iff k2 (canonV sk v2) (canonP sk tl) k w).1 h2 with
      ⟨hk, hv⟩ | ht
    · exact ⟨v2, (pairMemB_cons_iff k2 v2 tl k v2).2 (Or.inl ⟨hk, rfl⟩), hv.symm⟩
    · obtain ⟨v, hv, hwv⟩ := pairMemB_canonP sk tl k w ht
      exact ⟨v, (pairMemB_cons_iff k2 v2 tl k v).2 (Or.inr hv), hwv⟩

theorem deepEqMembers_of :
    ∀ (q kvs : JsonPairs), kvs.keys.Nodup →
      (∀ k w, q.pairMemB k w = true →
        ∃ v, kvs.pairMemB k v = true ∧ deepEqV w v = true) →
      deepEqMembers q kvs = true
  | .nil, _, _, _ => rfl
  | .cons k w tl, kvs, hnd, hsub => by
    obtain ⟨v, hmem, hde⟩ :=
      hsub k w ((pairMemB_cons_iff k w tl k w).2 (Or.inl ⟨rfl, rfl⟩))
    have hlk : kvs.lookup k = some v := lookup_of_pairMemB kvs k v hnd hmem
    have htl := deepEqMembers_of tl kvs hnd (fun k2 w2 hm =>
      hsub k2 w2 ((pairMemB_cons_iff k w tl k2 w2).2 (Or.inr hm)))
    show ((match kvs.lookup k with
      | some w2 => deepEqV w w2
      | none => false) && deepEqMembers tl kvs) = true
    rw [hlk, htl]
    show (deepEqV w v && true) = true
    rw [hde]
    rfl

mutual

theorem deepEq_canonV (sk : Bool) :
    ∀ v : JsonValue, wfV v = true → noNaNV v = true →
      deepEqV (canonV sk v) v = true
  | .jnull, _, _ => rfl
  | .jtrue, _, _ => rfl
  | .jfalse, _, _ => rfl
  | .jint n, _, _ => by
    show (n == n) = true
    simp
  | .jfloat q, _, _ => by
    show (q == q) = true
    simp
  | .jnan, _, hn => absurd hn (by simp [noNaNV])
  | .jinf, _, _ => rfl
  | .jneginf, _, _ => rfl
  | .jstr t, _, _ => by
    show (t == t) = true
    simp
  | .jarr xs, hw, hn => deepEq_canonL sk xs hw hn
  | .jobj kvs, hw, hn => by
    have hsp : decide kvs.keys.Nodup = true ∧ wfP kvs = true := by
      simpa using
        (show (decide kvs.keys.Nodup && wfP kvs) = true from hw)
    have hnd : kvs.keys.Nodup := of_decide_eq_true hsp.1
    have hmem : ∀ k w,
        (if sk then (canonP sk kvs).sortByKey else canonP sk kvs).pairMemB k w
          = true →
        ∃ v, kvs.pairMemB k v = true ∧ deepEqV w v = true := by
      intro k w hkw
      have hkw2 : (canonP sk kvs).pairMemB k w = true := by
        cases sk with
        | false => simpa using hkw
        | true => exact pairMemB_sortByKey _ k w (by simpa using hkw)
      obtain ⟨v, hv, hwv⟩ := pairMemB_canonP sk kvs k w hkw2
      subst hwv
      exact ⟨v, hv, deepEq_canonPmem sk kvs hsp.2 hn k v hv⟩
    have hlen :
        (if sk then (canonP sk kvs).sortByKey else canonP sk kvs).length
          = kvs.length := by
      cases sk with
      | false => simpa using length_canonP false kvs
      | true =>
        show ((canonP true kvs).sortByKey).length = kvs.length
        rw [length_sortByKey, length_canonP]
    show ((if sk then (canonP sk kvs).sortByKey else canonP sk kvs).length
        == kvs.length &&
      deepEqMembers (if sk then (canonP sk kvs).sortByKey else canonP sk kvs)
        kvs) = true
    rw [deepEqMembers_of _ kvs hnd hmem, hlen]
    simp

theorem deepEq_canonL (sk : Bool) :
    ∀ xs : JsonList, wfL xs = true → noNaNL xs = true →
      deepEqL (canonL sk xs) xs = true
  | .nil, _, _ => rfl
  | .cons hd tl, hw, hn => by
    have hw2 : wfV hd = true ∧ wfL tl = true := by
      simpa using (show (wfV hd && wfL tl) = true from hw)
    have hn2 : noNaNV hd = true ∧ noNaNL tl = true := by
      simpa using (show (noNaNV hd && noNaNL tl) = true from hn)
    show (deepEqV (canonV sk hd) hd && deepEqL (canonL sk tl) tl) = true
    rw [deepEq_canonV sk hd hw2.1 hn2.1, deepEq_canonL sk tl hw2.2 hn2.2]
    rfl

theorem deepEq_canonPmem (sk : Bool) :
    ∀ p : JsonPairs, wfP p = true → noNaNP p = true →
      ∀ k w, p.pairMemB k w = true → deepEqV (canonV sk w) w = true
  | .nil, _, _, _, _, h => absurd h (by simp [JsonPairs.pairMemB])
  | .cons k2 v2 tl, hw, hn, k, w, h => by
    have hw2 : wfV v2 = true ∧ wfP tl = true := by
      simpa using (show (wfV v2 && wfP tl) = true from hw)
    have hn2 : noNaNV v2 = true ∧ noNaNP tl = true := by
      simpa using (show (noNaNV v2 && noNaNP tl) = true from hn)
    rcases (pairMemB_cons_iff k2 v2 tl k w).1 h with ⟨_, hv⟩ | ht
    · subst hv
      exact deepEq_canonV sk v2 hw2.1 hn2.1
    · exact deepEq_canonPmem sk tl hw2.2 hn2.2 k w ht

end

/-! ## Claim C2: formatting is idempotent -/

/-- **C2.** Formatting is idempotent: whenever `JSONData.format` succeeds
on `s` (with formatted text `t`), running `JSONData.format` on `t` with
the same `indent` and `sort_keys` options returns the very same
`JSONFormatResult` — in particular the formatted text is byte-identical
to `t` and the `line_count` agrees. -/
theorem format_idempotent (s t : PyStr) (ind : Nat) (sk : Bool)
    (h : (JSONData.format s ind sk).formatted_json = some t) :
    JSONData.format t ind sk = JSONData.format s ind sk := by
  unfold JSONData.format at h
  split at h
  · exact absurd h (by simp)
  · next v hp =>
    have ht : pyJsonDumps v ind sk = t := by simpa using h
    have hwf : wfV v = true := parse_wf s v hp
    have hwfc : wfV (canonV sk v) = true := wfV_canon sk v hwf
    have hpt : JSONData.parse t = .ok (canonV sk v) := by
      rw [← ht]
      unfold pyJsonDumps
      exact parse_enc (canonV sk v) ind hwfc
    have hdump : pyJsonDumps (canonV sk v) ind sk = t := by
      rw [← ht]
      unfold pyJsonDumps
      rw [canonV_idem]
    unfold JSONData.format
    rw [hp, hpt]
    simp only []
    rw [hdump, ht]

theorem format_idempotent_witness :
    (JSONData.format (toPy "[1]") 2 true).formatted_json =
        some (toPy "[\n  1\n]") ∧
      JSONData.format (toPy "[\n  1\n]") 2 true =
        JSONData.format (toPy "[1]") 2 true :=
  ⟨by decide,
   format_idempotent (toPy "[1]") (toPy "[\n  1\n]") 2 true (by decide)⟩

/-! ## Claim C3: formatting round-trips the value up to deep equality -/

/-- The original C3 claim fails on the valid input `NaN`: formatting
succeeds and reproduces `NaN`, but the re-parsed value `nan` is not
Python-`==`-equal to the originally parsed value `nan` (`nan != nan`), so
no parse of the formatted text is deep-equal to the parse of the
input. -/
theorem format_roundtrip_cex :
    JSONData.parse (toPy "NaN") = .ok .jnan ∧
    (JSONData.format (toPy "NaN") 2 true).formatted_json =
      some (toPy "NaN") ∧
    deepEqV .jnan .jnan = false := by
  refine ⟨by rfl, by decide, rfl⟩

/-- **C3** (amended: the parsed value must contain no `NaN`, since
Python's `nan` is not `==`-equal to itself). For every input `s` that
parses to a NaN-free value `v`, if `JSONData.format` succeeds on `s` with
formatted text `t`, then parsing `t` succeeds and the resulting value is
deep-equal (Python `==`) to `v` — for every `indent` and either
`sort_keys` setting. -/
theorem format_roundtrip (s t : PyStr) (ind : Nat) (sk : Bool)
    (v : JsonValue) (hp : JSONData.parse s = .ok v)
    (hn : noNaNV v = true)
    (ht : (JSONData.format s ind sk).formatted_json = some t) :
    ∃ w, JSONData.parse t = .ok w ∧ deepEqV w v = true := by
  unfold JSONData.format at ht
  rw [hp] at ht
  have ht2 : pyJsonDumps v ind sk = t := by simpa using ht
  have hwf : wfV v = true := parse_wf s v hp
  refine ⟨canonV sk v, ?_, ?_⟩
  · rw [← ht2]
    unfold pyJsonDumps
    exact parse_enc (canonV sk v) ind (wfV_canon sk v hwf)
  · exact deepEq_canonV sk v hwf hn

theorem format_roundtrip_witness :
    (JSONData.parse (toPy "\x7b\"b\":0,\"a\":1\x7d") =
        .ok (.jobj (.cons (toPy "b") (.jint 0)
          (.cons (toPy "a") (.jint 1) .nil))) ∧
      noNaNV (.jobj (.cons (toPy "b") (.jint 0)
        (.cons (toPy "a") (.jint 1) .nil))) = true ∧
      (JSONData.format (toPy "\x7b\"b\":0,\"a\":1\x7d") 1 true).formatted_json =
        some (toPy "\x7b\n \"a\": 1,\n \"b\": 0\n\x7d")) ∧
    ∃ w, JSONData.parse (toPy "\x7b\n \"a\": 1,\n \"b\": 0\n\x7d") = .ok w ∧
      deepEqV w (.jobj (.cons (toPy "b") (.jint 0)
        (.cons (toPy "a") (.jint 1) .nil))) = true :=
  ⟨⟨by rfl, by decide, by decide⟩,
   format_roundtrip (toPy "\x7b\"b\":0,\"a\":1\x7d")
     (toPy "\x7b\n \"a\": 1,\n \"b\": 0\n\x7d") 1 true
     (.jobj (.cons (toPy "b") (.jint 0) (.cons (toPy "a") (.jint 1) .nil)))
     (by rfl) (by decide) (by decide)⟩

end JsonFmt
